import Mathlib

/-!
# grpcdoer: the command parser (`pkg/todo`) and the task agenda (`cmd/server`)

A shallow embedding of `ParseLine` (src/pkg/todo/todo.go) and of the three
methods of `TaskAgendaService` (src/cmd/server/server.go).

Conventions of the embedding

* A Go `string` is a `List Char`: the list of the runes of the text.  Every
  character class used by the patterns of `todo.go` (`\s`, `\d`, `.`, `[^\s]`
  and literal ASCII letters) is decided rune by rune, and offsets are only ever
  used to cut the text at the boundaries of a match, so a slice
  `line[a:b]` of the source is the same text as the slice of the rune list.
* `regexp` of the Go standard library is embedded as a backtracking matcher
  that lists the ways a pattern can match in the order of preference of the
  library (leftmost-first: a greedy repetition prefers one more iteration, an
  alternation prefers its left branch).
* A run-time panic of the Go code is the value `none` of an `Option`.
* `int` is the 64 bit integer of the usual build targets.
-/

namespace Todo

/-! ## Regular expressions -/

/-- The fragment of the RE2 syntax that the patterns of `todo.go` use. -/
inductive Regex where
  | empty : Regex
  | cls : (Char → Bool) → Regex
  | seq : Regex → Regex → Regex
  | alt : Regex → Regex → Regex
  | star : Regex → Regex
  | group : Nat → Regex → Regex
  | bol : Regex
  | eol : Regex

/-- One way of matching: the offset reached, the text still to be read and the
capture groups closed so far (most recent first). -/
structure Thread where
  pos : Nat
  rest : List Char
  caps : List (Nat × Nat × Nat)
deriving DecidableEq, Repr

/-- Greedy iteration: one more round of `step` (which has to consume text) is
preferred to stopping.  The first argument bounds the number of rounds; the
text still to be read is always enough. -/
def starLoop (step : Thread → List Thread) : Nat → Thread → List Thread
  | 0, t => [t]
  | n + 1, t =>
    (((step t).filter fun u => decide (u.rest.length < t.rest.length)).flatMap
      (starLoop step n)) ++ [t]

/-- All the ways `re` matches at the thread, preferred ones first. -/
def run : Regex → Thread → List Thread
  | .empty, t => [t]
  | .cls p, t =>
    match t.rest with
    | [] => []
    | c :: cs => if p c then [{ t with pos := t.pos + 1, rest := cs }] else []
  | .seq a b, t => (run a t).flatMap (run b)
  | .alt a b, t => run a t ++ run b t
  | .star a, t => starLoop (run a) t.rest.length t
  | .group i a, t => (run a t).map fun u => { u with caps := (i, t.pos, u.pos) :: u.caps }
  | .bol, t => if t.pos = 0 then [t] else []
  | .eol, t => if t.rest = [] then [t] else []

/-- The class `\s` of RE2: `[\t\n\f\r ]`. -/
def isSpace (c : Char) : Bool :=
  c == '\t' || c == '\n' || c == '\x0c' || c == '\r' || c == ' '

/-- The class `\d` of RE2: `[0-9]`. -/
def isDigit (c : Char) : Bool := decide ('0' ≤ c) && decide (c ≤ '9')

/-- The class `.` of RE2 without the `s` flag: every rune but the line feed. -/
def isDot (c : Char) : Bool := !(c == '\n')

/-- The class `[^\s]`. -/
def isNonSpace (c : Char) : Bool := !(isSpace c)

/-- A literal rune. -/
def chr (c : Char) : Regex := .cls fun d => d == c

/-- Concatenation of a list of expressions. -/
def cat : List Regex → Regex
  | [] => .empty
  | r :: rs => .seq r (cat rs)

/-- A literal text. -/
def lit (s : String) : Regex := cat (s.toList.map chr)

/-- The operator `+` (greedy). -/
def plus (r : Regex) : Regex := .seq r (.star r)

/-- The operator `?` (greedy). -/
def opt (r : Regex) : Regex := .alt r .empty

/-- The operator `{n}`. -/
def rep (n : Nat) (r : Regex) : Regex := cat (List.replicate n r)

/-- Alternation of a list of expressions, the leftmost preferred. -/
def alts : List Regex → Regex
  | [] => .cls fun _ => false
  | [r] => r
  | r :: rs => .alt r (alts rs)

/-- Number of capture groups of an expression. -/
def numSubexp : Regex → Nat
  | .seq a b => max (numSubexp a) (numSubexp b)
  | .alt a b => max (numSubexp a) (numSubexp b)
  | .star a => numSubexp a
  | .group i a => max i (numSubexp a)
  | _ => 0

/-! ### The patterns of `todo.go` -/

/-- Pattern `^\s*list\s*$`. -/
def reListCommand : Regex :=
  cat [.bol, .star (.cls isSpace), lit "list", .star (.cls isSpace), .eol]

/-- Pattern `^\s*done\s+(\d+)\s*$`. -/
def reDoneCommand : Regex :=
  cat [.bol, .star (.cls isSpace), lit "done", plus (.cls isSpace),
    .group 1 (plus (.cls isDigit)), .star (.cls isSpace), .eol]

/-- Pattern `^\s*help(\s+(add|bye|done|help|list|version))?\s*$`. -/
def reHelpCommand : Regex :=
  cat [.bol, .star (.cls isSpace), lit "help",
    opt (.group 1 (cat [plus (.cls isSpace),
      .group 2 (alts [lit "add", lit "bye", lit "done", lit "help", lit "list",
        lit "version"])])),
    .star (.cls isSpace), .eol]

/-- Pattern `^\s*(bye|quit|exit)\s*$`. -/
def reByeCommand : Regex :=
  cat [.bol, .star (.cls isSpace), .group 1 (alts [lit "bye", lit "quit", lit "exit"]),
    .star (.cls isSpace), .eol]

/-- Pattern `^\s*version\s*$`. -/
def reVersionCommand : Regex :=
  cat [.bol, .star (.cls isSpace), lit "version", .star (.cls isSpace), .eol]

/-- Pattern `^\s*add\s+(.+)\s*$`. -/
def reAddCommand : Regex :=
  cat [.bol, .star (.cls isSpace), lit "add", plus (.cls isSpace),
    .group 1 (plus (.cls isDot)), .star (.cls isSpace), .eol]

/-- Pattern `project:([^\s]+)`. -/
def reAddCommandProject : Regex :=
  cat [lit "project:", .group 1 (plus (.cls isNonSpace))]

/-- Pattern `due:(\d{4}-\d{2}-\d{2})`. -/
def reAddCommandDue : Regex :=
  cat [lit "due:", .group 1 (cat [rep 4 (.cls isDigit), chr '-', rep 2 (.cls isDigit),
    chr '-', rep 2 (.cls isDigit)])]

/-! ### The entry points of `regexp` that `ParseLine` calls -/

/-- The preferred match of `re` that starts at offset `pos`, where `rest` is the
text from that offset on. -/
def matchAt (re : Regex) (pos : Nat) (rest : List Char) : Option Thread :=
  (run re { pos := pos, rest := rest, caps := [] }).head?

/-- The leftmost match among the start offsets `pos, pos + 1, ...` up to the end
of the text; `rest` is the text from offset `pos` on. -/
def findFrom (re : Regex) : Nat → List Char → Option (Nat × Thread)
  | pos, [] => (matchAt re pos []).map fun t => (pos, t)
  | pos, c :: cs =>
    match matchAt re pos (c :: cs) with
    | some t => some (pos, t)
    | none => findFrom re (pos + 1) cs

/-- The leftmost match of `re` in `line`: its start offset and its thread. -/
def find (re : Regex) (line : List Char) : Option (Nat × Thread) :=
  findFrom re 0 line

/-- Method `MatchString`. -/
def MatchString (re : Regex) (line : List Char) : Bool := (find re line).isSome

/-- The pair of offsets of group `i` in a match, `-1` twice for a group that did
not take part. -/
def groupIndex (caps : List (Nat × Nat × Nat)) (i : Nat) : List Int :=
  match caps.find? fun c => c.1 == i with
  | some c => [(c.2.1 : Int), (c.2.2 : Int)]
  | none => [-1, -1]

/-- Method `FindStringSubmatchIndex`: `none` is the nil slice. -/
def FindStringSubmatchIndex (re : Regex) (line : List Char) : Option (List Int) :=
  match find re line with
  | none => none
  | some (start, t) =>
    some ([(start : Int), (t.pos : Int)] ++
      ((List.range (numSubexp re)).flatMap fun i => groupIndex t.caps (i + 1)))

/-- The text of group `i` in a match, empty for a group that did not take part. -/
def groupText (line : List Char) (caps : List (Nat × Nat × Nat)) (i : Nat) : List Char :=
  match caps.find? fun c => c.1 == i with
  | some c => (line.drop c.2.1).take (c.2.2 - c.2.1)
  | none => []

/-- Method `FindStringSubmatch`: `none` is the nil slice. -/
def FindStringSubmatch (re : Regex) (line : List Char) : Option (List (List Char)) :=
  match find re line with
  | none => none
  | some (start, t) =>
    some ((line.drop start).take (t.pos - start) ::
      (List.range (numSubexp re)).map fun i => groupText line t.caps (i + 1))

/-- Method `ReplaceAllString` with the empty replacement, for a pattern that
never matches the empty text: the matches are found from left to right, each
search resuming where the previous match ended; `rest` is the text from offset
`pos` on.  The first argument bounds the number of steps. -/
def removeAllFrom (re : Regex) : Nat → Nat → List Char → List Char
  | 0, _, _ => []
  | _ + 1, _, [] => []
  | n + 1, pos, c :: cs =>
    match matchAt re pos (c :: cs) with
    | some t =>
      if pos < t.pos then removeAllFrom re n t.pos t.rest
      else c :: removeAllFrom re n (pos + 1) cs
    | none => c :: removeAllFrom re n (pos + 1) cs

/-- Method `ReplaceAllString(line, "")`. -/
def ReplaceAllString (re : Regex) (line : List Char) : List Char :=
  removeAllFrom re (line.length + 1) 0 line

/-! ## Library functions called by the parser and by the server -/

/-- Function `strings.Trim(s, " ")`: the leading and trailing spaces (U+0020
only) are removed. -/
def Trim (s : List Char) : List Char :=
  (s.dropWhile fun c => c == ' ').rdropWhile fun c => c == ' '

/-- The result of `len(s)`: the number of bytes of the UTF-8 text. -/
def len (s : List Char) : Nat := (s.map Char.utf8Size).sum

/-- Size in bits of `int`. -/
def intSize : Nat := 64

/-- The error values of `strconv`. -/
inductive NumError where
  | ErrSyntax
  | ErrRange
deriving DecidableEq, Repr

/-- The loop of the fast path of `strconv.Atoi`: `n = n*10 + int(ch - '0')`,
a syntax error at the first byte that is not a decimal digit. -/
def atoiLoop : List Char → Int → Option Int
  | [], n => some n
  | ch :: s, n => if isDigit ch then atoiLoop s (n * 10 + ((ch.toNat - 48 : Nat) : Int)) else none

/-- The loop of `strconv.ParseUint(s, 10, 64)`: the accumulator is an unsigned
64 bit number; `cutoff = maxUint64/10 + 1`; the result is `maxVal` with a range
error as soon as the next digit does not fit. -/
def parseUintLoop : List Char → Nat → Nat × Option NumError
  | [], n => (n, none)
  | c :: s, n =>
    if isDigit c then
      if n ≥ (2 ^ 64 - 1) / 10 + 1 then (2 ^ 64 - 1, some .ErrRange)
      else
        let n10 := (n * 10) % 2 ^ 64
        let n1 := (n10 + (c.toNat - 48)) % 2 ^ 64
        if n1 < n10 ∨ n1 > 2 ^ 64 - 1 then (2 ^ 64 - 1, some .ErrRange)
        else parseUintLoop s n1
    else (0, some .ErrSyntax)

/-- Function `strconv.ParseUint(s, 10, 0)`. -/
def ParseUint (s : List Char) : Nat × Option NumError :=
  match s with
  | [] => (0, some .ErrSyntax)
  | _ => parseUintLoop s 0

/-- Function `strconv.ParseInt(s, 10, 0)`. -/
def ParseInt (s : List Char) : Int × Option NumError :=
  match s with
  | [] => (0, some .ErrSyntax)
  | c :: cs =>
    let neg := c == '-'
    let s1 := if c == '+' || c == '-' then cs else c :: cs
    match ParseUint s1 with
    | (_, some .ErrSyntax) => (0, some .ErrSyntax)
    | (un, e) =>
      let cutoff : Nat := 2 ^ (intSize - 1)
      if !neg ∧ un ≥ cutoff then (((cutoff - 1 : Nat) : Int), some .ErrRange)
      else if neg ∧ un > cutoff then (-(cutoff : Int), some .ErrRange)
      else (if neg then -(un : Int) else (un : Int), e)

/-- Function `strconv.Atoi`: the value and the error. -/
def Atoi (s : List Char) : Int × Option NumError :=
  if 0 < len s ∧ len s < 19 then
    match s with
    | [] => (0, some .ErrSyntax)
    | c :: cs =>
      let s1 := if c == '-' || c == '+' then cs else c :: cs
      if len s1 < 1 then (0, some .ErrSyntax)
      else
        match atoiLoop s1 0 with
        | none => (0, some .ErrSyntax)
        | some n => (if c == '-' then -n else n, none)
  else ParseInt s

/-- Function `fmt.Sprintf("%d", n)` for an `int`. -/
def fmtInt (n : Int) : List Char :=
  if n < 0 then '-' :: (Nat.repr n.natAbs).toList else (Nat.repr n.natAbs).toList

/-- A value of `time.Time` as the parser and the server produce them: a calendar
day at midnight UTC. -/
structure Time where
  year : Nat
  month : Nat
  day : Nat
deriving DecidableEq, Repr

/-- The zero value `time.Time{}`: 1 January of year 1. -/
def Time.zero : Time := { year := 1, month := 1, day := 1 }

/-- Leap years of the proleptic Gregorian calendar (`isLeap` of package `time`). -/
def isLeap (year : Nat) : Bool := year % 4 == 0 && (year % 100 != 0 || year % 400 == 0)

/-- Function `daysIn` of package `time`. -/
def daysIn (month year : Nat) : Nat :=
  if month = 2 then (if isLeap year then 29 else 28)
  else if month = 4 ∨ month = 6 ∨ month = 9 ∨ month = 11 then 30
  else 31

/-- Value of a decimal digit. -/
def digitVal (c : Char) : Nat := c.toNat - 48

/-- Function `time.Parse("2006-01-02", value)`; `none` is a non-nil error (the
time returned with it is `time.Time{}`).  The layout asks for four digits, a
dash, two digits, a dash and two digits, and nothing after them; the month has
to be in `1..12` and the day in `1..daysIn(month, year)`. -/
def timeParse (value : List Char) : Option Time :=
  match value with
  | [y1, y2, y3, y4, s1, m1, m2, s2, d1, d2] =>
    if isDigit y1 && isDigit y2 && isDigit y3 && isDigit y4 && s1 == '-' &&
        isDigit m1 && isDigit m2 && s2 == '-' && isDigit d1 && isDigit d2 then
      let year := digitVal y1 * 1000 + digitVal y2 * 100 + digitVal y3 * 10 + digitVal y4
      let month := digitVal m1 * 10 + digitVal m2
      let day := digitVal d1 * 10 + digitVal d2
      if month ≤ 0 ∨ 12 < month then none
      else if day < 1 ∨ day > daysIn month year then none
      else some { year := year, month := month, day := day }
    else none
  | _ => none

/-- Two decimal digits of a number below 100. -/
def twoDigits (n : Nat) : List Char :=
  [Char.ofNat (48 + n / 10 % 10), Char.ofNat (48 + n % 10)]

/-- Method `Format("2006-01-02")` of a `time.Time` whose year is in `0..9999`. -/
def Time.Format (t : Time) : List Char :=
  twoDigits (t.year / 100) ++ twoDigits (t.year % 100) ++ ['-'] ++ twoDigits t.month ++
    ['-'] ++ twoDigits t.day

/-- The slice `s[lo:hi]`; `none` is the run-time panic for bounds out of range. -/
def slice (s : List Char) (lo hi : Int) : Option (List Char) :=
  if 0 ≤ lo ∧ lo ≤ hi ∧ hi ≤ (s.length : Int) then
    some ((s.drop lo.toNat).take (hi.toNat - lo.toNat))
  else none

/-- The two elements `m[i]` and `m[j]` of a slice of integers; `none` is the
run-time panic for an index out of range. -/
def index2 (m : List Int) (i j : Nat) : Option (Int × Int) :=
  match m.get? i, m.get? j with
  | some a, some b => some (a, b)
  | _, _ => none

/-! ## The commands and `ParseLine` -/

/-- The six command types of `todo.go` as the variants of one type (the dynamic
type of the `interface{}` that `ParseLine` returns). -/
inductive Command where
  | ListCommand (v : Int)
  | DoneCommand (Id : Int)
  | AddCommand (Desc : List Char) (Project : List Char) (Due : Time)
  | HelpCommand (Query : List Char)
  | ByeCommand (v : Int)
  | VersionCommand (v : Int)
deriving DecidableEq, Repr

/-- The pair `(interface{}, error)` that `ParseLine` returns; `none` is nil. -/
structure Ret where
  cmd : Option Command
  err : Option String
deriving DecidableEq, Repr

/-- Message of the error for an `add` without project. -/
def errMissingProject : String := "Error: missing project"

/-- Message of the error for an `add` without due date. -/
def errMissingDue : String := "Error: missing due date"

/-- Message of the error for an `add` without description. -/
def errMissingDesc : String := "Error: missing description"

/-- Message of the error for a line that no pattern matches. -/
def errUnknown : String := "Fatal Error: Unknown command. Type 'help' for more information"

/-- The `add` branch of `ParseLine` (lines 127 to 158 of todo.go). -/
def parseAdd (line : List Char) : Option Ret :=
  match FindStringSubmatchIndex reAddCommandProject line with
  | none => some { cmd := none, err := some errMissingProject }
  | some m =>
    (index2 m 2 3).bind fun ix => (slice line ix.1 ix.2).bind fun projectname =>
    match FindStringSubmatchIndex reAddCommandDue line with
    | none => some { cmd := none, err := some errMissingDue }
    | some m2 =>
      (index2 m2 2 3).bind fun jx => (slice line jx.1 jx.2).bind fun duetext =>
      let duedate := (timeParse duetext).getD Time.zero
      let desc := ReplaceAllString reAddCommandProject line
      let desc := ReplaceAllString reAddCommandDue desc
      ((FindStringSubmatch reAddCommand desc).bind fun sub => sub.get? 1).bind fun g =>
      let txt := Trim g
      if len txt = 0 then some { cmd := none, err := some errMissingDesc }
      else some { cmd := some (.AddCommand txt projectname duedate), err := none }

/-- Function `ParseLine` of todo.go; `none` is a run-time panic. -/
def ParseLine (line : List Char) : Option Ret :=
  if MatchString reVersionCommand line then
    some { cmd := some (.VersionCommand 0), err := none }
  else if MatchString reByeCommand line then
    some { cmd := some (.ByeCommand 0), err := none }
  else if MatchString reHelpCommand line then
    ((FindStringSubmatch reHelpCommand line).bind fun sub => sub.get? 2).bind fun query =>
    some { cmd := some (.HelpCommand query), err := none }
  else if MatchString reListCommand line then
    some { cmd := some (.ListCommand 0), err := none }
  else if MatchString reDoneCommand line then
    ((FindStringSubmatch reDoneCommand line).bind fun sub => sub.get? 1).bind fun w =>
    some { cmd := some (.DoneCommand (Atoi w).1), err := none }
  else if MatchString reAddCommand line then parseAdd line
  else some { cmd := none, err := some errUnknown }

/-! ## The task agenda of the server -/

/-- A task of the server: the fields of the embedded `todo.AddCommand`, the id and
the status (whether the task has been completed). -/
structure Task where
  Desc : List Char
  Project : List Char
  Due : Time
  id : Int
  status : Bool
deriving DecidableEq, Repr

/-- The state of the service: the slice of tasks. -/
structure TaskAgendaService where
  tasks : List Task
deriving DecidableEq, Repr

/-- Message `pb.AddTaskRequest`. -/
structure AddTaskRequest where
  Desc : List Char
  Project : List Char
  Due : List Char
deriving DecidableEq, Repr

/-- Message `pb.AddTaskResponse`. -/
structure AddTaskResponse where
  Id : List Char
deriving DecidableEq, Repr

/-- Message `pb.DoneTaskRequest`. -/
structure DoneTaskRequest where
  Id : List Char
deriving DecidableEq, Repr

/-- Message `pb.DoneTaskResponse`. -/
structure DoneTaskResponse where
deriving DecidableEq, Repr

/-- Message `pb.TaskInfo`. -/
structure TaskInfo where
  Desc : List Char
  Project : List Char
  Due : List Char
deriving DecidableEq, Repr

/-- Message `pb.ListTasksResponse`. -/
structure ListTasksResponse where
  Tasks : List TaskInfo
deriving DecidableEq, Repr

/-- The status codes of gRPC that the server uses. -/
inductive Code where
  | InvalidArgument
deriving DecidableEq, Repr

/-- An error made by `status.Errorf`: the code and the format of the message. -/
structure Status where
  code : Code
  format : String
deriving DecidableEq, Repr

/-- Method `AddTask`: the new state, the response and the error (`none` is nil). -/
def AddTask (t : TaskAgendaService) (r : AddTaskRequest) :
    TaskAgendaService × Option AddTaskResponse × Option Status :=
  match timeParse r.Due with
  | none => (t, none, some ⟨.InvalidArgument, "invalid due date: %v"⟩)
  | some due =>
    let newid : Int := (t.tasks.length : Int)
    ({ tasks := t.tasks ++ [⟨r.Desc, r.Project, due, newid, false⟩] },
      some ⟨fmtInt newid⟩, none)

/-- The assignment `tasks[i].status = true`. -/
def markDone : List Task → Nat → List Task
  | [], _ => []
  | k :: ks, 0 => { k with status := true } :: ks
  | k :: ks, i + 1 => k :: markDone ks i

/-- Method `DoneTask`: the new state, the response and the error (`none` is nil). -/
def DoneTask (t : TaskAgendaService) (r : DoneTaskRequest) :
    TaskAgendaService × Option DoneTaskResponse × Option Status :=
  match Atoi r.Id with
  | (_, some _) => (t, none, some ⟨.InvalidArgument, "invalid task id: %v"⟩)
  | (id, none) =>
    if id < 0 ∨ id ≥ (t.tasks.length : Int) then
      (t, none, some ⟨.InvalidArgument, "task id out of bounds: %d"⟩)
    else ({ tasks := markDone t.tasks id.toNat }, some ⟨⟩, none)

/-- Method `ListTasks`: the new state, the response and the error (`none` is nil). -/
def ListTasks (t : TaskAgendaService) :
    TaskAgendaService × Option ListTasksResponse × Option Status :=
  (t, some ⟨t.tasks.map fun v => ⟨v.Desc, v.Project, v.Due.Format⟩⟩, none)

/-! ## Calendar dates in the form `YYYY-MM-DD` -/

/-- The number that a text of decimal digits denotes. -/
def decValue (w : List Char) : Nat := w.foldl (fun n c => n * 10 + (c.toNat - 48)) 0

/-- The shape `DDDD-DD-DD`: four digits, two digits and two digits between dashes. -/
def isDateShape (s : List Char) : Bool :=
  match s with
  | [y1, y2, y3, y4, s1, m1, m2, s2, d1, d2] =>
    isDigit y1 && isDigit y2 && isDigit y3 && isDigit y4 && s1 == '-' &&
      isDigit m1 && isDigit m2 && s2 == '-' && isDigit d1 && isDigit d2
  | _ => false

/-- The days of the twelve months of the Gregorian calendar. -/
def monthDays (leap : Bool) : List Nat :=
  [31, if leap then 29 else 28, 31, 30, 31, 30, 31, 31, 30, 31, 30, 31]

/-- The year, month and day that a text of the shape `DDDD-DD-DD` denotes. -/
def dateOf (s : List Char) : Time :=
  { year := decValue (s.take 4), month := decValue ((s.drop 5).take 2),
    day := decValue ((s.drop 8).take 2) }

/-- A valid calendar date in the form `YYYY-MM-DD`: the shape is right, the month is
one of the twelve and the day exists in that month of that year. -/
def validDate (s : List Char) : Bool :=
  isDateShape s && decide (1 ≤ (dateOf s).month) && decide ((dateOf s).month ≤ 12) &&
    decide (1 ≤ (dateOf s).day) &&
    decide ((dateOf s).day ≤
      (monthDays ((dateOf s).year % 4 = 0 ∧
        ((dateOf s).year % 100 ≠ 0 ∨ (dateOf s).year % 400 = 0))).getD
        ((dateOf s).month - 1) 0)

/-! ## Decimal numerals -/

/-- The integer that a decimal numeral denotes: an optional sign `+` or `-` and a
non-empty run of ASCII digits; `none` for any other text. -/
def numeral (s : List Char) : Option Int :=
  match s with
  | [] => none
  | c :: cs =>
    if c == '-' then
      if cs ≠ [] ∧ cs.all isDigit = true then some (-((decValue cs : Nat) : Int)) else none
    else if c == '+' then
      if cs ≠ [] ∧ cs.all isDigit = true then some ((decValue cs : Nat) : Int) else none
    else if (c :: cs).all isDigit = true then some ((decValue (c :: cs) : Nat) : Int)
    else none

/-! ## Sequences of calls to the server -/

/-- One call to the service. -/
inductive Call where
  | add (r : AddTaskRequest)
  | done (r : DoneTaskRequest)
  | list
deriving DecidableEq, Repr

/-- The state of the service after one call. -/
def call (t : TaskAgendaService) : Call → TaskAgendaService
  | .add r => (AddTask t r).1
  | .done r => (DoneTask t r).1
  | .list => (ListTasks t).1

/-- The state of the service after a sequence of calls, one after the other. -/
def calls (t : TaskAgendaService) (cs : List Call) : TaskAgendaService :=
  cs.foldl call t

/-- The ids that the successful `AddTask` calls of a sequence return, in the order of
the calls. -/
def addedIds (t : TaskAgendaService) : List Call → List (List Char)
  | [] => []
  | .add r :: cs =>
    match (AddTask t r).2.1 with
    | some resp => resp.Id :: addedIds (AddTask t r).1 cs
    | none => addedIds (AddTask t r).1 cs
  | c :: cs => addedIds (call t c) cs

/-! ## `ParseLine` with its patterns tried in another order -/

/-- The six branches of `ParseLine`: the pattern that is tried and what the branch
returns on a line that the pattern matches. -/
def branches : List (Regex × (List Char → Option Ret)) :=
  [(reVersionCommand, fun _ => some { cmd := some (.VersionCommand 0), err := none }),
   (reByeCommand, fun _ => some { cmd := some (.ByeCommand 0), err := none }),
   (reHelpCommand, fun line =>
      ((FindStringSubmatch reHelpCommand line).bind fun sub => sub.get? 2).bind fun query =>
      some { cmd := some (.HelpCommand query), err := none }),
   (reListCommand, fun _ => some { cmd := some (.ListCommand 0), err := none }),
   (reDoneCommand, fun line =>
      ((FindStringSubmatch reDoneCommand line).bind fun sub => sub.get? 1).bind fun w =>
      some { cmd := some (.DoneCommand (Atoi w).1), err := none }),
   (reAddCommand, parseAdd)]

/-- The chain of tests of `ParseLine` over a list of branches: the first branch whose
pattern matches the line decides; without a match the line is an unknown command. -/
def parseIn : List (Regex × (List Char → Option Ret)) → List Char → Option Ret
  | [], _ => some { cmd := none, err := some errUnknown }
  | b :: bs, line => if MatchString b.1 line then b.2 line else parseIn bs line

/-! ## Auxiliary definitions used to state facts about the matcher -/

/-- The text left after a literal at the head of the text, if it is there. -/
def stripLit : List Char → List Char → Option (List Char)
  | [], r => some r
  | _ :: _, [] => none
  | c :: cs, d :: r => if d == c then stripLit cs r else none

/-- The matches of `p*` at offset `pos` of `rest`, the longest first. -/
def classStar (p : Char → Bool) : Nat → List Char → List (Nat × Nat × Nat) → List Thread
  | pos, [], k => [⟨pos, [], k⟩]
  | pos, c :: cs, k =>
    if p c then classStar p (pos + 1) cs k ++ [⟨pos, c :: cs, k⟩] else [⟨pos, c :: cs, k⟩]

/-- The thread after the longest run of the class `p`. -/
def skip (p : Char → Bool) (t : Thread) : Thread :=
  ⟨t.pos + (t.rest.takeWhile p).length, t.rest.dropWhile p, t.caps⟩

/-- A continuation that fails on every text that starts in the class `p`. -/
def Rejects (p : Char → Bool) (f : Thread → List Thread) : Prop :=
  ∀ t c cs, t.rest = c :: cs → p c = true → f t = []

/-- The first character of the line after its leading spaces. -/
def firstLetter (line : List Char) : Option Char := (line.dropWhile isSpace).head?

/-- The six command names that `help` accepts as its argument. -/
def helpNames : List (List Char) :=
  ["add".data, "bye".data, "done".data, "help".data, "list".data, "version".data]

/-- The alternation `add|bye|done|help|list|version`. -/
def reNames : Regex :=
  alts [lit "add", lit "bye", lit "done", lit "help", lit "list", lit "version"]

/-- The text left after a sequence of character classes at the head of the text. -/
def matchClasses : List (Char → Bool) → List Char → Option (List Char)
  | [], r => some r
  | _ :: _, [] => none
  | p :: ps, c :: r => if p c then matchClasses ps r else none

/-- The classes of `\d{4}-\d{2}-\d{2}`. -/
def dateClasses : List (Char → Bool) :=
  [isDigit, isDigit, isDigit, isDigit, fun c => c == '-', isDigit, isDigit,
    fun c => c == '-', isDigit, isDigit]

/-- A project token at the head of the text: the value of the token and the text
after it. -/
def projAt (rest : List Char) : Option (List Char × List Char) :=
  match stripLit "project:".data rest with
  | some (c :: b) =>
    if isNonSpace c then
      some ((c :: b).takeWhile isNonSpace, (c :: b).dropWhile isNonSpace)
    else none
  | _ => none

/-- A due token at the head of the text: the value of the token and the text after
it. -/
def dueAt (rest : List Char) : Option (List Char × List Char) :=
  match stripLit "due:".data rest with
  | some r => (matchClasses dateClasses r).map fun r2 => (r.take 10, r2)
  | none => none

/-- The value of the first token in the text. -/
def firstTok (tokAt : List Char → Option (List Char × List Char)) :
    List Char → Option (List Char)
  | [] => (tokAt []).map Prod.fst
  | c :: cs =>
    match tokAt (c :: cs) with
    | some x => some x.1
    | none => firstTok tokAt cs

/-- The text without its tokens; the first argument bounds the number of steps. -/
def stripToks (tokAt : List Char → Option (List Char × List Char)) :
    Nat → List Char → List Char
  | 0, _ => []
  | _ + 1, [] => []
  | n + 1, c :: cs =>
    match tokAt (c :: cs) with
    | some x => stripToks tokAt n x.2
    | none => c :: stripToks tokAt n cs

/-- The text without its tokens. -/
def strip (tokAt : List Char → Option (List Char × List Char)) (s : List Char) :
    List Char :=
  stripToks tokAt (s.length + 1) s

/-- Whether the text `w` occurs in a text. -/
def occurs (w : List Char) : List Char → Bool
  | [] => (stripLit w []).isSome
  | c :: cs => (stripLit w (c :: cs)).isSome || occurs w cs

/-- The pattern `re` finds, at the head of a text, exactly the tokens that `tokAt`
describes: `off` characters of key, then the value of the token (group 1). -/
def TokSpec (re : Regex) (tokAt : List Char → Option (List Char × List Char))
    (off : Nat) : Prop :=
  (∀ pos rest, matchAt re pos rest =
    (tokAt rest).map fun x =>
      ⟨pos + off + x.1.length, x.2, [(1, pos + off, pos + off + x.1.length)]⟩) ∧
  (∀ rest x, tokAt rest = some x →
    ∃ pre : List Char, pre.length = off ∧ rest = pre ++ (x.1 ++ x.2)) ∧
  0 < off

/-- The position in `branches` of the only pattern that can match a line, given the
first character of the line after its leading spaces. -/
def slot (c : Option Char) : Nat :=
  if c = some 'v' then 0
  else if c = some 'b' ∨ c = some 'q' ∨ c = some 'e' then 1
  else if c = some 'h' then 2
  else if c = some 'l' then 3
  else if c = some 'd' then 4
  else if c = some 'a' then 5
  else 6

/-! ## Facts about the matcher -/

theorem run_cat_cons (r : Regex) (rs : List Regex) (t : Thread) :
    run (cat (r :: rs)) t = (run r t).flatMap (run (cat rs)) := rfl

theorem run_cat_nil (t : Thread) : run (cat []) t = [t] := rfl

theorem run_alt (a b : Regex) (t : Thread) : run (.alt a b) t = run a t ++ run b t := rfl

theorem run_seq (a b : Regex) (t : Thread) :
    run (.seq a b) t = (run a t).flatMap (run b) := rfl

theorem run_group (i : Nat) (a : Regex) (t : Thread) :
    run (.group i a) t =
      (run a t).map fun u => { u with caps := (i, t.pos, u.pos) :: u.caps } := rfl

theorem run_eol (t : Thread) : run .eol t = if t.rest = [] then [t] else [] := rfl

theorem run_bol (t : Thread) : run .bol t = if t.pos = 0 then [t] else [] := rfl

theorem run_empty (t : Thread) : run .empty t = [t] := rfl

theorem run_cls_nil (p : Char → Bool) (pos : Nat) (k : List (Nat × Nat × Nat)) :
    run (.cls p) ⟨pos, [], k⟩ = [] := rfl

theorem run_cls_cons (p : Char → Bool) (pos : Nat) (c : Char) (cs : List Char)
    (k : List (Nat × Nat × Nat)) :
    run (.cls p) ⟨pos, c :: cs, k⟩ = if p c then [⟨pos + 1, cs, k⟩] else [] := rfl

theorem run_lits (l : List Char) (t : Thread) :
    run (cat (l.map chr)) t =
      match stripLit l t.rest with
      | some r => [⟨t.pos + l.length, r, t.caps⟩]
      | none => [] := by
  induction l generalizing t with
  | nil => simp [stripLit, run_cat_nil]
  | cons c cs ih =>
    obtain ⟨pos, rest, k⟩ := t
    cases rest with
    | nil => simp [stripLit, run_cat_cons, chr, run_cls_nil]
    | cons d r =>
      simp only [List.map_cons, run_cat_cons, chr, run_cls_cons, stripLit]
      by_cases h : (d == c) = true
      · simp only [h, if_true, List.flatMap_cons, List.flatMap_nil, List.append_nil, ih]
        cases stripLit cs r <;> simp [Nat.add_assoc, Nat.add_comm 1]
      · simp [h]

theorem run_lit (s : String) (t : Thread) :
    run (lit s) t =
      match stripLit s.data t.rest with
      | some r => [⟨t.pos + s.data.length, r, t.caps⟩]
      | none => [] := run_lits s.data t

theorem starLoop_cls (p : Char → Bool) (n : Nat) (t : Thread) (h : t.rest.length ≤ n) :
    starLoop (run (.cls p)) n t = classStar p t.pos t.rest t.caps := by
  induction n generalizing t with
  | zero =>
    obtain ⟨pos, rest, k⟩ := t
    cases rest with
    | nil => rfl
    | cons c cs => simp at h
  | succ n ih =>
    obtain ⟨pos, rest, k⟩ := t
    cases rest with
    | nil => simp [starLoop, run_cls_nil, classStar]
    | cons c cs =>
      simp only [starLoop, run_cls_cons, classStar]
      by_cases hc : p c = true
      · have hl : cs.length ≤ n := by simpa using h
        simp [hc, ih ⟨pos + 1, cs, k⟩ hl]
      · simp [hc]

theorem run_star_cls (p : Char → Bool) (t : Thread) :
    run (.star (.cls p)) t = classStar p t.pos t.rest t.caps :=
  starLoop_cls p t.rest.length t (Nat.le_refl _)

theorem classStar_commit (p : Char → Bool) (f : Thread → List Thread) (h : Rejects p f)
    (pos : Nat) (rest : List Char) (k : List (Nat × Nat × Nat)) :
    (classStar p pos rest k).flatMap f = f (skip p ⟨pos, rest, k⟩) := by
  induction rest generalizing pos with
  | nil => simp [classStar, skip]
  | cons c cs ih =>
    by_cases hc : p c = true
    · simp only [classStar, hc, if_true, List.flatMap_append, ih, List.flatMap_cons,
        List.flatMap_nil, List.append_nil]
      rw [h ⟨pos, c :: cs, k⟩ c cs rfl hc]
      simp [skip, hc, Nat.add_assoc, Nat.add_comm 1]
    · simp [classStar, skip, hc]

theorem star_commit (p : Char → Bool) (f : Thread → List Thread) (h : Rejects p f)
    (t : Thread) : (run (.star (.cls p)) t).flatMap f = f (skip p t) := by
  rw [run_star_cls]; exact classStar_commit p f h t.pos t.rest t.caps

theorem classStar_head (p : Char → Bool) (pos : Nat) (rest : List Char)
    (k : List (Nat × Nat × Nat)) :
    ∃ tl, classStar p pos rest k = skip p ⟨pos, rest, k⟩ :: tl := by
  induction rest generalizing pos with
  | nil => exact ⟨[], by simp [classStar, skip]⟩
  | cons c cs ih =>
    by_cases hc : p c = true
    · obtain ⟨tl, htl⟩ := ih (pos + 1)
      refine ⟨tl ++ [⟨pos, c :: cs, k⟩], ?_⟩
      simp [classStar, hc, htl, skip, Nat.add_assoc, Nat.add_comm 1]
    · exact ⟨[], by simp [classStar, skip, hc]⟩

theorem star_head (p : Char → Bool) (t : Thread) :
    ∃ tl, run (.star (.cls p)) t = skip p t :: tl := by
  rw [run_star_cls]; exact classStar_head p t.pos t.rest t.caps

/-! ### What a match says about the text -/

theorem stripLit_some (l rest r : List Char) (h : stripLit l rest = some r) :
    rest = l ++ r := by
  induction l generalizing rest with
  | nil => simp [stripLit] at h; simp [h]
  | cons c cs ih =>
    cases rest with
    | nil => simp [stripLit] at h
    | cons d ds =>
      by_cases hd : (d == c) = true
      · simp only [stripLit, hd, if_true] at h
        have hdc : d = c := by simpa using hd
        rw [ih ds h, hdc]; rfl
      · simp [stripLit, hd] at h

theorem stripLit_append (l r : List Char) : stripLit l (l ++ r) = some r := by
  induction l with
  | nil => rfl
  | cons c cs ih => simp [stripLit, ih]

theorem mem_classStar (p : Char → Bool) (u : Thread) (pos : Nat) (rest : List Char)
    (k : List (Nat × Nat × Nat)) (h : u ∈ classStar p pos rest k) :
    ∃ x, (∀ c ∈ x, p c = true) ∧ rest = x ++ u.rest ∧ u.pos = pos + x.length ∧
      u.caps = k := by
  induction rest generalizing pos with
  | nil =>
    simp only [classStar, List.mem_singleton] at h
    subst h
    exact ⟨[], by simp⟩
  | cons c cs ih =>
    by_cases hc : p c = true
    · simp only [classStar, hc, if_true, List.mem_append, List.mem_singleton] at h
      rcases h with h | h
      · obtain ⟨x, hx, hr, hp, hk⟩ := ih (pos + 1) h
        refine ⟨c :: x, ?_, ?_, ?_, hk⟩
        · intro d hd
          rcases List.mem_cons.mp hd with rfl | hd
          · exact hc
          · exact hx d hd
        · simp [← hr]
        · simp [hp]; omega
      · subst h
        exact ⟨[], by simp⟩
    · simp [classStar, hc] at h
      subst h
      exact ⟨[], by simp⟩

theorem mem_run_star (p : Char → Bool) (u t : Thread) (h : u ∈ run (.star (.cls p)) t) :
    ∃ x, (∀ c ∈ x, p c = true) ∧ t.rest = x ++ u.rest ∧ u.pos = t.pos + x.length ∧
      u.caps = t.caps := by
  rw [run_star_cls] at h
  exact mem_classStar p u t.pos t.rest t.caps h

theorem mem_run_cls (p : Char → Bool) (u t : Thread) (h : u ∈ run (.cls p) t) :
    ∃ c, p c = true ∧ t.rest = c :: u.rest ∧ u.pos = t.pos + 1 ∧ u.caps = t.caps := by
  obtain ⟨pos, rest, k⟩ := t
  cases rest with
  | nil => simp [run_cls_nil] at h
  | cons c cs =>
    by_cases hc : p c = true
    · simp only [run_cls_cons, hc, if_true, List.mem_singleton] at h
      subst h
      exact ⟨c, hc, rfl, rfl, rfl⟩
    · simp [run_cls_cons, hc] at h

theorem mem_run_seq (a b : Regex) (u t : Thread) :
    u ∈ run (.seq a b) t ↔ ∃ v, v ∈ run a t ∧ u ∈ run b v := by
  simp [run, List.mem_flatMap]

theorem mem_run_cat_cons (r : Regex) (rs : List Regex) (u t : Thread) :
    u ∈ run (cat (r :: rs)) t ↔ ∃ v, v ∈ run r t ∧ u ∈ run (cat rs) v := by
  simp [run_cat_cons, List.mem_flatMap]

theorem mem_run_plus (p : Char → Bool) (u t : Thread) (h : u ∈ run (plus (.cls p)) t) :
    ∃ x, x ≠ [] ∧ (∀ c ∈ x, p c = true) ∧ t.rest = x ++ u.rest ∧
      u.pos = t.pos + x.length ∧ u.caps = t.caps := by
  obtain ⟨v, hv, hu⟩ := (mem_run_seq _ _ u t).mp h
  obtain ⟨c, hc, hr, hp, hk⟩ := mem_run_cls p v t hv
  obtain ⟨x, hx, hr2, hp2, hk2⟩ := mem_run_star p u v hu
  refine ⟨c :: x, by simp, ?_, ?_, ?_, ?_⟩
  · intro d hd
    rcases List.mem_cons.mp hd with rfl | hd
    · exact hc
    · exact hx d hd
  · rw [hr, hr2]; rfl
  · rw [hp2, hp]; simp; omega
  · rw [hk2, hk]

theorem mem_run_lit (s : String) (u t : Thread) (h : u ∈ run (lit s) t) :
    t.rest = s.data ++ u.rest ∧ u.pos = t.pos + s.data.length ∧ u.caps = t.caps := by
  rw [run_lit] at h
  cases hs : stripLit s.data t.rest with
  | none => simp [hs] at h
  | some r =>
    simp only [hs, List.mem_singleton] at h
    subst h
    exact ⟨stripLit_some _ _ _ hs, rfl, rfl⟩

theorem mem_run_eol (u t : Thread) (h : u ∈ run .eol t) : u = t ∧ t.rest = [] := by
  by_cases hr : t.rest = []
  · simp only [run, hr, if_true, List.mem_singleton] at h
    exact ⟨h, hr⟩
  · simp [run, hr] at h

theorem mem_run_bol (u t : Thread) (h : u ∈ run .bol t) : u = t ∧ t.pos = 0 := by
  by_cases hr : t.pos = 0
  · simp only [run, hr, if_true, List.mem_singleton] at h
    exact ⟨h, hr⟩
  · simp [run, hr] at h

theorem mem_run_group (i : Nat) (a : Regex) (u t : Thread) (h : u ∈ run (.group i a) t) :
    ∃ v, v ∈ run a t ∧ u = { v with caps := (i, t.pos, v.pos) :: v.caps } := by
  simp only [run, List.mem_map] at h
  obtain ⟨v, hv, hu⟩ := h
  exact ⟨v, hv, hu.symm⟩

theorem mem_run_empty (u t : Thread) (h : u ∈ run (cat []) t) : u = t := by
  simpa [run_cat_nil] using h

/-! ### Searching with an anchored pattern -/

theorem matchAt_bol_succ (rs : List Regex) (pos : Nat) (rest : List Char) :
    matchAt (cat (.bol :: rs)) (pos + 1) rest = none := by
  simp [matchAt, run_cat_cons, run]

theorem findFrom_bol_succ (rs : List Regex) (pos : Nat) (rest : List Char) :
    findFrom (cat (.bol :: rs)) (pos + 1) rest = none := by
  induction rest generalizing pos with
  | nil => simp [findFrom, matchAt_bol_succ]
  | cons c cs ih => simp [findFrom, matchAt_bol_succ, ih]

theorem find_bol (rs : List Regex) (line : List Char) :
    find (cat (.bol :: rs)) line =
      (matchAt (cat (.bol :: rs)) 0 line).map fun t => (0, t) := by
  cases line with
  | nil => rfl
  | cons c cs =>
    simp only [find, findFrom]
    cases h : matchAt (cat (.bol :: rs)) 0 (c :: cs) with
    | none => simp [findFrom_bol_succ]
    | some t => rfl

theorem matchAt_bol (rs : List Regex) (line : List Char) :
    matchAt (cat (.bol :: rs)) 0 line = (run (cat rs) ⟨0, line, []⟩).head? := by
  simp [matchAt, run_cat_cons, run]

/-! ### Runs of a class at the head of a text -/

theorem takeWhile_append_stop (p : Char → Bool) (x y : List Char)
    (hx : ∀ c ∈ x, p c = true) (hy : ∀ c ∈ y.head?, p c = false) :
    (x ++ y).takeWhile p = x := by
  induction x with
  | nil =>
    cases y with
    | nil => rfl
    | cons c cs => simp [List.takeWhile, hy c (by simp)]
  | cons c cs ih =>
    have hc : p c = true := hx c (by simp)
    simp [List.takeWhile_cons, hc, ih (fun d hd => hx d (by simp [hd]))]

theorem dropWhile_append_stop (p : Char → Bool) (x y : List Char)
    (hx : ∀ c ∈ x, p c = true) (hy : ∀ c ∈ y.head?, p c = false) :
    (x ++ y).dropWhile p = y := by
  induction x with
  | nil =>
    cases y with
    | nil => rfl
    | cons c cs => simp [List.dropWhile, hy c (by simp)]
  | cons c cs ih =>
    have hc : p c = true := hx c (by simp)
    simp [List.dropWhile_cons, hc, ih (fun d hd => hx d (by simp [hd]))]

theorem skip_append (p : Char → Bool) (pos : Nat) (x y : List Char)
    (k : List (Nat × Nat × Nat)) (hx : ∀ c ∈ x, p c = true)
    (hy : ∀ c ∈ y.head?, p c = false) :
    skip p ⟨pos, x ++ y, k⟩ = ⟨pos + x.length, y, k⟩ := by
  simp [skip, takeWhile_append_stop p x y hx hy, dropWhile_append_stop p x y hx hy]

/-! ### Continuations that fail on a class -/

theorem rejects_lits (p : Char → Bool) (c0 : Char) (l : List Char) (rs : List Regex)
    (h : p c0 = false) : Rejects p (run (cat (cat ((c0 :: l).map chr) :: rs))) := by
  intro t c cs ht hp
  have hne : (c == c0) = false := by
    cases hcc : (c == c0) with
    | false => rfl
    | true =>
      have : c = c0 := by simpa using hcc
      rw [this, h] at hp
      exact absurd hp (by simp)
  rw [run_cat_cons, run_lits, ht]
  simp [stripLit, hne]

theorem rejects_eol (p : Char → Bool) : Rejects p (run (cat [.eol])) := by
  intro t c cs ht _
  simp [run_cat_cons, run, ht]

theorem rejects_cls (p q : Char → Bool) (rs : List Regex)
    (h : ∀ c, p c = true → q c = false) : Rejects p (run (cat (.cls q :: rs))) := by
  intro t c cs ht hp
  obtain ⟨pos, rest, k⟩ := t
  simp only at ht
  subst ht
  simp [run_cat_cons, run_cls_cons, h c hp]

theorem rejects_plus (p q : Char → Bool) (rs : List Regex)
    (h : ∀ c, p c = true → q c = false) : Rejects p (run (cat (plus (.cls q) :: rs))) := by
  intro t c cs ht hp
  obtain ⟨pos, rest, k⟩ := t
  simp only at ht
  subst ht
  simp [run_cat_cons, plus, run, h c hp]

theorem rejects_group (p : Char → Bool) (i : Nat) (a : Regex) (rs : List Regex)
    (h : Rejects p (run a)) : Rejects p (run (cat (.group i a :: rs))) := by
  intro t c cs ht hp
  have h1 := h t c cs ht hp
  simp [run_cat_cons, run, h1]

theorem rejects_plus_cls (p q : Char → Bool)
    (h : ∀ c, p c = true → q c = false) : Rejects p (run (plus (.cls q))) := by
  intro t c cs ht hp
  obtain ⟨pos, rest, k⟩ := t
  simp only at ht
  subst ht
  simp [plus, run, h c hp]

/-- The end of every line pattern, `\s*$`, on a text of spaces. -/
theorem run_tail (pos : Nat) (v : List Char) (k : List (Nat × Nat × Nat))
    (h : ∀ c ∈ v, isSpace c = true) :
    run (cat [.star (.cls isSpace), .eol]) ⟨pos, v, k⟩ = [⟨pos + v.length, [], k⟩] := by
  rw [run_cat_cons, star_commit isSpace _ (rejects_eol isSpace)]
  have h1 := skip_append isSpace pos v [] k h (by simp)
  simp only [List.append_nil] at h1
  rw [h1]
  simp [run_cat_cons, run_eol, run_cat_nil]

/-- The end of every line pattern, `\s*$`, asks for a text of spaces. -/
theorem mem_run_tail (u t : Thread) (h : u ∈ run (cat [.star (.cls isSpace), .eol]) t) :
    ∀ c ∈ t.rest, isSpace c = true := by
  obtain ⟨v, hv, hu⟩ := (mem_run_cat_cons _ _ u t).mp h
  obtain ⟨w, hw, hu2⟩ := (mem_run_cat_cons _ _ u v).mp hu
  obtain ⟨x, hx, hr, _, _⟩ := mem_run_star isSpace v t hv
  obtain ⟨hwv, hnil⟩ := mem_run_eol w v hw
  rw [hr, hnil]
  simpa using hx

/-! ### Lines that start with a keyword -/

theorem firstLetter_append (u y : List Char) (c : Char) (hu : ∀ d ∈ u, isSpace d = true)
    (hc : isSpace c = false) : firstLetter (u ++ c :: y) = some c := by
  simp [firstLetter, dropWhile_append_stop isSpace u (c :: y) hu (by simpa using hc)]

theorem matchString_bol (rs : List Regex) (line : List Char) :
    MatchString (cat (.bol :: rs)) line = (run (cat rs) ⟨0, line, []⟩).head?.isSome := by
  simp [MatchString, find_bol, matchAt_bol]

theorem matchString_bol_true (rs : List Regex) (line : List Char)
    (h : MatchString (cat (.bol :: rs)) line = true) :
    ∃ u, u ∈ run (cat rs) ⟨0, line, []⟩ := by
  rw [matchString_bol] at h
  cases hr : run (cat rs) ⟨0, line, []⟩ with
  | nil => simp [hr] at h
  | cons a tl => exact ⟨a, by simp⟩

/-- A line matched by a pattern `^\s*` `r` ... starts with spaces followed by a
text on which `r` matches. -/
theorem mem_run_lead (r : Regex) (rs : List Regex) (line : List Char)
    (h : MatchString (cat (.bol :: .star (.cls isSpace) :: r :: rs)) line = true) :
    ∃ x y u v, (∀ c ∈ x, isSpace c = true) ∧ line = x ++ y ∧
      v ∈ run r ⟨x.length, y, []⟩ ∧ u ∈ run (cat rs) v := by
  obtain ⟨u, hu⟩ := matchString_bol_true _ _ h
  obtain ⟨v, hv, hu⟩ := (mem_run_cat_cons _ _ u _).mp hu
  obtain ⟨w, hw, hu⟩ := (mem_run_cat_cons _ _ u v).mp hu
  obtain ⟨x, hx, hr, hp, hk⟩ := mem_run_star isSpace v _ hv
  simp only at hr hp hk
  refine ⟨x, v.rest, u, w, hx, hr, ?_, hu⟩
  obtain ⟨vp, vr, vk⟩ := v
  simp only at hp hk
  subst hp hk
  simpa using hw

theorem first_of_lit (kw : String) (c0 : Char) (l : List Char) (rs : List Regex)
    (line : List Char) (hkw : kw.data = c0 :: l) (hc : isSpace c0 = false)
    (h : MatchString (cat (.bol :: .star (.cls isSpace) :: lit kw :: rs)) line = true) :
    firstLetter line = some c0 := by
  obtain ⟨x, y, u, v, hx, hl, hv, _⟩ := mem_run_lead _ _ _ h
  obtain ⟨hr, _, _⟩ := mem_run_lit kw v _ hv
  simp only at hr
  rw [hl, hr, hkw]
  exact firstLetter_append x _ c0 hx hc

theorem version_first (line : List Char) (h : MatchString reVersionCommand line = true) :
    firstLetter line = some 'v' :=
  first_of_lit "version" 'v' _ _ line rfl (by decide) h

theorem help_first (line : List Char) (h : MatchString reHelpCommand line = true) :
    firstLetter line = some 'h' :=
  first_of_lit "help" 'h' _ _ line rfl (by decide) h

theorem list_first (line : List Char) (h : MatchString reListCommand line = true) :
    firstLetter line = some 'l' :=
  first_of_lit "list" 'l' _ _ line rfl (by decide) h

theorem done_first (line : List Char) (h : MatchString reDoneCommand line = true) :
    firstLetter line = some 'd' :=
  first_of_lit "done" 'd' _ _ line rfl (by decide) h

theorem add_first (line : List Char) (h : MatchString reAddCommand line = true) :
    firstLetter line = some 'a' :=
  first_of_lit "add" 'a' _ _ line rfl (by decide) h

theorem lead_unique (x x' y y' : List Char) (c c' : Char)
    (hx : ∀ d ∈ x, isSpace d = true) (hx' : ∀ d ∈ x', isSpace d = true)
    (hc : isSpace c = false) (hc' : isSpace c' = false)
    (h : x ++ c :: y = x' ++ c' :: y') : x = x' ∧ c :: y = c' :: y' := by
  have h1 := takeWhile_append_stop isSpace x (c :: y) hx (by simpa using hc)
  have h2 := takeWhile_append_stop isSpace x' (c' :: y') hx' (by simpa using hc')
  have h3 := dropWhile_append_stop isSpace x (c :: y) hx (by simpa using hc)
  have h4 := dropWhile_append_stop isSpace x' (c' :: y') hx' (by simpa using hc')
  rw [h] at h1 h3
  exact ⟨h1.symm.trans h2, h3.symm.trans h4⟩

theorem rejects_tail (p : Char → Bool) (h : ∀ c, p c = true → isSpace c = false) :
    Rejects p (run (cat [.star (.cls isSpace), .eol])) := by
  intro t c cs ht hp
  rw [List.eq_nil_iff_forall_not_mem]
  intro u hu
  have h1 := mem_run_tail u t hu c (by simp [ht])
  rw [h c hp] at h1
  exact absurd h1 (by simp)

theorem plus_commit (p : Char → Bool) (f : Thread → List Thread) (hf : Rejects p f)
    (pos : Nat) (x y : List Char) (k : List (Nat × Nat × Nat)) (hne : x ≠ [])
    (hx : ∀ c ∈ x, p c = true) (hy : ∀ c ∈ y.head?, p c = false) :
    (run (plus (.cls p)) ⟨pos, x ++ y, k⟩).flatMap f = f ⟨pos + x.length, y, k⟩ := by
  cases x with
  | nil => exact absurd rfl hne
  | cons c cs =>
    have hc : p c = true := hx c (by simp)
    have h1 : run (plus (.cls p)) ⟨pos, c :: cs ++ y, k⟩ =
        run (.star (.cls p)) ⟨pos + 1, cs ++ y, k⟩ := by
      simp [plus, run, hc]
    rw [h1, star_commit p f hf, skip_append p (pos + 1) cs y k
      (fun d hd => hx d (by simp [hd])) hy]
    simp [Nat.add_assoc, Nat.add_comm 1]

theorem flatMap_group (i : Nat) (a : Regex) (f : Thread → List Thread) (t : Thread) :
    (run (.group i a) t).flatMap f =
      (run a t).flatMap fun v => f { v with caps := (i, t.pos, v.pos) :: v.caps } := by
  simp [run, List.flatMap_map]

theorem groupText_mid (line x y z : List Char) (i a b : Nat) (k : List (Nat × Nat × Nat))
    (hl : line = x ++ (y ++ z)) (ha : a = x.length) (hb : b = a + y.length) :
    groupText line ((i, a, b) :: k) i = y := by
  subst hl ha hb
  simp [groupText]

/-! ### The patterns made of one keyword -/

theorem kwOnly_run (kw : String) (c0 : Char) (l : List Char) (hkw : kw.data = c0 :: l)
    (hc : isSpace c0 = false) (u v : List Char) (hu : ∀ c ∈ u, isSpace c = true)
    (hv : ∀ c ∈ v, isSpace c = true) :
    run (cat [.star (.cls isSpace), lit kw, .star (.cls isSpace), .eol])
        ⟨0, u ++ (kw.data ++ v), []⟩ =
      [⟨u.length + kw.data.length + v.length, [], []⟩] := by
  have hl : lit kw = cat ((c0 :: l).map chr) := by simp [lit, hkw]
  rw [run_cat_cons, hl, star_commit isSpace _ (rejects_lits isSpace c0 l _ hc), ← hl,
    skip_append isSpace 0 u _ [] hu (by simp [hkw, hc]), run_cat_cons, run_lit]
  simp only [stripLit_append, List.flatMap_cons, List.flatMap_nil, List.append_nil]
  rw [run_tail _ v _ hv]
  simp

theorem kwOnly_iff (kw : String) (c0 : Char) (l : List Char) (hkw : kw.data = c0 :: l)
    (hc : isSpace c0 = false) (line : List Char) :
    MatchString (cat [.bol, .star (.cls isSpace), lit kw, .star (.cls isSpace), .eol]) line
        = true ↔
      ∃ u v, (∀ c ∈ u, isSpace c = true) ∧ (∀ c ∈ v, isSpace c = true) ∧
        line = u ++ (kw.data ++ v) := by
  constructor
  · intro h
    obtain ⟨x, y, u, v, hx, hl, hv, hu⟩ := mem_run_lead _ _ _ h
    obtain ⟨hr, _, _⟩ := mem_run_lit kw v _ hv
    simp only at hr
    exact ⟨x, v.rest, hx, mem_run_tail u v hu, by rw [hl, hr]⟩
  · rintro ⟨u, v, hu, hv, rfl⟩
    rw [matchString_bol, kwOnly_run kw c0 l hkw hc u v hu hv]
    rfl

theorem version_iff (line : List Char) :
    MatchString reVersionCommand line = true ↔
      ∃ u v, (∀ c ∈ u, isSpace c = true) ∧ (∀ c ∈ v, isSpace c = true) ∧
        line = u ++ ("version".data ++ v) :=
  kwOnly_iff "version" 'v' _ rfl (by decide) line

theorem list_iff (line : List Char) :
    MatchString reListCommand line = true ↔
      ∃ u v, (∀ c ∈ u, isSpace c = true) ∧ (∀ c ∈ v, isSpace c = true) ∧
        line = u ++ ("list".data ++ v) :=
  kwOnly_iff "list" 'l' _ rfl (by decide) line

/-! ### The pattern of `bye` -/

theorem bye_iff (line : List Char) :
    MatchString reByeCommand line = true ↔
      ∃ u kw v, (∀ c ∈ u, isSpace c = true) ∧ (∀ c ∈ v, isSpace c = true) ∧
        (kw = "bye".data ∨ kw = "quit".data ∨ kw = "exit".data) ∧
        line = u ++ (kw ++ v) := by
  constructor
  · intro h
    obtain ⟨x, y, u, v, hx, hl, hv, hu⟩ := mem_run_lead _ _ _ h
    obtain ⟨w, hw, hvw⟩ := mem_run_group _ _ _ _ hv
    have hvr : v.rest = w.rest := by rw [hvw]
    have htail := mem_run_tail u v hu
    rw [hvr] at htail
    simp only [alts, run_alt, List.mem_append] at hw
    rcases hw with hw | hw | hw
    · obtain ⟨hr, _, _⟩ := mem_run_lit _ w _ hw
      exact ⟨x, _, w.rest, hx, htail, Or.inl rfl, by rw [hl, ← hr]⟩
    · obtain ⟨hr, _, _⟩ := mem_run_lit _ w _ hw
      exact ⟨x, _, w.rest, hx, htail, Or.inr (Or.inl rfl), by rw [hl, ← hr]⟩
    · obtain ⟨hr, _, _⟩ := mem_run_lit _ w _ hw
      exact ⟨x, _, w.rest, hx, htail, Or.inr (Or.inr rfl), by rw [hl, ← hr]⟩
  · rintro ⟨u, kw, v, hu, hv, hkw, rfl⟩
    rw [reByeCommand, matchString_bol, run_cat_cons]
    have hrej : Rejects isSpace (run (cat [.group 1 (alts [lit "bye", lit "quit", lit "exit"]),
        .star (.cls isSpace), .eol])) := by
      apply rejects_group
      intro t c cs ht hp
      have hb : (c == 'b') = false := by
        cases hcc : (c == 'b') with
        | false => rfl
        | true => rw [show c = 'b' by simpa using hcc] at hp; exact absurd hp (by decide)
      have hq : (c == 'q') = false := by
        cases hcc : (c == 'q') with
        | false => rfl
        | true => rw [show c = 'q' by simpa using hcc] at hp; exact absurd hp (by decide)
      have he : (c == 'e') = false := by
        cases hcc : (c == 'e') with
        | false => rfl
        | true => rw [show c = 'e' by simpa using hcc] at hp; exact absurd hp (by decide)
      simp [alts, run_alt, run_lit, ht, stripLit, hb, hq, he]
    have hhead : ∀ c ∈ (kw ++ v).head?, isSpace c = false := by
      rcases hkw with rfl | rfl | rfl <;> simp <;> decide
    rw [star_commit isSpace _ hrej, skip_append isSpace 0 u _ [] hu hhead, run_cat_cons,
      flatMap_group]
    rcases hkw with rfl | rfl | rfl
    · simp [alts, run_alt, run_lit, stripLit, run_tail _ v _ hv]
    · simp [alts, run_alt, run_lit, stripLit, run_tail _ v _ hv]
    · simp [alts, run_alt, run_lit, stripLit, run_tail _ v _ hv]

theorem bye_first (line : List Char) (h : MatchString reByeCommand line = true) :
    firstLetter line = some 'b' ∨ firstLetter line = some 'q' ∨
      firstLetter line = some 'e' := by
  obtain ⟨u, kw, v, hu, _, hkw, rfl⟩ := (bye_iff line).mp h
  rcases hkw with rfl | rfl | rfl
  · exact Or.inl (firstLetter_append u _ 'b' hu (by decide))
  · exact Or.inr (Or.inl (firstLetter_append u _ 'q' hu (by decide)))
  · exact Or.inr (Or.inr (firstLetter_append u _ 'e' hu (by decide)))

theorem space_cases (c : Char) (h : isSpace c = true) :
    c = '\t' ∨ c = '\n' ∨ c = '\x0c' ∨ c = '\r' ∨ c = ' ' := by
  simpa [isSpace, or_assoc] using h

theorem space_not_digit (c : Char) (h : isSpace c = true) : isDigit c = false := by
  rcases space_cases c h with rfl | rfl | rfl | rfl | rfl <;> decide

theorem digit_not_space (c : Char) (h : isDigit c = true) : isSpace c = false := by
  cases hs : isSpace c with
  | false => rfl
  | true => rw [space_not_digit c hs] at h; exact absurd h (by simp)

theorem head_of_all (p : Char → Bool) (x y : List Char) (hne : x ≠ [])
    (hx : ∀ c ∈ x, p c = true) : ∀ c ∈ (x ++ y).head?, p c = true := by
  cases x with
  | nil => exact absurd rfl hne
  | cons d ds => intro c hc; simp at hc; subst hc; exact hx _ (by simp)

theorem head_of_all_right (p : Char → Bool) (y : List Char)
    (hy : ∀ c ∈ y, p c = true) : ∀ c ∈ y.head?, p c = true := by
  cases y with
  | nil => simp
  | cons d ds => intro c hc; simp at hc; subst hc; exact hy _ (by simp)

theorem find_bol_of_run (rs : List Regex) (line : List Char) (t : Thread)
    (tl : List Thread) (h : run (cat rs) ⟨0, line, []⟩ = t :: tl) :
    find (cat (.bol :: rs)) line = some (0, t) := by
  simp [find_bol, matchAt_bol, h]

/-! ### The pattern of `done` -/

theorem done_shape (line : List Char) (h : MatchString reDoneCommand line = true) :
    ∃ u w1 w v, (∀ c ∈ u, isSpace c = true) ∧ w1 ≠ [] ∧ (∀ c ∈ w1, isSpace c = true) ∧
      w ≠ [] ∧ (∀ c ∈ w, isDigit c = true) ∧ (∀ c ∈ v, isSpace c = true) ∧
      line = u ++ ("done".data ++ (w1 ++ (w ++ v))) := by
  obtain ⟨x, y, u, v, hx, hl, hv, hu⟩ := mem_run_lead _ _ _ h
  obtain ⟨hr, _, _⟩ := mem_run_lit _ v _ hv
  obtain ⟨v1, hv1, hu⟩ := (mem_run_cat_cons _ _ u v).mp hu
  obtain ⟨w1, hw1ne, hw1, hr1, _, _⟩ := mem_run_plus isSpace v1 v hv1
  obtain ⟨v2, hv2, hu⟩ := (mem_run_cat_cons _ _ u v1).mp hu
  obtain ⟨v3, hv3, hv23⟩ := mem_run_group _ _ _ _ hv2
  obtain ⟨w, hwne, hw, hr2, _, _⟩ := mem_run_plus isDigit v3 v1 hv3
  have htail := mem_run_tail u v2 hu
  have hv2r : v2.rest = v3.rest := by rw [hv23]
  rw [hv2r] at htail
  refine ⟨x, w1, w, v3.rest, hx, hw1ne, hw1, hwne, hw, htail, ?_⟩
  simp only at hr
  rw [hl, hr, hr1, hr2]

theorem done_run (u w1 w v : List Char) (hu : ∀ c ∈ u, isSpace c = true) (h1 : w1 ≠ [])
    (hw1 : ∀ c ∈ w1, isSpace c = true) (h2 : w ≠ []) (hw : ∀ c ∈ w, isDigit c = true)
    (hv : ∀ c ∈ v, isSpace c = true) :
    run (cat [.star (.cls isSpace), lit "done", plus (.cls isSpace),
        .group 1 (plus (.cls isDigit)), .star (.cls isSpace), .eol])
        ⟨0, u ++ ("done".data ++ (w1 ++ (w ++ v))), []⟩ =
      [⟨u.length + 4 + w1.length + w.length + v.length, [],
        [(1, u.length + 4 + w1.length, u.length + 4 + w1.length + w.length)]⟩] := by
  have hl : lit "done" = cat (('d' :: "one".data).map chr) := rfl
  rw [run_cat_cons, hl, star_commit isSpace _ (rejects_lits isSpace 'd' _ _ (by decide)),
    ← hl, skip_append isSpace 0 u _ [] hu (by simp; decide), run_cat_cons, run_lit]
  simp only [stripLit_append, List.flatMap_cons, List.flatMap_nil, List.append_nil]
  rw [run_cat_cons, plus_commit isSpace _
      (rejects_group isSpace 1 _ _ (rejects_plus_cls isSpace isDigit space_not_digit))
      _ w1 (w ++ v) [] h1 hw1
      (fun c hc => digit_not_space c (head_of_all isDigit w v h2 hw c hc)),
    run_cat_cons, flatMap_group,
    plus_commit isDigit
      (fun v' => run (cat [.star (.cls isSpace), .eol])
        { v' with caps := (1, _, v'.pos) :: v'.caps })
      (fun t c cs ht hp => rejects_tail isDigit digit_not_space _ c cs ht hp)
      _ w v [] h2 hw
      (fun c hc => space_not_digit c (head_of_all_right isSpace v hv c hc)),
    run_tail _ v _ hv]
  simp [Nat.add_assoc]

theorem done_submatch (u w1 w v : List Char) (hu : ∀ c ∈ u, isSpace c = true)
    (h1 : w1 ≠ []) (hw1 : ∀ c ∈ w1, isSpace c = true) (h2 : w ≠ [])
    (hw : ∀ c ∈ w, isDigit c = true) (hv : ∀ c ∈ v, isSpace c = true) :
    MatchString reDoneCommand (u ++ ("done".data ++ (w1 ++ (w ++ v)))) = true ∧
    (FindStringSubmatch reDoneCommand (u ++ ("done".data ++ (w1 ++ (w ++ v))))).bind
      (fun sub => sub.get? 1) = some w := by
  have hf := find_bol_of_run _ _ _ _ (done_run u w1 w v hu h1 hw1 h2 hw hv)
  have hn : numSubexp reDoneCommand = 1 := by decide
  constructor
  · simp only [MatchString, reDoneCommand, hf]; rfl
  · have hg := groupText_mid (u ++ ("done".data ++ (w1 ++ (w ++ v))))
      (u ++ ("done".data ++ w1)) w v 1 (u.length + 4 + w1.length)
      (u.length + 4 + w1.length + w.length) [] (by simp) (by simp; omega) rfl
    have hr1 : List.range 1 = [0] := rfl
    simp only [FindStringSubmatch, hn]
    simp only [reDoneCommand, hf, hr1, List.map_cons, List.map_nil, Nat.zero_add, hg]
    rfl

/-! ### The pattern of `help` -/

theorem space_ne (c d : Char) (hc : isSpace c = true) (hd : isSpace d = false) :
    (c == d) = false := by
  cases hcc : (c == d) with
  | false => rfl
  | true =>
    rw [show c = d by simpa using hcc, hd] at hc
    exact absurd hc (by simp)

theorem rejects_names : Rejects isSpace (run reNames) := by
  intro t c cs ht hp
  simp [reNames, alts, run_alt, run_lit, ht, stripLit,
    space_ne c 'a' hp (by decide), space_ne c 'b' hp (by decide),
    space_ne c 'd' hp (by decide), space_ne c 'h' hp (by decide),
    space_ne c 'l' hp (by decide), space_ne c 'v' hp (by decide)]

theorem mem_run_names (u t : Thread) (h : u ∈ run reNames t) :
    ∃ q, q ∈ helpNames ∧ t.rest = q ++ u.rest ∧ u.pos = t.pos + q.length ∧
      u.caps = t.caps := by
  simp only [reNames, alts, run_alt, List.mem_append] at h
  rcases h with h | h | h | h | h | h
  all_goals
    obtain ⟨hr, hp, hk⟩ := mem_run_lit _ u t h
    exact ⟨_, by simp [helpNames], hr, hp, hk⟩

theorem names_head (q : List Char) (hq : q ∈ helpNames) (v : List Char) :
    ∀ c ∈ (q ++ v).head?, isSpace c = false := by
  simp only [helpNames, List.mem_cons, List.mem_singleton, List.not_mem_nil, or_false] at hq
  rcases hq with rfl | rfl | rfl | rfl | rfl | rfl <;> simp <;> decide

theorem run_names (q : List Char) (hq : q ∈ helpNames) (pos : Nat) (v : List Char)
    (k : List (Nat × Nat × Nat)) :
    run reNames ⟨pos, q ++ v, k⟩ = [⟨pos + q.length, v, k⟩] := by
  simp only [helpNames, List.mem_cons, List.mem_singleton, List.not_mem_nil, or_false] at hq
  rcases hq with rfl | rfl | rfl | rfl | rfl | rfl <;>
    simp [reNames, alts, run_alt, run_lit, stripLit]

theorem reHelpCommand_eq : reHelpCommand =
    cat [.bol, .star (.cls isSpace), lit "help",
      opt (.group 1 (cat [plus (.cls isSpace), .group 2 reNames])),
      .star (.cls isSpace), .eol] := rfl

theorem help_shape (line : List Char) (h : MatchString reHelpCommand line = true) :
    ∃ u v, (∀ c ∈ u, isSpace c = true) ∧ (∀ c ∈ v, isSpace c = true) ∧
      (line = u ++ ("help".data ++ v) ∨
        ∃ w q, w ≠ [] ∧ (∀ c ∈ w, isSpace c = true) ∧ q ∈ helpNames ∧
          line = u ++ ("help".data ++ (w ++ (q ++ v)))) := by
  rw [reHelpCommand_eq] at h
  obtain ⟨x, y, u, v, hx, hl, hv, hu⟩ := mem_run_lead _ _ _ h
  obtain ⟨hr, _, _⟩ := mem_run_lit _ v _ hv
  simp only at hr
  obtain ⟨v1, hv1, hu⟩ := (mem_run_cat_cons _ _ u v).mp hu
  have htail := mem_run_tail u v1 hu
  simp only [opt, run_alt, List.mem_append, run_empty, List.mem_singleton] at hv1
  rcases hv1 with hv1 | hv1
  · obtain ⟨v2, hv2, hv12⟩ := mem_run_group _ _ _ _ hv1
    obtain ⟨v3, hv3, hv2⟩ := (mem_run_cat_cons _ _ v2 v).mp hv2
    obtain ⟨w, hwne, hw, hr1, _, _⟩ := mem_run_plus isSpace v3 v hv3
    obtain ⟨v4, hv4, hv2⟩ := (mem_run_cat_cons _ _ v2 v3).mp hv2
    have hv24 := mem_run_empty _ _ hv2
    obtain ⟨v5, hv5, hv45⟩ := mem_run_group _ _ _ _ hv4
    obtain ⟨q, hq, hr2, _, _⟩ := mem_run_names v5 v3 hv5
    have hrest : v1.rest = v5.rest := by rw [hv12, hv24, hv45]
    rw [hrest] at htail
    refine ⟨x, v5.rest, hx, htail, Or.inr ⟨w, q, hwne, hw, hq, ?_⟩⟩
    rw [hl, hr, hr1, hr2]
  · subst hv1
    exact ⟨x, v1.rest, hx, htail, Or.inl (by rw [hl, hr])⟩

theorem help_run_plain (u v : List Char) (hu : ∀ c ∈ u, isSpace c = true)
    (hv : ∀ c ∈ v, isSpace c = true) :
    run (cat [.star (.cls isSpace), lit "help",
        opt (.group 1 (cat [plus (.cls isSpace), .group 2 reNames])),
        .star (.cls isSpace), .eol]) ⟨0, u ++ ("help".data ++ v), []⟩ =
      [⟨u.length + 4 + v.length, [], []⟩] := by
  have hl : lit "help" = cat (('h' :: "elp".data).map chr) := rfl
  rw [run_cat_cons, hl, star_commit isSpace _ (rejects_lits isSpace 'h' _ _ (by decide)),
    ← hl, skip_append isSpace 0 u _ [] hu (by simp; decide), run_cat_cons, run_lit]
  simp only [stripLit_append, List.flatMap_cons, List.flatMap_nil, List.append_nil]
  have hnil : run (.group 1 (cat [plus (.cls isSpace), .group 2 reNames]))
      ⟨0 + u.length + "help".data.length, v, []⟩ = [] := by
    rw [List.eq_nil_iff_forall_not_mem]
    intro v2 hv2
    obtain ⟨v2', hv2', _⟩ := mem_run_group _ _ _ _ hv2
    obtain ⟨v3, hv3, hv2'⟩ := (mem_run_cat_cons _ _ v2' _).mp hv2'
    obtain ⟨w, _, hw, hr1, _, _⟩ := mem_run_plus isSpace v3 _ hv3
    obtain ⟨v4, hv4, _⟩ := (mem_run_cat_cons _ _ v2' v3).mp hv2'
    obtain ⟨v5, hv5, _⟩ := mem_run_group _ _ _ _ hv4
    obtain ⟨q, hq, hr2, _, _⟩ := mem_run_names v5 v3 hv5
    simp only at hr1
    have hsp : ∀ c ∈ q ++ v5.rest, isSpace c = true := by
      intro c hc
      apply hv c
      rw [hr1, hr2]
      simp only [List.mem_append] at hc ⊢
      exact Or.inr hc
    have hh := names_head q hq v5.rest
    cases hqv : q ++ v5.rest with
    | nil =>
      simp only [helpNames, List.mem_cons, List.mem_singleton, List.not_mem_nil,
        or_false] at hq
      rcases hq with rfl | rfl | rfl | rfl | rfl | rfl <;> simp at hqv
    | cons c cs =>
      rw [hqv] at hh hsp
      have h1 := hh c (by simp)
      have h2 := hsp c (by simp)
      rw [h1] at h2
      exact absurd h2 (by simp)
  rw [run_cat_cons]
  simp only [opt, run_alt, hnil, List.nil_append, run_empty, List.flatMap_cons,
    List.flatMap_nil, List.append_nil]
  rw [run_tail _ v _ hv]
  simp

theorem help_run_query (u w q v : List Char) (hu : ∀ c ∈ u, isSpace c = true)
    (hwne : w ≠ []) (hw : ∀ c ∈ w, isSpace c = true) (hq : q ∈ helpNames)
    (hv : ∀ c ∈ v, isSpace c = true) :
    ∃ tl, run (cat [.star (.cls isSpace), lit "help",
        opt (.group 1 (cat [plus (.cls isSpace), .group 2 reNames])),
        .star (.cls isSpace), .eol]) ⟨0, u ++ ("help".data ++ (w ++ (q ++ v))), []⟩ =
      ⟨u.length + 4 + w.length + q.length + v.length, [],
        [(1, u.length + 4, u.length + 4 + w.length + q.length),
         (2, u.length + 4 + w.length, u.length + 4 + w.length + q.length)]⟩ :: tl := by
  have hl : lit "help" = cat (('h' :: "elp".data).map chr) := rfl
  rw [run_cat_cons, hl, star_commit isSpace _ (rejects_lits isSpace 'h' _ _ (by decide)),
    ← hl, skip_append isSpace 0 u _ [] hu (by simp; decide), run_cat_cons, run_lit]
  simp only [stripLit_append, List.flatMap_cons, List.flatMap_nil, List.append_nil]
  have hg : run (.group 1 (cat [plus (.cls isSpace), .group 2 reNames]))
      ⟨0 + u.length + "help".data.length, w ++ (q ++ v), []⟩ =
      [⟨u.length + 4 + w.length + q.length, v,
        [(1, u.length + 4, u.length + 4 + w.length + q.length),
         (2, u.length + 4 + w.length, u.length + 4 + w.length + q.length)]⟩] := by
    rw [run_group, run_cat_cons, plus_commit isSpace _
      (rejects_group isSpace 2 _ _ rejects_names) _ w (q ++ v) [] hwne hw
      (names_head q hq v), run_cat_cons, run_group, run_names q hq]
    simp [run_cat_nil, Nat.add_assoc]
  rw [run_cat_cons]
  simp only [opt, run_alt, hg, List.flatMap_append, List.flatMap_cons, List.flatMap_nil,
    List.append_nil]
  rw [run_tail _ v _ hv]
  exact ⟨_, rfl⟩

theorem help_submatch_plain (u v : List Char) (hu : ∀ c ∈ u, isSpace c = true)
    (hv : ∀ c ∈ v, isSpace c = true) :
    MatchString reHelpCommand (u ++ ("help".data ++ v)) = true ∧
    (FindStringSubmatch reHelpCommand (u ++ ("help".data ++ v))).bind
      (fun sub => sub.get? 2) = some [] := by
  have hf := find_bol_of_run _ _ _ _ (help_run_plain u v hu hv)
  have hn : numSubexp reHelpCommand = 2 := by decide
  have hr2 : List.range 2 = [0, 1] := rfl
  constructor
  · simp only [MatchString, reHelpCommand_eq, hf]; rfl
  · simp only [FindStringSubmatch, hn]
    simp only [reHelpCommand_eq, hf, hr2, List.map_cons, List.map_nil]
    rfl

theorem help_submatch_query (u w q v : List Char) (hu : ∀ c ∈ u, isSpace c = true)
    (hwne : w ≠ []) (hw : ∀ c ∈ w, isSpace c = true) (hq : q ∈ helpNames)
    (hv : ∀ c ∈ v, isSpace c = true) :
    MatchString reHelpCommand (u ++ ("help".data ++ (w ++ (q ++ v)))) = true ∧
    (FindStringSubmatch reHelpCommand (u ++ ("help".data ++ (w ++ (q ++ v))))).bind
      (fun sub => sub.get? 2) = some q := by
  obtain ⟨tl, htl⟩ := help_run_query u w q v hu hwne hw hq hv
  have hf := find_bol_of_run _ _ _ _ htl
  have hn : numSubexp reHelpCommand = 2 := by decide
  have hr2 : List.range 2 = [0, 1] := rfl
  have hg := groupText_mid (u ++ ("help".data ++ (w ++ (q ++ v))))
    (u ++ ("help".data ++ w)) q v 2 (u.length + 4 + w.length)
    (u.length + 4 + w.length + q.length) [] (by simp) (by simp; omega) rfl
  have hg2 : ∀ a b, groupText (u ++ ("help".data ++ (w ++ (q ++ v))))
      [(1, a, b), (2, u.length + 4 + w.length, u.length + 4 + w.length + q.length)] 2 =
      groupText (u ++ ("help".data ++ (w ++ (q ++ v))))
      [(2, u.length + 4 + w.length, u.length + 4 + w.length + q.length)] 2 := by
    intro a b; rfl
  constructor
  · simp only [MatchString, reHelpCommand_eq, hf]; rfl
  · simp only [FindStringSubmatch, hn]
    simp only [reHelpCommand_eq, hf, hr2, List.map_cons, List.map_nil, hg2, hg]
    rfl

/-! ### Dispatch on the first letter of the line -/

theorem version_false (line : List Char) (c : Char) (h : firstLetter line = some c)
    (hc : c ≠ 'v') : MatchString reVersionCommand line = false := by
  cases hm : MatchString reVersionCommand line with
  | false => rfl
  | true =>
    have := version_first line hm
    rw [h] at this
    exact absurd (Option.some.inj this) hc

theorem bye_false (line : List Char) (c : Char) (h : firstLetter line = some c)
    (hb : c ≠ 'b') (hq : c ≠ 'q') (he : c ≠ 'e') : MatchString reByeCommand line = false := by
  cases hm : MatchString reByeCommand line with
  | false => rfl
  | true =>
    rcases bye_first line hm with h1 | h1 | h1 <;> rw [h] at h1
    · exact absurd (Option.some.inj h1) hb
    · exact absurd (Option.some.inj h1) hq
    · exact absurd (Option.some.inj h1) he

theorem help_false (line : List Char) (c : Char) (h : firstLetter line = some c)
    (hc : c ≠ 'h') : MatchString reHelpCommand line = false := by
  cases hm : MatchString reHelpCommand line with
  | false => rfl
  | true =>
    have := help_first line hm
    rw [h] at this
    exact absurd (Option.some.inj this) hc

theorem list_false (line : List Char) (c : Char) (h : firstLetter line = some c)
    (hc : c ≠ 'l') : MatchString reListCommand line = false := by
  cases hm : MatchString reListCommand line with
  | false => rfl
  | true =>
    have := list_first line hm
    rw [h] at this
    exact absurd (Option.some.inj this) hc

theorem done_false (line : List Char) (c : Char) (h : firstLetter line = some c)
    (hc : c ≠ 'd') : MatchString reDoneCommand line = false := by
  cases hm : MatchString reDoneCommand line with
  | false => rfl
  | true =>
    have := done_first line hm
    rw [h] at this
    exact absurd (Option.some.inj this) hc

theorem add_false (line : List Char) (c : Char) (h : firstLetter line = some c)
    (hc : c ≠ 'a') : MatchString reAddCommand line = false := by
  cases hm : MatchString reAddCommand line with
  | false => rfl
  | true =>
    have := add_first line hm
    rw [h] at this
    exact absurd (Option.some.inj this) hc

theorem eq_nil_of_all_of_none (p : Char → Bool) (x : List Char)
    (h1 : ∀ c ∈ x, p c = true) (h2 : ∀ c ∈ x, p c = false) : x = [] := by
  cases x with
  | nil => rfl
  | cons c cs =>
    have a := h1 c (by simp)
    rw [h2 c (by simp)] at a
    exact absurd a (by simp)

/-! ### `ParseLine` on the lines of each command -/

theorem parseLine_version (line : List Char)
    (h0 : MatchString reVersionCommand line = true) :
    ParseLine line = some ⟨some (.VersionCommand 0), none⟩ := by
  simp only [ParseLine, h0, if_true]

theorem parseLine_bye (line : List Char) (h0 : MatchString reVersionCommand line = false)
    (h1 : MatchString reByeCommand line = true) :
    ParseLine line = some ⟨some (.ByeCommand 0), none⟩ := by
  simp only [ParseLine, h0, h1, if_true, Bool.false_eq_true, if_false]

theorem parseLine_help (line q : List Char)
    (h0 : MatchString reVersionCommand line = false)
    (h1 : MatchString reByeCommand line = false)
    (h2 : MatchString reHelpCommand line = true)
    (h3 : (FindStringSubmatch reHelpCommand line).bind (fun sub => sub.get? 2) = some q) :
    ParseLine line = some ⟨some (.HelpCommand q), none⟩ := by
  simp only [ParseLine, h0, h1, h2, h3, if_true, Bool.false_eq_true, if_false]
  rfl

theorem parseLine_list (line : List Char) (h0 : MatchString reVersionCommand line = false)
    (h1 : MatchString reByeCommand line = false)
    (h2 : MatchString reHelpCommand line = false)
    (h3 : MatchString reListCommand line = true) :
    ParseLine line = some ⟨some (.ListCommand 0), none⟩ := by
  simp only [ParseLine, h0, h1, h2, h3, if_true, Bool.false_eq_true, if_false]

theorem parseLine_done (line w : List Char)
    (h0 : MatchString reVersionCommand line = false)
    (h1 : MatchString reByeCommand line = false)
    (h2 : MatchString reHelpCommand line = false)
    (h3 : MatchString reListCommand line = false)
    (h4 : MatchString reDoneCommand line = true)
    (h5 : (FindStringSubmatch reDoneCommand line).bind (fun sub => sub.get? 1) = some w) :
    ParseLine line = some ⟨some (.DoneCommand (Atoi w).1), none⟩ := by
  simp only [ParseLine, h0, h1, h2, h3, h4, h5, if_true, Bool.false_eq_true, if_false]
  rfl

theorem parseLine_add (line : List Char) (h0 : MatchString reVersionCommand line = false)
    (h1 : MatchString reByeCommand line = false)
    (h2 : MatchString reHelpCommand line = false)
    (h3 : MatchString reListCommand line = false)
    (h4 : MatchString reDoneCommand line = false)
    (h5 : MatchString reAddCommand line = true) :
    ParseLine line = parseAdd line := by
  simp only [ParseLine, h0, h1, h2, h3, h4, h5, if_true, Bool.false_eq_true, if_false]

theorem parseLine_unknown (line : List Char)
    (h0 : MatchString reVersionCommand line = false)
    (h1 : MatchString reByeCommand line = false)
    (h2 : MatchString reHelpCommand line = false)
    (h3 : MatchString reListCommand line = false)
    (h4 : MatchString reDoneCommand line = false)
    (h5 : MatchString reAddCommand line = false) :
    ParseLine line = some ⟨none, some errUnknown⟩ := by
  simp only [ParseLine, h0, h1, h2, h3, h4, h5, Bool.false_eq_true, if_false]

theorem parse_version (u v : List Char) (hu : ∀ c ∈ u, isSpace c = true)
    (hv : ∀ c ∈ v, isSpace c = true) :
    ParseLine (u ++ ("version".data ++ v)) = some ⟨some (.VersionCommand 0), none⟩ :=
  parseLine_version _ ((version_iff _).mpr ⟨u, v, hu, hv, rfl⟩)

theorem parse_bye (u kw v : List Char) (hu : ∀ c ∈ u, isSpace c = true)
    (hv : ∀ c ∈ v, isSpace c = true)
    (hkw : kw = "bye".data ∨ kw = "quit".data ∨ kw = "exit".data) :
    ParseLine (u ++ (kw ++ v)) = some ⟨some (.ByeCommand 0), none⟩ := by
  have h := (bye_iff _).mpr ⟨u, kw, v, hu, hv, hkw, rfl⟩
  have h0 : MatchString reVersionCommand (u ++ (kw ++ v)) = false := by
    rcases hkw with rfl | rfl | rfl
    · exact version_false _ 'b' (firstLetter_append u _ 'b' hu (by decide)) (by decide)
    · exact version_false _ 'q' (firstLetter_append u _ 'q' hu (by decide)) (by decide)
    · exact version_false _ 'e' (firstLetter_append u _ 'e' hu (by decide)) (by decide)
  exact parseLine_bye _ h0 h

theorem parse_help_plain (u v : List Char) (hu : ∀ c ∈ u, isSpace c = true)
    (hv : ∀ c ∈ v, isSpace c = true) :
    ParseLine (u ++ ("help".data ++ v)) = some ⟨some (.HelpCommand []), none⟩ := by
  have hf : firstLetter (u ++ ("help".data ++ v)) = some 'h' :=
    firstLetter_append u ("elp".data ++ v) 'h' hu (by decide)
  obtain ⟨h2, h3⟩ := help_submatch_plain u v hu hv
  exact parseLine_help _ _ (version_false _ 'h' hf (by decide))
    (bye_false _ 'h' hf (by decide) (by decide) (by decide)) h2 h3

theorem parse_help_query (u w q v : List Char) (hu : ∀ c ∈ u, isSpace c = true)
    (hwne : w ≠ []) (hw : ∀ c ∈ w, isSpace c = true) (hq : q ∈ helpNames)
    (hv : ∀ c ∈ v, isSpace c = true) :
    ParseLine (u ++ ("help".data ++ (w ++ (q ++ v)))) =
      some ⟨some (.HelpCommand q), none⟩ := by
  have hf : firstLetter (u ++ ("help".data ++ (w ++ (q ++ v)))) = some 'h' :=
    firstLetter_append u ("elp".data ++ (w ++ (q ++ v))) 'h' hu (by decide)
  obtain ⟨h2, h3⟩ := help_submatch_query u w q v hu hwne hw hq hv
  exact parseLine_help _ _ (version_false _ 'h' hf (by decide))
    (bye_false _ 'h' hf (by decide) (by decide) (by decide)) h2 h3

theorem parse_list (u v : List Char) (hu : ∀ c ∈ u, isSpace c = true)
    (hv : ∀ c ∈ v, isSpace c = true) :
    ParseLine (u ++ ("list".data ++ v)) = some ⟨some (.ListCommand 0), none⟩ := by
  have hf : firstLetter (u ++ ("list".data ++ v)) = some 'l' :=
    firstLetter_append u ("ist".data ++ v) 'l' hu (by decide)
  exact parseLine_list _ (version_false _ 'l' hf (by decide))
    (bye_false _ 'l' hf (by decide) (by decide) (by decide))
    (help_false _ 'l' hf (by decide)) ((list_iff _).mpr ⟨u, v, hu, hv, rfl⟩)

theorem parse_done (u w1 w v : List Char) (hu : ∀ c ∈ u, isSpace c = true)
    (h1 : w1 ≠ []) (hw1 : ∀ c ∈ w1, isSpace c = true) (h2 : w ≠ [])
    (hw : ∀ c ∈ w, isDigit c = true) (hv : ∀ c ∈ v, isSpace c = true) :
    ParseLine (u ++ ("done".data ++ (w1 ++ (w ++ v)))) =
      some ⟨some (.DoneCommand (Atoi w).1), none⟩ := by
  have hf : firstLetter (u ++ ("done".data ++ (w1 ++ (w ++ v)))) = some 'd' :=
    firstLetter_append u ("one".data ++ (w1 ++ (w ++ v))) 'd' hu (by decide)
  obtain ⟨a4, a5⟩ := done_submatch u w1 w v hu h1 hw1 h2 hw hv
  exact parseLine_done _ _ (version_false _ 'd' hf (by decide))
    (bye_false _ 'd' hf (by decide) (by decide) (by decide))
    (help_false _ 'd' hf (by decide)) (list_false _ 'd' hf (by decide)) a4 a5

/-! ### `strconv.Atoi` on a decimal numeral -/

theorem digit_utf8Size (c : Char) (h : isDigit c = true) : c.utf8Size = 1 := by
  simp only [isDigit, Bool.and_eq_true, decide_eq_true_eq] at h
  have h2 : c.val ≤ 57 := h.2
  have h3 : c.val ≤ 0x7F := Nat.le_trans (show c.val.toNat ≤ 57 from h2) (by decide)
  simp [Char.utf8Size, h3]

theorem len_digits (w : List Char) (h : ∀ c ∈ w, isDigit c = true) : len w = w.length := by
  induction w with
  | nil => rfl
  | cons c cs ih =>
    have h1 := digit_utf8Size c (h c (by simp))
    have h2 := ih (fun d hd => h d (by simp [hd]))
    simp only [len] at h2 ⊢
    simp [h1, h2, Nat.add_comm]

theorem foldl_dec_ge (w : List Char) (n : Nat) :
    n ≤ w.foldl (fun n c => n * 10 + (c.toNat - 48)) n := by
  induction w generalizing n with
  | nil => simp
  | cons c cs ih =>
    simp only [List.foldl_cons]
    exact Nat.le_trans (by omega) (ih _)

theorem atoiLoop_digits (w : List Char) (h : ∀ c ∈ w, isDigit c = true) (n : Nat) :
    atoiLoop w (n : Int) =
      some ((w.foldl (fun n c => n * 10 + (c.toNat - 48)) n : Nat) : Int) := by
  induction w generalizing n with
  | nil => rfl
  | cons c cs ih =>
    have hc := h c (by simp)
    simp only [atoiLoop, hc, if_true, List.foldl_cons]
    rw [← ih (fun d hd => h d (by simp [hd]))]
    congr 1

theorem parseUintLoop_digits (w : List Char) (h : ∀ c ∈ w, isDigit c = true) (n : Nat)
    (hb : w.foldl (fun n c => n * 10 + (c.toNat - 48)) n < 2 ^ 64) :
    parseUintLoop w n = (w.foldl (fun n c => n * 10 + (c.toNat - 48)) n, none) := by
  induction w generalizing n with
  | nil => rfl
  | cons c cs ih =>
    have hc := h c (by simp)
    simp only [List.foldl_cons] at hb ⊢
    have hge := foldl_dec_ge cs (n * 10 + (c.toNat - 48))
    have hlt : n * 10 + (c.toNat - 48) < 2 ^ 64 := Nat.lt_of_le_of_lt hge hb
    have h1 : ¬ (n ≥ (2 ^ 64 - 1) / 10 + 1) := by omega
    have h2 : (n * 10) % 2 ^ 64 = n * 10 := Nat.mod_eq_of_lt (by omega)
    have h3 : (n * 10 + (c.toNat - 48)) % 2 ^ 64 = n * 10 + (c.toNat - 48) :=
      Nat.mod_eq_of_lt hlt
    have h4 : ¬ (n * 10 + (c.toNat - 48) < n * 10 ∨ n * 10 + (c.toNat - 48) > 2 ^ 64 - 1) := by
      omega
    simp only [parseUintLoop, hc, if_true, h1, if_false, h2, h3, h4]
    exact ih (fun d hd => h d (by simp [hd])) _ hb

theorem digit_not_sign (c : Char) (h : isDigit c = true) :
    (c == '-') = false ∧ (c == '+') = false := by
  constructor
  · cases hcc : (c == '-') with
    | false => rfl
    | true => rw [show c = '-' by simpa using hcc] at h; exact absurd h (by decide)
  · cases hcc : (c == '+') with
    | false => rfl
    | true => rw [show c = '+' by simpa using hcc] at h; exact absurd h (by decide)

/-- On a non-empty text of decimal digits whose value fits in an `int`,
`strconv.Atoi` returns that value and no error. -/
theorem atoi_digits (w : List Char) (hne : w ≠ []) (h : ∀ c ∈ w, isDigit c = true)
    (hb : decValue w < 2 ^ 63) : Atoi w = (((decValue w : Nat) : Int), none) := by
  cases w with
  | nil => exact absurd rfl hne
  | cons c cs =>
    obtain ⟨hm, hp⟩ := digit_not_sign c (h c (by simp))
    have hlen := len_digits (c :: cs) h
    by_cases hfast : 0 < len (c :: cs) ∧ len (c :: cs) < 19
    · have h1 : ¬ (len (c :: cs) < 1) := by omega
      have h2 := atoiLoop_digits (c :: cs) h 0
      simp only [Nat.cast_zero] at h2
      simp only [Atoi, hfast, and_self, if_true, hm, hp, Bool.or_self, Bool.false_eq_true,
        if_false, h1, h2]
      rfl
    · have h2 := parseUintLoop_digits (c :: cs) h 0 (Nat.lt_trans hb (by decide))
      have h3 : ¬ (decValue (c :: cs) ≥ 2 ^ (intSize - 1)) := by
        simp only [intSize]; omega
      simp only [Atoi, hfast, if_false, ParseInt, hm, hp, Bool.or_self, Bool.false_eq_true,
        ParseUint, h2]
      simp only [decValue, List.foldl_cons, Nat.zero_mul, Nat.zero_add] at h3
      have h4 := Nat.lt_of_not_ge h3
      simp [h4, decValue]

/-! ### Calendar dates and `time.Parse` -/

theorem dateShape_cases (s : List Char) (h : isDateShape s = true) :
    ∃ y1 y2 y3 y4 m1 m2 d1 d2, s = [y1, y2, y3, y4, '-', m1, m2, '-', d1, d2] ∧
      isDigit y1 = true ∧ isDigit y2 = true ∧ isDigit y3 = true ∧ isDigit y4 = true ∧
      isDigit m1 = true ∧ isDigit m2 = true ∧ isDigit d1 = true ∧ isDigit d2 = true := by
  unfold isDateShape at h
  split at h
  · rename_i y1 y2 y3 y4 s1 m1 m2 s2 d1 d2
    simp only [Bool.and_eq_true, beq_iff_eq] at h
    obtain ⟨⟨⟨⟨⟨⟨⟨⟨⟨a1, a2⟩, a3⟩, a4⟩, a5⟩, a6⟩, a7⟩, a8⟩, a9⟩, a10⟩ := h
    subst a5 a8
    exact ⟨y1, y2, y3, y4, m1, m2, d1, d2, rfl, a1, a2, a3, a4, a6, a7, a9, a10⟩
  · exact absurd h (by simp)

theorem daysIn_eq_monthDays (m y : Nat) (h1 : 1 ≤ m) (h2 : m ≤ 12) :
    daysIn m y = (monthDays (y % 4 = 0 ∧ (y % 100 ≠ 0 ∨ y % 400 = 0))).getD (m - 1) 0 := by
  have hl : isLeap y = decide (y % 4 = 0 ∧ (y % 100 ≠ 0 ∨ y % 400 = 0)) := by
    rw [Bool.eq_iff_iff]; simp [isLeap, bne]
  rw [← hl]
  interval_cases m <;> simp [daysIn, monthDays]

/-- On a valid calendar date in the form `YYYY-MM-DD`, `time.Parse` succeeds and
returns that day. -/
theorem timeParse_valid (s : List Char) (h : validDate s = true) :
    timeParse s = some (dateOf s) := by
  simp only [validDate, Bool.and_eq_true, decide_eq_true_eq] at h
  obtain ⟨⟨⟨⟨hs, hm1⟩, hm2⟩, hd1⟩, hd2⟩ := h
  obtain ⟨y1, y2, y3, y4, m1, m2, d1, d2, rfl, a1, a2, a3, a4, a6, a7, a9, a10⟩ :=
    dateShape_cases s hs
  rw [← daysIn_eq_monthDays _ _ hm1 hm2] at hd2
  have hy : (dateOf [y1, y2, y3, y4, '-', m1, m2, '-', d1, d2]).year =
      digitVal y1 * 1000 + digitVal y2 * 100 + digitVal y3 * 10 + digitVal y4 := by
    simp [dateOf, decValue, digitVal]; omega
  have hm : (dateOf [y1, y2, y3, y4, '-', m1, m2, '-', d1, d2]).month =
      digitVal m1 * 10 + digitVal m2 := by
    simp [dateOf, decValue, digitVal]
  have hd : (dateOf [y1, y2, y3, y4, '-', m1, m2, '-', d1, d2]).day =
      digitVal d1 * 10 + digitVal d2 := by
    simp [dateOf, decValue, digitVal]
  rw [hm] at hm1 hm2 hd2
  rw [hd] at hd1 hd2
  rw [hy] at hd2
  have e1 : ¬ (digitVal m1 * 10 + digitVal m2 ≤ 0 ∨ 12 < digitVal m1 * 10 + digitVal m2) := by
    omega
  have e2 : ¬ (digitVal d1 * 10 + digitVal d2 < 1 ∨ digitVal d1 * 10 + digitVal d2 >
      daysIn (digitVal m1 * 10 + digitVal m2)
        (digitVal y1 * 1000 + digitVal y2 * 100 + digitVal y3 * 10 + digitVal y4)) := by
    omega
  have e3 : dateOf [y1, y2, y3, y4, '-', m1, m2, '-', d1, d2] =
      ⟨digitVal y1 * 1000 + digitVal y2 * 100 + digitVal y3 * 10 + digitVal y4,
        digitVal m1 * 10 + digitVal m2, digitVal d1 * 10 + digitVal d2⟩ := by
    rw [← hy, ← hm, ← hd]
  simp only [timeParse, a1, a2, a3, a4, a6, a7, a9, a10, Bool.and_self, beq_self_eq_true,
    if_true, e1, e2, if_false, e3]

/-! ### The two token patterns of `add` -/

theorem run_classes (ps : List (Char → Bool)) (t : Thread) :
    run (cat (ps.map .cls)) t =
      match matchClasses ps t.rest with
      | some r => [⟨t.pos + ps.length, r, t.caps⟩]
      | none => [] := by
  induction ps generalizing t with
  | nil => simp [matchClasses, run_cat_nil]
  | cons p ps ih =>
    obtain ⟨pos, rest, k⟩ := t
    cases rest with
    | nil => simp [matchClasses, run_cat_cons, run_cls_nil]
    | cons d r =>
      simp only [List.map_cons, run_cat_cons, run_cls_cons, matchClasses]
      by_cases h : p d = true
      · simp only [h, if_true, List.flatMap_cons, List.flatMap_nil, List.append_nil, ih]
        cases matchClasses ps r <;> simp [Nat.add_assoc, Nat.add_comm 1]
      · simp [h]

theorem matchClasses_some (ps : List (Char → Bool)) (r r2 : List Char)
    (h : matchClasses ps r = some r2) :
    r = r.take ps.length ++ r2 ∧ (r.take ps.length).length = ps.length := by
  induction ps generalizing r with
  | nil => simp [matchClasses] at h; simp [h]
  | cons p ps ih =>
    cases r with
    | nil => simp [matchClasses] at h
    | cons d ds =>
      by_cases hd : p d = true
      · simp only [matchClasses, hd, if_true] at h
        obtain ⟨h1, h2⟩ := ih ds h
        constructor
        · simp only [List.length_cons, List.take_succ_cons, List.cons_append]
          rw [← h1]
        · simp only [List.length_cons, List.take_succ_cons, h2]
      · simp [matchClasses, hd] at h

theorem run_cat_cons_fun (r : Regex) (rs : List Regex) :
    run (cat (r :: rs)) = fun t => (run r t).flatMap (run (cat rs)) := rfl

theorem run_cat_nil_fun : run (cat []) = fun t => [t] := rfl

theorem run_date (t : Thread) :
    run (cat [rep 4 (.cls isDigit), chr '-', rep 2 (.cls isDigit), chr '-',
        rep 2 (.cls isDigit)]) t = run (cat (dateClasses.map .cls)) t := by
  simp only [rep, List.replicate, run_cat_cons_fun, run_cat_nil_fun, chr, dateClasses,
    List.map, List.flatMap_assoc, List.flatMap_singleton', List.flatMap_cons,
    List.flatMap_nil, List.append_nil]

theorem matchAt_due (pos : Nat) (rest : List Char) :
    matchAt reAddCommandDue pos rest =
      (dueAt rest).map fun x =>
        ⟨pos + 4 + x.1.length, x.2, [(1, pos + 4, pos + 4 + x.1.length)]⟩ := by
  simp only [matchAt, reAddCommandDue, dueAt]
  rw [run_cat_cons, run_lit]
  cases hs : stripLit "due:".data rest with
  | none => rfl
  | some r =>
    simp only [List.flatMap_cons, List.flatMap_nil, List.append_nil]
    rw [run_cat_cons, run_group]
    simp only [run_date, run_classes, run_cat_nil_fun, List.flatMap_singleton']
    cases hm : matchClasses dateClasses r with
    | none => rfl
    | some r2 =>
      obtain ⟨_, h2⟩ := matchClasses_some _ _ _ hm
      have h3 : (List.take 10 r).length = 10 := h2
      simp only [List.map_cons, List.map_nil, List.head?_cons, Option.map_some', h3]
      rfl

theorem run_plus_head (p : Char → Bool) (pos : Nat) (c : Char) (b : List Char)
    (k : List (Nat × Nat × Nat)) (hc : p c = true) :
    ∃ tl, run (plus (.cls p)) ⟨pos, c :: b, k⟩ =
      ⟨pos + ((c :: b).takeWhile p).length, (c :: b).dropWhile p, k⟩ :: tl := by
  obtain ⟨tl, htl⟩ := star_head p ⟨pos + 1, b, k⟩
  refine ⟨tl, ?_⟩
  have h1 : run (plus (.cls p)) ⟨pos, c :: b, k⟩ = run (.star (.cls p)) ⟨pos + 1, b, k⟩ := by
    simp [plus, run_seq, run_cls_cons, hc]
  rw [h1, htl]
  simp [skip, List.takeWhile_cons, List.dropWhile_cons, hc, Nat.add_assoc, Nat.add_comm 1]

theorem matchAt_project (pos : Nat) (rest : List Char) :
    matchAt reAddCommandProject pos rest =
      (projAt rest).map fun x =>
        ⟨pos + 8 + x.1.length, x.2, [(1, pos + 8, pos + 8 + x.1.length)]⟩ := by
  simp only [matchAt, reAddCommandProject, run_cat_cons, run_lit, projAt]
  cases hs : stripLit "project:".data rest with
  | none => rfl
  | some r =>
    simp only [List.flatMap_cons, List.flatMap_nil, List.append_nil, run_cat_cons,
      run_group, run_cat_nil_fun, List.flatMap_singleton']
    cases r with
    | nil => simp [plus, run_seq, run_cls_nil]
    | cons c b =>
      by_cases hc : isNonSpace c = true
      · obtain ⟨tl, htl⟩ := run_plus_head isNonSpace (pos + "project:".data.length) c b [] hc
        simp only [htl, hc, if_true, List.map_cons, List.head?_cons, Option.map_some']
        rfl
      · simp [plus, run_seq, run_cls_cons, hc]

theorem stripLit_length (l rest r : List Char) (h : stripLit l rest = some r) :
    rest = l ++ r := stripLit_some l rest r h

theorem tokSpec_project : TokSpec reAddCommandProject projAt 8 := by
  refine ⟨matchAt_project, ?_, by decide⟩
  intro rest x hx
  simp only [projAt] at hx
  cases hs : stripLit "project:".data rest with
  | none => simp [hs] at hx
  | some r =>
    cases r with
    | nil => simp [hs] at hx
    | cons c b =>
      by_cases hc : isNonSpace c = true
      · simp only [hs, hc, if_true, Option.some.injEq] at hx
        subst hx
        refine ⟨"project:".data, rfl, ?_⟩
        rw [stripLit_some _ _ _ hs]
        simp only [List.takeWhile_append_dropWhile]
      · simp [hs, hc] at hx

theorem tokSpec_due : TokSpec reAddCommandDue dueAt 4 := by
  refine ⟨matchAt_due, ?_, by decide⟩
  intro rest x hx
  simp only [dueAt] at hx
  cases hs : stripLit "due:".data rest with
  | none => simp [hs] at hx
  | some r =>
    cases hm : matchClasses dateClasses r with
    | none => simp [hs, hm] at hx
    | some r2 =>
      simp only [hs, hm, Option.map_some', Option.some.injEq] at hx
      subst hx
      refine ⟨"due:".data, rfl, ?_⟩
      rw [stripLit_some _ _ _ hs]
      have := (matchClasses_some _ _ _ hm).1
      exact congrArg _ this

/-! ### Searching and removing tokens -/

theorem slice_mid (line A B C : List Char) (a b : Nat) (hl : line = A ++ (B ++ C))
    (ha : a = A.length) (hb : b = a + B.length) :
    slice line (a : Int) (b : Int) = some B := by
  subst hl ha hb
  have h1 : (0 : Int) ≤ (A.length : Int) := Int.natCast_nonneg _
  have h2 : (A.length : Int) ≤ ((A.length + B.length : Nat) : Int) := by
    exact_mod_cast Nat.le_add_right _ _
  have h3 : ((A.length + B.length : Nat) : Int) ≤ ((A ++ (B ++ C)).length : Int) := by
    simp only [List.length_append]
    exact_mod_cast (by omega : A.length + B.length ≤ A.length + (B.length + C.length))
  simp only [slice, h1, h2, h3, and_self, if_true, Int.toNat_ofNat]
  simp

theorem tok_shrinks (re : Regex) (tokAt : List Char → Option (List Char × List Char))
    (off : Nat) (hs : TokSpec re tokAt off) (rest : List Char) (x : List Char × List Char)
    (hx : tokAt rest = some x) : x.2.length < rest.length := by
  obtain ⟨pre, hpre, hr⟩ := hs.2.1 rest x hx
  have h0 := hs.2.2
  rw [hr]
  simp only [List.length_append]
  omega

theorem findFrom_tok (re : Regex) (tokAt : List Char → Option (List Char × List Char))
    (off : Nat) (hs : TokSpec re tokAt off) (line rest pre : List Char)
    (hl : line = pre ++ rest) :
    match findFrom re pre.length rest with
    | none => firstTok tokAt rest = none
    | some st => ∃ tok a b, firstTok tokAt rest = some tok ∧ st.2.caps = [(1, a, b)] ∧
        slice line (a : Int) (b : Int) = some tok := by
  induction rest generalizing pre with
  | nil =>
    simp only [findFrom, hs.1, firstTok]
    cases hx : tokAt [] with
    | none => simp
    | some x =>
      exfalso
      have := tok_shrinks re tokAt off hs [] x hx
      simp at this
  | cons c cs ih =>
    simp only [findFrom, hs.1, firstTok]
    cases hx : tokAt (c :: cs) with
    | none =>
      simp only [Option.map_none']
      have := ih (pre ++ [c]) (by simp [hl])
      simpa using this
    | some x =>
      obtain ⟨p1, hp1, hr⟩ := hs.2.1 _ x hx
      simp only [Option.map_some']
      refine ⟨x.1, pre.length + off, pre.length + off + x.1.length, rfl, rfl, ?_⟩
      apply slice_mid line (pre ++ p1) x.1 x.2
      · rw [hl, hr, List.append_assoc]
      · simp [hp1]
      · rfl

theorem fsi_tok (re : Regex) (tokAt : List Char → Option (List Char × List Char))
    (off : Nat) (hs : TokSpec re tokAt off) (hn : numSubexp re = 1) (line : List Char) :
    match firstTok tokAt line with
    | none => FindStringSubmatchIndex re line = none
    | some tok => ∃ m ix, FindStringSubmatchIndex re line = some m ∧
        index2 m 2 3 = some ix ∧ slice line ix.1 ix.2 = some tok := by
  have h := findFrom_tok re tokAt off hs line line [] rfl
  simp only [List.length_nil] at h
  simp only [FindStringSubmatchIndex, find, hn]
  cases hf : findFrom re 0 line with
  | none =>
    rw [hf] at h
    simp only at h
    simp [h]
  | some st =>
    rw [hf] at h
    obtain ⟨tok, a, b, h1, h2, h3⟩ := h
    obtain ⟨s, t⟩ := st
    simp only at h2
    simp only [h1]
    refine ⟨_, ((a : Int), (b : Int)), rfl, ?_, h3⟩
    simp [h2, index2, groupIndex, List.range, List.range.loop]

theorem removeAllFrom_tok (re : Regex) (tokAt : List Char → Option (List Char × List Char))
    (off : Nat) (hs : TokSpec re tokAt off) (n pos : Nat) (rest : List Char) :
    removeAllFrom re n pos rest = stripToks tokAt n rest := by
  induction n generalizing pos rest with
  | zero => rfl
  | succ n ih =>
    cases rest with
    | nil => rfl
    | cons c cs =>
      simp only [removeAllFrom, stripToks, hs.1]
      cases hx : tokAt (c :: cs) with
      | none => simp [ih]
      | some x =>
        have h0 := hs.2.2
        have hlt : pos < pos + off + x.1.length := by omega
        simp [hlt, ih]

theorem replaceAll_tok (re : Regex) (tokAt : List Char → Option (List Char × List Char))
    (off : Nat) (hs : TokSpec re tokAt off) (line : List Char) :
    ReplaceAllString re line = strip tokAt line :=
  removeAllFrom_tok re tokAt off hs _ 0 line

theorem stripToks_fuel (tokAt : List Char → Option (List Char × List Char))
    (hsh : ∀ rest x, tokAt rest = some x → x.2.length < rest.length)
    (n m : Nat) (rest : List Char) (hn : rest.length < n) (hm : rest.length < m) :
    stripToks tokAt n rest = stripToks tokAt m rest := by
  induction n generalizing m rest with
  | zero => omega
  | succ n ih =>
    cases m with
    | zero => omega
    | succ m =>
      cases rest with
      | nil => rfl
      | cons c cs =>
        simp only [stripToks]
        simp only [List.length_cons] at hn hm
        cases hx : tokAt (c :: cs) with
        | none =>
          simp only
          rw [ih m cs (by omega) (by omega)]
        | some x =>
          have := hsh _ x hx
          simp only [List.length_cons] at this
          simp only
          rw [ih m x.2 (by omega) (by omega)]

theorem strip_nil (tokAt : List Char → Option (List Char × List Char)) :
    strip tokAt [] = [] := rfl

theorem strip_cons_none (tokAt : List Char → Option (List Char × List Char))
    (c : Char) (cs : List Char) (h : tokAt (c :: cs) = none) :
    strip tokAt (c :: cs) = c :: strip tokAt cs := by
  simp only [strip, stripToks, h, List.length_cons]

theorem strip_cons_some (tokAt : List Char → Option (List Char × List Char))
    (hsh : ∀ rest x, tokAt rest = some x → x.2.length < rest.length)
    (c : Char) (cs : List Char) (x : List Char × List Char) (h : tokAt (c :: cs) = some x) :
    strip tokAt (c :: cs) = strip tokAt x.2 := by
  have := hsh _ x h
  simp only [List.length_cons] at this
  simp only [strip, stripToks, h, List.length_cons]
  exact stripToks_fuel tokAt hsh _ _ x.2 (by omega) (by omega)

/-- The `add` branch of `ParseLine` in terms of the tokens of the line. -/
theorem parseAdd_eq (line : List Char) :
    parseAdd line =
      match firstTok projAt line with
      | none => some ⟨none, some errMissingProject⟩
      | some pn =>
        match firstTok dueAt line with
        | none => some ⟨none, some errMissingDue⟩
        | some dt =>
          ((FindStringSubmatch reAddCommand (strip dueAt (strip projAt line))).bind
            fun sub => sub.get? 1).bind fun g =>
          if len (Trim g) = 0 then some ⟨none, some errMissingDesc⟩
          else some ⟨some (.AddCommand (Trim g) pn ((timeParse dt).getD Time.zero)), none⟩ := by
  have hp := fsi_tok _ _ _ tokSpec_project (by decide) line
  have hd := fsi_tok _ _ _ tokSpec_due (by decide) line
  unfold parseAdd
  cases h1 : firstTok projAt line with
  | none =>
    rw [h1] at hp
    simp only at hp
    simp only [hp]
  | some pn =>
    rw [h1] at hp
    obtain ⟨m, ix, hm, hix, hsl⟩ := hp
    simp only [hm, hix, hsl, Option.some_bind]
    cases h2 : firstTok dueAt line with
    | none =>
      rw [h2] at hd
      simp only at hd
      simp only [hd]
    | some dt =>
      rw [h2] at hd
      obtain ⟨m2, jx, hm2, hjx, hsl2⟩ := hd
      simp only [hm2, hjx, hsl2, Option.some_bind,
        replaceAll_tok _ _ _ tokSpec_project, replaceAll_tok _ _ _ tokSpec_due]

/-! ### The group of the `add` pattern -/

theorem plus_head_append (p : Char → Bool) (pos : Nat) (x y : List Char)
    (k : List (Nat × Nat × Nat)) (hne : x ≠ []) (hx : ∀ c ∈ x, p c = true)
    (hy : ∀ c ∈ y.head?, p c = false) :
    ∃ tl, run (plus (.cls p)) ⟨pos, x ++ y, k⟩ = ⟨pos + x.length, y, k⟩ :: tl := by
  cases x with
  | nil => exact absurd rfl hne
  | cons c cs =>
    obtain ⟨tl, htl⟩ := run_plus_head p pos c (cs ++ y) k (hx c (by simp))
    refine ⟨tl, ?_⟩
    have h1 := takeWhile_append_stop p (c :: cs) y hx hy
    have h2 := dropWhile_append_stop p (c :: cs) y hx hy
    simp only [List.cons_append] at h1 h2 htl ⊢
    rw [htl, h1, h2]

theorem classStar_two (p : Char → Bool) (pos : Nat) (xs : List Char) (c : Char)
    (k : List (Nat × Nat × Nat)) (hx : ∀ d ∈ xs, p d = true) (hc : p c = true) :
    ∃ tl, classStar p pos (xs ++ [c]) k =
      ⟨pos + xs.length + 1, [], k⟩ :: ⟨pos + xs.length, [c], k⟩ :: tl := by
  induction xs generalizing pos with
  | nil => exact ⟨[], by simp [classStar, hc]⟩
  | cons d ds ih =>
    obtain ⟨tl, htl⟩ := ih (pos + 1) (fun e he => hx e (by simp [he]))
    refine ⟨tl ++ [⟨pos, d :: (ds ++ [c]), k⟩], ?_⟩
    have hd : p d = true := hx d (by simp)
    have e1 : pos + 1 + ds.length + 1 = pos + (ds.length + 1) + 1 := by omega
    have e2 : pos + 1 + ds.length = pos + (ds.length + 1) := by omega
    have h0 : classStar p pos (d :: (ds ++ [c])) k =
        classStar p (pos + 1) (ds ++ [c]) k ++ [⟨pos, d :: (ds ++ [c]), k⟩] := by
      simp [classStar, hd]
    rw [List.cons_append, h0, htl, e1, e2]
    rfl

theorem add_run_greedy (u w1 g v : List Char) (hu : ∀ c ∈ u, isSpace c = true)
    (h1 : w1 ≠ []) (hw1 : ∀ c ∈ w1, isSpace c = true) (h2 : g ≠ [])
    (hg : ∀ c ∈ g, isDot c = true) (hgh : ∀ c ∈ g.head?, isSpace c = false)
    (hv : ∀ c ∈ v, isSpace c = true) (hvh : ∀ c ∈ v.head?, isDot c = false) :
    ∃ tl, run (cat [.star (.cls isSpace), lit "add", plus (.cls isSpace),
        .group 1 (plus (.cls isDot)), .star (.cls isSpace), .eol])
        ⟨0, u ++ ("add".data ++ (w1 ++ (g ++ v))), []⟩ =
      ⟨u.length + 3 + w1.length + g.length + v.length, [],
        [(1, u.length + 3 + w1.length, u.length + 3 + w1.length + g.length)]⟩ :: tl := by
  have hl : lit "add" = cat (('a' :: "dd".data).map chr) := rfl
  rw [run_cat_cons, hl, star_commit isSpace _ (rejects_lits isSpace 'a' _ _ (by decide)),
    ← hl, skip_append isSpace 0 u _ [] hu (by simp; decide), run_cat_cons, run_lit]
  simp only [stripLit_append, List.flatMap_cons, List.flatMap_nil, List.append_nil]
  have hgv : ∀ c ∈ (g ++ v).head?, isSpace c = false := by
    cases g with
    | nil => exact absurd rfl h2
    | cons a as => simpa using hgh
  obtain ⟨tl1, htl1⟩ := plus_head_append isSpace (0 + u.length + "add".data.length) w1
    (g ++ v) [] h1 hw1 hgv
  obtain ⟨tl2, htl2⟩ := plus_head_append isDot
    (0 + u.length + "add".data.length + w1.length) g v [] h2 hg hvh
  rw [run_cat_cons, htl1, List.flatMap_cons, run_cat_cons, flatMap_group, htl2,
    List.flatMap_cons, run_tail _ v _ hv]
  simp only [Nat.zero_add, show "add".data.length = 3 from rfl, List.singleton_append,
    List.cons_append, List.nil_append]
  exact ⟨_, rfl⟩

theorem add_submatch_greedy (u w1 g v : List Char) (hu : ∀ c ∈ u, isSpace c = true)
    (h1 : w1 ≠ []) (hw1 : ∀ c ∈ w1, isSpace c = true) (h2 : g ≠ [])
    (hg : ∀ c ∈ g, isDot c = true) (hgh : ∀ c ∈ g.head?, isSpace c = false)
    (hv : ∀ c ∈ v, isSpace c = true) (hvh : ∀ c ∈ v.head?, isDot c = false) :
    MatchString reAddCommand (u ++ ("add".data ++ (w1 ++ (g ++ v)))) = true ∧
    (FindStringSubmatch reAddCommand (u ++ ("add".data ++ (w1 ++ (g ++ v))))).bind
      (fun sub => sub.get? 1) = some g := by
  obtain ⟨tl, htl⟩ := add_run_greedy u w1 g v hu h1 hw1 h2 hg hgh hv hvh
  have hf := find_bol_of_run _ _ _ _ htl
  have hn : numSubexp reAddCommand = 1 := by decide
  have hr1 : List.range 1 = [0] := rfl
  have hgt := groupText_mid (u ++ ("add".data ++ (w1 ++ (g ++ v))))
    (u ++ ("add".data ++ w1)) g v 1 (u.length + 3 + w1.length)
    (u.length + 3 + w1.length + g.length) [] (by simp) (by simp; omega) rfl
  constructor
  · simp only [MatchString, reAddCommand, hf]; rfl
  · simp only [FindStringSubmatch, hn]
    simp only [reAddCommand, hf, hr1, List.map_cons, List.map_nil, Nat.zero_add, hgt]
    rfl

theorem add_run_back (u w1 : List Char) (c : Char) (hu : ∀ d ∈ u, isSpace d = true)
    (h1 : w1 ≠ []) (hw1 : ∀ d ∈ w1, isSpace d = true) (hc : isSpace c = true)
    (hcd : isDot c = true) :
    ∃ tl, run (cat [.star (.cls isSpace), lit "add", plus (.cls isSpace),
        .group 1 (plus (.cls isDot)), .star (.cls isSpace), .eol])
        ⟨0, u ++ ("add".data ++ (w1 ++ [c])), []⟩ =
      ⟨u.length + 3 + w1.length + 1, [],
        [(1, u.length + 3 + w1.length, u.length + 3 + w1.length + 1)]⟩ :: tl := by
  have hl : lit "add" = cat (('a' :: "dd".data).map chr) := rfl
  rw [run_cat_cons, hl, star_commit isSpace _ (rejects_lits isSpace 'a' _ _ (by decide)),
    ← hl, skip_append isSpace 0 u _ [] hu (by simp; decide), run_cat_cons, run_lit]
  simp only [stripLit_append, List.flatMap_cons, List.flatMap_nil, List.append_nil]
  cases w1 with
  | nil => exact absurd rfl h1
  | cons a as =>
    have ha : isSpace a = true := hw1 a (by simp)
    obtain ⟨tl, htl⟩ := classStar_two isSpace (0 + u.length + "add".data.length + 1) as c []
      (fun d hd => hw1 d (by simp [hd])) hc
    have hp : run (plus (.cls isSpace)) ⟨0 + u.length + "add".data.length, a :: as ++ [c], []⟩ =
        classStar isSpace (0 + u.length + "add".data.length + 1) (as ++ [c]) [] := by
      simp [plus, run_seq, run_cls_cons, ha, run_star_cls]
    have hk1 : run (cat [.group 1 (plus (.cls isDot)), .star (.cls isSpace), .eol])
        ⟨0 + u.length + "add".data.length + 1 + as.length + 1, [], []⟩ = [] := by
      simp [run_cat_cons, run_group, plus, run_seq, run_cls_nil]
    have hk2 : run (cat [.group 1 (plus (.cls isDot)), .star (.cls isSpace), .eol])
        ⟨0 + u.length + "add".data.length + 1 + as.length, [c], []⟩ =
        [⟨0 + u.length + "add".data.length + 1 + as.length + 1, [],
          [(1, 0 + u.length + "add".data.length + 1 + as.length,
            0 + u.length + "add".data.length + 1 + as.length + 1)]⟩] := by
      rw [run_cat_cons, run_group]
      have : run (plus (.cls isDot))
          ⟨0 + u.length + "add".data.length + 1 + as.length, [c], []⟩ =
          [⟨0 + u.length + "add".data.length + 1 + as.length + 1, [], []⟩] := by
        simp [plus, run_seq, run_cls_cons, hcd, run_star_cls, classStar]
      rw [this]
      simp only [List.map_cons, List.map_nil, List.flatMap_cons, List.flatMap_nil,
        List.append_nil]
      rw [run_tail _ [] _ (by simp)]
      simp
    rw [run_cat_cons, hp, htl, List.flatMap_cons, List.flatMap_cons, hk1, hk2]
    have e1 : 0 + u.length + "add".data.length + 1 + as.length =
        u.length + 3 + (a :: as).length := by
      simp only [List.length_cons, show "add".data.length = 3 from rfl]; omega
    rw [e1]
    simp only [List.singleton_append, List.cons_append, List.nil_append]
    exact ⟨_, rfl⟩

theorem add_submatch_back (u w1 : List Char) (c : Char) (hu : ∀ d ∈ u, isSpace d = true)
    (h1 : w1 ≠ []) (hw1 : ∀ d ∈ w1, isSpace d = true) (hc : isSpace c = true)
    (hcd : isDot c = true) :
    (FindStringSubmatch reAddCommand (u ++ ("add".data ++ (w1 ++ [c])))).bind
      (fun sub => sub.get? 1) = some [c] := by
  obtain ⟨tl, htl⟩ := add_run_back u w1 c hu h1 hw1 hc hcd
  have hf := find_bol_of_run _ _ _ _ htl
  have hn : numSubexp reAddCommand = 1 := by decide
  have hr1 : List.range 1 = [0] := rfl
  have hgt := groupText_mid (u ++ ("add".data ++ (w1 ++ [c])))
    (u ++ ("add".data ++ w1)) [c] [] 1 (u.length + 3 + w1.length)
    (u.length + 3 + w1.length + 1) [] (by simp) (by simp; omega) rfl
  simp only [FindStringSubmatch, hn]
  simp only [reAddCommand, hf, hr1, List.map_cons, List.map_nil, Nat.zero_add, hgt]
  rfl

/-! ### `len` and `strings.Trim` -/

theorem len_eq_zero (s : List Char) : len s = 0 ↔ s = [] := by
  cases s with
  | nil => simp [len]
  | cons c cs =>
    have := Char.utf8Size_pos c
    simp [len]
    omega

theorem trim_of_head (g : List Char) (h : ∀ c ∈ g.head?, (c == ' ') = false) :
    Trim g = g.rdropWhile fun c => c == ' ' := by
  cases g with
  | nil => rfl
  | cons c cs =>
    have hc := h c (by simp)
    simp [Trim, List.dropWhile_cons, hc]

theorem rdropWhile_cons_ne (p : Char → Bool) (c : Char) (cs : List Char)
    (hc : p c = false) : (c :: cs).rdropWhile p ≠ [] := by
  intro h
  rw [List.rdropWhile_eq_nil_iff] at h
  have := h c (by simp)
  rw [hc] at this
  exact absurd this (by simp)

theorem rdropWhile_append_replicate (p : Char → Bool) (d : List Char) (c : Char)
    (j : Nat) (hc : p c = true) (hd : ∀ x ∈ d.getLast?, p x = false) :
    (d ++ List.replicate j c).rdropWhile p = d := by
  induction j with
  | zero =>
    simp only [List.replicate, List.append_nil]
    rw [List.rdropWhile_eq_self_iff]
    intro hl
    have := hd (d.getLast hl) (by simp [List.getLast?_eq_getLast _ hl])
    simp [this]
  | succ j ih =>
    rw [List.replicate_succ', ← List.append_assoc, List.rdropWhile_concat_pos _ _ _ hc]
    exact ih

/-! ### Tokens and their occurrences in a line -/

theorem firstTok_none_iff (tokAt : List Char → Option (List Char × List Char))
    (line : List Char) :
    firstTok tokAt line = none ↔ ∀ a b, line = a ++ b → tokAt b = none := by
  induction line with
  | nil =>
    simp only [firstTok, Option.map_eq_none']
    constructor
    · intro h a b hab
      have hb : b = [] := (List.append_eq_nil.mp hab.symm).2
      rw [hb]; exact h
    · intro h
      exact h [] [] rfl
  | cons c cs ih =>
    simp only [firstTok]
    cases hx : tokAt (c :: cs) with
    | some x =>
      constructor
      · intro h
        exact absurd h (by simp)
      · intro h
        have := h [] (c :: cs) rfl
        rw [hx] at this
        exact absurd this (by simp)
    | none =>
      simp only [ih]
      constructor
      · intro h a b hab
        cases a with
        | nil => simp only [List.nil_append] at hab; rw [← hab]; exact hx
        | cons a0 as =>
          simp only [List.cons_append, List.cons.injEq] at hab
          exact h as b hab.2
      · intro h a b hab
        exact h (c :: a) b (by simp [hab])

theorem projAt_head (c : Char) (y : List Char) (hc : c ≠ 'p') : projAt (c :: y) = none := by
  have : (c == 'p') = false := by simpa using hc
  simp [projAt, stripLit, this]

theorem dueAt_head (c : Char) (y : List Char) (hc : c ≠ 'd') : dueAt (c :: y) = none := by
  have : (c == 'd') = false := by simpa using hc
  simp [dueAt, stripLit, this]

theorem dueAt_head2 (c : Char) (y : List Char) (hc : c ≠ 'u') :
    dueAt ('d' :: c :: y) = none := by
  have : (c == 'u') = false := by simpa using hc
  simp [dueAt, stripLit, this]

theorem projAt_occ (c : Char) (b : List Char) (hc : isSpace c = false) :
    projAt ("project:".data ++ c :: b) =
      some ((c :: b).takeWhile isNonSpace, (c :: b).dropWhile isNonSpace) := by
  have hns : isNonSpace c = true := by simp [isNonSpace, hc]
  simp only [projAt, stripLit_append, hns, if_true]

theorem projAt_some (b : List Char) (x : List Char × List Char) (h : projAt b = some x) :
    ∃ c b2, b = "project:".data ++ c :: b2 ∧ isSpace c = false := by
  simp only [projAt] at h
  cases hs : stripLit "project:".data b with
  | none => simp [hs] at h
  | some r =>
    cases r with
    | nil => simp [hs] at h
    | cons c b2 =>
      by_cases hc : isNonSpace c = true
      · exact ⟨c, b2, stripLit_some _ _ _ hs, by simpa [isNonSpace] using hc⟩
      · simp [hs, hc] at h

theorem matchClasses_date (D r2 : List Char) (h : isDateShape D = true) :
    matchClasses dateClasses (D ++ r2) = some r2 := by
  obtain ⟨y1, y2, y3, y4, m1, m2, d1, d2, rfl, a1, a2, a3, a4, a6, a7, a9, a10⟩ :=
    dateShape_cases D h
  simp [matchClasses, dateClasses, a1, a2, a3, a4, a6, a7, a9, a10]

theorem matchClasses_date_shape (r r2 : List Char)
    (h : matchClasses dateClasses r = some r2) : isDateShape (r.take 10) = true := by
  rcases r with _ | ⟨c1, _ | ⟨c2, _ | ⟨c3, _ | ⟨c4, _ | ⟨c5, _ | ⟨c6, _ | ⟨c7, _ | ⟨c8,
    _ | ⟨c9, _ | ⟨c10, r⟩⟩⟩⟩⟩⟩⟩⟩⟩⟩ <;>
    simp [matchClasses, dateClasses] at h
  simp [isDateShape, h]

theorem dueAt_occ (D b : List Char) (h : isDateShape D = true) :
    dueAt ("due:".data ++ (D ++ b)) = some (D, b) := by
  have hlen : D.length = 10 := by
    obtain ⟨y1, y2, y3, y4, m1, m2, d1, d2, rfl, _⟩ := dateShape_cases D h
    rfl
  simp only [dueAt, stripLit_append, matchClasses_date D b h, Option.map_some']
  simp [hlen]

theorem dueAt_some (b : List Char) (x : List Char × List Char) (h : dueAt b = some x) :
    ∃ D b2, b = "due:".data ++ (D ++ b2) ∧ isDateShape D = true := by
  simp only [dueAt] at h
  cases hs : stripLit "due:".data b with
  | none => simp [hs] at h
  | some r =>
    cases hm : matchClasses dateClasses r with
    | none => simp [hs, hm] at h
    | some r2 =>
      refine ⟨r.take 10, r2, ?_, matchClasses_date_shape r r2 hm⟩
      rw [stripLit_some _ _ _ hs]
      exact congrArg _ (matchClasses_some _ _ _ hm).1

theorem firstTok_proj_none (line : List Char)
    (h : ¬ ∃ a c b, line = a ++ "project:".toList ++ c :: b ∧ isSpace c = false) :
    firstTok projAt line = none := by
  rw [firstTok_none_iff]
  intro a b hab
  cases hx : projAt b with
  | none => rfl
  | some x =>
    exfalso
    obtain ⟨c, b2, hb, hc⟩ := projAt_some b x hx
    exact h ⟨a, c, b2, by rw [hab, hb, List.append_assoc]; rfl, hc⟩

theorem firstTok_proj_some (line : List Char)
    (h : ∃ a c b, line = a ++ "project:".toList ++ c :: b ∧ isSpace c = false) :
    ∃ pn, firstTok projAt line = some pn := by
  cases hf : firstTok projAt line with
  | some pn => exact ⟨pn, rfl⟩
  | none =>
    exfalso
    obtain ⟨a, c, b, hl, hc⟩ := h
    rw [firstTok_none_iff] at hf
    have := hf a ("project:".data ++ c :: b) (by rw [hl, List.append_assoc]; rfl)
    rw [projAt_occ c b hc] at this
    exact absurd this (by simp)

theorem firstTok_due_none (line : List Char)
    (h : ¬ ∃ a D b, line = a ++ "due:".toList ++ D ++ b ∧ isDateShape D = true) :
    firstTok dueAt line = none := by
  rw [firstTok_none_iff]
  intro a b hab
  cases hx : dueAt b with
  | none => rfl
  | some x =>
    exfalso
    obtain ⟨D, b2, hb, hD⟩ := dueAt_some b x hx
    exact h ⟨a, D, b2, by rw [hab, hb]; simp only [List.append_assoc]; rfl, hD⟩

theorem firstTok_due_some (line : List Char)
    (h : ∃ a D b, line = a ++ "due:".toList ++ D ++ b ∧ isDateShape D = true) :
    ∃ dt, firstTok dueAt line = some dt := by
  cases hf : firstTok dueAt line with
  | some dt => exact ⟨dt, rfl⟩
  | none =>
    exfalso
    obtain ⟨a, D, b, hl, hD⟩ := h
    rw [firstTok_none_iff] at hf
    have := hf a ("due:".data ++ (D ++ b)) (by rw [hl]; simp only [List.append_assoc]; rfl)
    rw [dueAt_occ D b hD] at this
    exact absurd this (by simp)

/-- A line that the `add` pattern matches is parsed by the `add` branch. -/
theorem parseLine_add_of_match (line : List Char)
    (h : MatchString reAddCommand line = true) : ParseLine line = parseAdd line := by
  have hf := add_first line h
  exact parseLine_add line (version_false _ 'a' hf (by decide))
    (bye_false _ 'a' hf (by decide) (by decide) (by decide))
    (help_false _ 'a' hf (by decide)) (list_false _ 'a' hf (by decide))
    (done_false _ 'a' hf (by decide)) h

/-! ### The description of an `add` -/

theorem add_shape (line : List Char) (h : MatchString reAddCommand line = true) :
    ∃ u w rest, (∀ c ∈ u, isSpace c = true) ∧ isSpace w = true ∧
      line = u ++ ("add".data ++ w :: rest) := by
  obtain ⟨x, y, u, v, hx, hl, hv, hu⟩ := mem_run_lead _ _ _ h
  obtain ⟨hr, _, _⟩ := mem_run_lit _ v _ hv
  obtain ⟨v1, hv1, _⟩ := (mem_run_cat_cons _ _ u v).mp hu
  obtain ⟨w1, hw1ne, hw1, hr1, _, _⟩ := mem_run_plus isSpace v1 v hv1
  simp only at hr
  cases w1 with
  | nil => exact absurd rfl hw1ne
  | cons w ws =>
    refine ⟨x, w, ws ++ v1.rest, hx, hw1 w (by simp), ?_⟩
    rw [hl, hr, hr1]
    rfl

theorem proj_shrinks (rest : List Char) (x : List Char × List Char)
    (h : projAt rest = some x) : x.2.length < rest.length :=
  tok_shrinks _ _ _ tokSpec_project rest x h

theorem due_shrinks (rest : List Char) (x : List Char × List Char)
    (h : dueAt rest = some x) : x.2.length < rest.length :=
  tok_shrinks _ _ _ tokSpec_due rest x h

theorem strip_skip_chars (tokAt : List Char → Option (List Char × List Char))
    (x y : List Char) (h : ∀ c ∈ x, ∀ z, tokAt (c :: z) = none) :
    strip tokAt (x ++ y) = x ++ strip tokAt y := by
  induction x with
  | nil => rfl
  | cons c cs ih =>
    rw [List.cons_append, strip_cons_none tokAt c _ (h c (by simp) _),
      ih (fun d hd => h d (by simp [hd]))]
    rfl

theorem space_ne_char (c d : Char) (hc : isSpace c = true) (hd : isSpace d = false) :
    c ≠ d := by
  intro h
  rw [h, hd] at hc
  exact absurd hc (by simp)

theorem strip_proj_add (u rest : List Char) (w : Char) (hu : ∀ c ∈ u, isSpace c = true)
    (hw : isSpace w = true) :
    strip projAt (u ++ ("add".data ++ w :: rest)) =
      u ++ ("add".data ++ w :: strip projAt rest) := by
  have h1 : u ++ ("add".data ++ w :: rest) = (u ++ ("add".data ++ [w])) ++ rest := by simp
  have h2 : u ++ ("add".data ++ w :: strip projAt rest) =
      (u ++ ("add".data ++ [w])) ++ strip projAt rest := by simp
  rw [h1, h2]
  apply strip_skip_chars
  intro c hc z
  apply projAt_head
  simp only [List.mem_append, List.mem_singleton] at hc
  rcases hc with hc | hc | hc
  · exact space_ne_char c 'p' (hu c hc) (by decide)
  · have : c = 'a' ∨ c = 'd' := by
      have : c ∈ ['a', 'd', 'd'] := hc
      simpa using this
    rcases this with rfl | rfl <;> decide
  · rw [hc]; exact space_ne_char w 'p' hw (by decide)

theorem strip_due_add (u rest : List Char) (w : Char) (hu : ∀ c ∈ u, isSpace c = true)
    (hw : isSpace w = true) :
    strip dueAt (u ++ ("add".data ++ w :: rest)) =
      u ++ ("add".data ++ w :: strip dueAt rest) := by
  rw [strip_skip_chars dueAt u _
    (fun c hc z => dueAt_head c z (space_ne_char c 'd' (hu c hc) (by decide)))]
  have e : "add".data ++ w :: rest = 'a' :: 'd' :: 'd' :: w :: rest := rfl
  rw [e, strip_cons_none dueAt 'a' _ (dueAt_head 'a' _ (by decide)),
    strip_cons_none dueAt 'd' _ (dueAt_head2 'd' _ (by decide)),
    strip_cons_none dueAt 'd' _ (dueAt_head2 w _ (space_ne_char w 'u' hw (by decide))),
    strip_cons_none dueAt w _ (dueAt_head w _ (space_ne_char w 'd' hw (by decide)))]
  rfl

theorem dropWhile_concat_keep (p : Char → Bool) (xs : List Char) (c : Char)
    (hc : p c = false) : (xs ++ [c]).dropWhile p = xs.dropWhile p ++ [c] := by
  induction xs with
  | nil => simp [List.dropWhile, hc]
  | cons d ds ih =>
    by_cases hd : p d = true
    · simp [List.dropWhile_cons, hd, ih]
    · simp [List.dropWhile_cons, hd]

theorem rdropWhile_cons_keep (p : Char → Bool) (c : Char) (cs : List Char)
    (hc : p c = false) : (c :: cs).rdropWhile p = c :: cs.rdropWhile p := by
  simp [List.rdropWhile, dropWhile_concat_keep p cs.reverse c hc]

theorem rdropWhile_getLast (p : Char → Bool) (l : List Char) :
    ∀ c ∈ (l.rdropWhile p).getLast?, p c = false := by
  intro c hc
  by_cases hl : l.rdropWhile p = []
  · rw [hl] at hc; simp at hc
  · have h1 := List.rdropWhile_last_not p l hl
    rw [List.getLast?_eq_getLast _ hl] at hc
    simp only [Option.mem_def, Option.some.injEq] at hc
    rw [← hc]
    simpa using h1

theorem dropWhile_head (p : Char → Bool) (l : List Char) :
    ∀ c ∈ (l.dropWhile p).head?, p c = false := by
  induction l with
  | nil => simp
  | cons d ds ih =>
    by_cases hd : p d = true
    · simpa [List.dropWhile_cons, hd] using ih
    · simp [List.dropWhile_cons, hd]

theorem takeWhile_all (p : Char → Bool) (l : List Char) :
    ∀ c ∈ l.takeWhile p, p c = true := by
  intro c hc
  exact (List.mem_takeWhile_imp hc)

/-! ### Scanning a line chunk by chunk -/

theorem stripLit_straddle (w x2 y r : List Char) (h : stripLit w (x2 ++ y) = some r) :
    (∃ t, x2 = w ++ t) ∨ ∃ w2, w2 ≠ [] ∧ w = x2 ++ w2 ∧ y = w2 ++ r := by
  have h1 := stripLit_some _ _ _ h
  rcases List.append_eq_append_iff.mp h1 with ⟨a, ha, hy⟩ | ⟨c, hc, _⟩
  · cases a with
    | nil => exact Or.inl ⟨[], by simp [ha]⟩
    | cons a0 as => exact Or.inr ⟨a0 :: as, by simp, ha, hy⟩
  · exact Or.inl ⟨c, hc⟩

theorem stripLit_inert (w x y : List Char) (hsp : ' ' ∉ w)
    (hno : ∀ a b, x ≠ a ++ w ++ b) (hy : ∀ c ∈ y.head?, c = ' ') (x1 x2 : List Char)
    (hx : x = x1 ++ x2) : stripLit w (x2 ++ y) = none := by
  cases hs : stripLit w (x2 ++ y) with
  | none => rfl
  | some r =>
    exfalso
    rcases stripLit_straddle w x2 y r hs with ⟨t, ht⟩ | ⟨w2, hw2, hw, hyw⟩
    · exact hno x1 t (by rw [hx, ht, List.append_assoc])
    · cases w2 with
      | nil => exact hw2 rfl
      | cons c cs =>
        have hc : c = ' ' := hy c (by rw [hyw]; simp)
        apply hsp
        rw [hw, hc]
        simp

theorem noOcc_of_occurs (w d : List Char) (h : occurs w d = false) :
    ∀ a b, d ≠ a ++ w ++ b := by
  intro a
  induction a generalizing d with
  | nil =>
    intro b hd
    have hs : stripLit w d = some b := by rw [hd]; exact stripLit_append w b
    cases d with
    | nil => simp [occurs, hs] at h
    | cons c cs => simp [occurs, hs] at h
  | cons a0 as ih =>
    intro b hd
    cases d with
    | nil => simp at hd
    | cons c cs =>
      simp only [List.cons_append, List.cons.injEq] at hd
      simp only [occurs, Bool.or_eq_false_iff] at h
      exact ih cs h.2 b (by rw [hd.2])

theorem projAt_of_strip (b : List Char) (h : stripLit "project:".data b = none) :
    projAt b = none := by
  simp [projAt, h]

theorem dueAt_of_strip (b : List Char) (h : stripLit "due:".data b = none) :
    dueAt b = none := by
  simp [dueAt, h]

theorem firstTok_inert (tokAt : List Char → Option (List Char × List Char))
    (x y : List Char) (hin : ∀ x1 x2, x = x1 ++ x2 → x2 ≠ [] → tokAt (x2 ++ y) = none) :
    firstTok tokAt (x ++ y) = firstTok tokAt y := by
  induction x with
  | nil => rfl
  | cons c cs ih =>
    have h0 := hin [] (c :: cs) rfl (by simp)
    simp only [List.cons_append] at h0 ⊢
    simp only [firstTok, h0]
    exact ih (fun x1 x2 hx hne => hin (c :: x1) x2 (by simp [hx]) hne)

theorem strip_inert (tokAt : List Char → Option (List Char × List Char))
    (x y : List Char) (hin : ∀ x1 x2, x = x1 ++ x2 → x2 ≠ [] → tokAt (x2 ++ y) = none) :
    strip tokAt (x ++ y) = x ++ strip tokAt y := by
  induction x with
  | nil => rfl
  | cons c cs ih =>
    have h0 := hin [] (c :: cs) rfl (by simp)
    simp only [List.cons_append] at h0 ⊢
    rw [strip_cons_none tokAt c _ h0,
      ih (fun x1 x2 hx hne => hin (c :: x1) x2 (by simp [hx]) hne)]

theorem firstTok_at (tokAt : List Char → Option (List Char × List Char))
    (b : List Char) (x : List Char × List Char) (h : tokAt b = some x) :
    firstTok tokAt b = some x.1 := by
  cases b with
  | nil => simp [firstTok, h]
  | cons c cs => simp [firstTok, h]

theorem strip_at (tokAt : List Char → Option (List Char × List Char))
    (hsh : ∀ rest x, tokAt rest = some x → x.2.length < rest.length)
    (b : List Char) (x : List Char × List Char) (h : tokAt b = some x) :
    strip tokAt b = strip tokAt x.2 := by
  cases b with
  | nil =>
    have := hsh _ x h
    simp at this
  | cons c cs => exact strip_cons_some tokAt hsh c cs x h

theorem projAt_token (p y : List Char) (hp : p ≠ []) (hps : ∀ c ∈ p, isSpace c = false)
    (hy : ∀ c ∈ y.head?, c = ' ') : projAt ("project:".data ++ (p ++ y)) = some (p, y) := by
  cases p with
  | nil => exact absurd rfl hp
  | cons c cs =>
    have h1 : ∀ d ∈ c :: cs, isNonSpace d = true := by
      intro d hd; simp [isNonSpace, hps d hd]
    have h2 : ∀ d ∈ y.head?, isNonSpace d = false := by
      intro d hd; rw [hy d hd]; decide
    have e := projAt_occ c (cs ++ y) (hps c (by simp))
    show projAt ("project:".data ++ c :: (cs ++ y)) = some (c :: cs, y)
    rw [e]
    have t1 := takeWhile_append_stop isNonSpace (c :: cs) y h1 h2
    have t2 := dropWhile_append_stop isNonSpace (c :: cs) y h1 h2
    simp only [List.cons_append] at t1 t2
    rw [t1, t2]

/-- The key `project:` followed by a value is passed over by the search for a due
token when the value has no occurrence of `due:`. -/
theorem due_inert_project (p y : List Char) (hno : ∀ a b, p ≠ a ++ "due:".data ++ b)
    (hy : ∀ c ∈ y.head?, c = ' ') (x1 x2 : List Char)
    (hx : "project:".data ++ p = x1 ++ x2) : dueAt (x2 ++ y) = none := by
  rcases List.append_eq_append_iff.mp hx with ⟨a, ha, hp⟩ | ⟨c, hc, hx2⟩
  · exact dueAt_of_strip _ (stripLit_inert _ p y (by decide) hno hy a x2 hp)
  · cases c with
    | nil =>
      simp only [List.nil_append] at hx2
      rw [hx2]
      exact dueAt_of_strip _ (stripLit_inert _ p y (by decide) hno hy [] p rfl)
    | cons c0 cs =>
      rw [hx2, List.cons_append, List.cons_append]
      apply dueAt_head
      have hmem : c0 ∈ "project:".data := by rw [hc]; simp
      intro h0
      rw [h0] at hmem
      exact absurd hmem (by decide)

/-- A due token is passed over by the search for a project token. -/
theorem proj_inert_due (s y : List Char) (hs : isDateShape s = true) (x1 x2 : List Char)
    (hx : "due:".data ++ s = x1 ++ x2) (hne : x2 ≠ []) : projAt (x2 ++ y) = none := by
  cases x2 with
  | nil => exact absurd rfl hne
  | cons c cs =>
    rw [List.cons_append]
    apply projAt_head
    have hmem : c ∈ "due:".data ++ s := by rw [hx]; simp
    obtain ⟨y1, y2, y3, y4, m1, m2, d1, d2, rfl, a1, a2, a3, a4, a6, a7, a9, a10⟩ :=
      dateShape_cases s hs
    intro h0
    rw [h0] at hmem
    have hpd : isDigit 'p' = false := by decide
    simp only [List.mem_append, List.mem_cons, List.mem_singleton, List.not_mem_nil,
      or_false] at hmem
    rcases hmem with h | h
    · exact absurd h (by decide)
    · rcases h with h | h | h | h | h | h | h | h | h | h
      all_goals first
        | exact absurd h (by decide)
        | (rw [← h] at a1; rw [a1] at hpd; exact absurd hpd (by simp))
        | (rw [← h] at a2; rw [a2] at hpd; exact absurd hpd (by simp))
        | (rw [← h] at a3; rw [a3] at hpd; exact absurd hpd (by simp))
        | (rw [← h] at a4; rw [a4] at hpd; exact absurd hpd (by simp))
        | (rw [← h] at a6; rw [a6] at hpd; exact absurd hpd (by simp))
        | (rw [← h] at a7; rw [a7] at hpd; exact absurd hpd (by simp))
        | (rw [← h] at a9; rw [a9] at hpd; exact absurd hpd (by simp))
        | (rw [← h] at a10; rw [a10] at hpd; exact absurd hpd (by simp))

/-! ### The steps of the two scans of an `add` line -/

theorem pf_add (y : List Char) : firstTok projAt ("add ".data ++ y) = firstTok projAt y := by
  show firstTok projAt ('a' :: 'd' :: 'd' :: ' ' :: y) = _
  simp only [firstTok, projAt_head 'a' _ (by decide), projAt_head 'd' _ (by decide),
    projAt_head ' ' _ (by decide)]

theorem pf_sp (y : List Char) : firstTok projAt (' ' :: y) = firstTok projAt y := by
  simp only [firstTok, projAt_head ' ' _ (by decide)]

theorem df_add (y : List Char) : firstTok dueAt ("add ".data ++ y) = firstTok dueAt y := by
  show firstTok dueAt ('a' :: 'd' :: 'd' :: ' ' :: y) = _
  simp only [firstTok, dueAt_head 'a' _ (by decide), dueAt_head2 'd' _ (by decide),
    dueAt_head2 ' ' _ (by decide), dueAt_head ' ' _ (by decide)]

theorem df_sp (y : List Char) : firstTok dueAt (' ' :: y) = firstTok dueAt y := by
  simp only [firstTok, dueAt_head ' ' _ (by decide)]

theorem ps_add (y : List Char) :
    strip projAt ("add ".data ++ y) = "add ".data ++ strip projAt y := by
  show strip projAt ('a' :: 'd' :: 'd' :: ' ' :: y) = _
  rw [strip_cons_none projAt 'a' _ (projAt_head 'a' _ (by decide)),
    strip_cons_none projAt 'd' _ (projAt_head 'd' _ (by decide)),
    strip_cons_none projAt 'd' _ (projAt_head 'd' _ (by decide)),
    strip_cons_none projAt ' ' _ (projAt_head ' ' _ (by decide))]
  rfl

theorem ps_sp (y : List Char) : strip projAt (' ' :: y) = ' ' :: strip projAt y :=
  strip_cons_none projAt ' ' _ (projAt_head ' ' _ (by decide))

theorem ds_add (y : List Char) :
    strip dueAt ("add ".data ++ y) = "add ".data ++ strip dueAt y := by
  show strip dueAt ('a' :: 'd' :: 'd' :: ' ' :: y) = _
  rw [strip_cons_none dueAt 'a' _ (dueAt_head 'a' _ (by decide)),
    strip_cons_none dueAt 'd' _ (dueAt_head2 'd' _ (by decide)),
    strip_cons_none dueAt 'd' _ (dueAt_head2 ' ' _ (by decide)),
    strip_cons_none dueAt ' ' _ (dueAt_head ' ' _ (by decide))]
  rfl

theorem ds_sp (y : List Char) : strip dueAt (' ' :: y) = ' ' :: strip dueAt y :=
  strip_cons_none dueAt ' ' _ (dueAt_head ' ' _ (by decide))

theorem pf_d (d : List Char) (hno : ∀ a b, d ≠ a ++ "project:".data ++ b) (y : List Char) :
    firstTok projAt (d ++ ' ' :: y) = firstTok projAt (' ' :: y) :=
  firstTok_inert projAt d _ fun x1 x2 hx _ =>
    projAt_of_strip _ (stripLit_inert _ d _ (by decide) hno (by simp) x1 x2 hx)

theorem df_d (d : List Char) (hno : ∀ a b, d ≠ a ++ "due:".data ++ b) (y : List Char) :
    firstTok dueAt (d ++ ' ' :: y) = firstTok dueAt (' ' :: y) :=
  firstTok_inert dueAt d _ fun x1 x2 hx _ =>
    dueAt_of_strip _ (stripLit_inert _ d _ (by decide) hno (by simp) x1 x2 hx)

theorem ps_d (d : List Char) (hno : ∀ a b, d ≠ a ++ "project:".data ++ b) (y : List Char)
    (hy : ∀ c ∈ y.head?, c = ' ') : strip projAt (d ++ y) = d ++ strip projAt y :=
  strip_inert projAt d _ fun x1 x2 hx _ =>
    projAt_of_strip _ (stripLit_inert _ d _ (by decide) hno hy x1 x2 hx)

theorem ds_d (d : List Char) (hno : ∀ a b, d ≠ a ++ "due:".data ++ b) (y : List Char)
    (hy : ∀ c ∈ y.head?, c = ' ') : strip dueAt (d ++ y) = d ++ strip dueAt y :=
  strip_inert dueAt d _ fun x1 x2 hx _ =>
    dueAt_of_strip _ (stripLit_inert _ d _ (by decide) hno hy x1 x2 hx)

theorem pf_S (s : List Char) (hs : isDateShape s = true) (y : List Char) :
    firstTok projAt ("due:".data ++ (s ++ y)) = firstTok projAt y := by
  rw [← List.append_assoc]
  exact firstTok_inert projAt _ _ fun x1 x2 hx hne => proj_inert_due s y hs x1 x2 hx hne

theorem ps_S (s : List Char) (hs : isDateShape s = true) (y : List Char) :
    strip projAt ("due:".data ++ (s ++ y)) = "due:".data ++ (s ++ strip projAt y) := by
  rw [← List.append_assoc, ← List.append_assoc]
  exact strip_inert projAt _ _ fun x1 x2 hx hne => proj_inert_due s y hs x1 x2 hx hne

theorem df_P (p : List Char) (hno : ∀ a b, p ≠ a ++ "due:".data ++ b) (y : List Char) :
    firstTok dueAt ("project:".data ++ (p ++ ' ' :: y)) = firstTok dueAt (' ' :: y) := by
  rw [← List.append_assoc]
  exact firstTok_inert dueAt _ _ fun x1 x2 hx _ =>
    due_inert_project p _ hno (by simp) x1 x2 hx

theorem pf_P (p : List Char) (hp : p ≠ []) (hps : ∀ c ∈ p, isSpace c = false)
    (y : List Char) (hy : ∀ c ∈ y.head?, c = ' ') :
    firstTok projAt ("project:".data ++ (p ++ y)) = some p :=
  firstTok_at projAt _ _ (projAt_token p y hp hps hy)

theorem ps_P (p : List Char) (hp : p ≠ []) (hps : ∀ c ∈ p, isSpace c = false)
    (y : List Char) (hy : ∀ c ∈ y.head?, c = ' ') :
    strip projAt ("project:".data ++ (p ++ y)) = strip projAt y :=
  strip_at projAt proj_shrinks _ _ (projAt_token p y hp hps hy)

theorem df_S (s : List Char) (hs : isDateShape s = true) (y : List Char) :
    firstTok dueAt ("due:".data ++ (s ++ y)) = some s :=
  firstTok_at dueAt _ _ (dueAt_occ s y hs)

theorem ds_S (s : List Char) (hs : isDateShape s = true) (y : List Char) :
    strip dueAt ("due:".data ++ (s ++ y)) = strip dueAt y :=
  strip_at dueAt due_shrinks _ _ (dueAt_occ s y hs)

theorem dateShape_dot (s : List Char) (hs : isDateShape s = true) :
    ∀ c ∈ s, isDot c = true := by
  obtain ⟨y1, y2, y3, y4, m1, m2, d1, d2, rfl, a1, a2, a3, a4, a6, a7, a9, a10⟩ :=
    dateShape_cases s hs
  have hdig : ∀ c, isDigit c = true → isDot c = true := by
    intro c hc
    cases hcd : isDot c with
    | true => rfl
    | false =>
      have : c = '\n' := by simpa [isDot] using hcd
      rw [this] at hc
      exact absurd hc (by decide)
  intro c hc
  simp only [List.mem_cons, List.mem_singleton, List.not_mem_nil, or_false] at hc
  rcases hc with rfl | rfl | rfl | rfl | rfl | rfl | rfl | rfl | rfl | rfl
  · exact hdig _ a1
  · exact hdig _ a2
  · exact hdig _ a3
  · exact hdig _ a4
  · decide
  · exact hdig _ a6
  · exact hdig _ a7
  · decide
  · exact hdig _ a9
  · exact hdig _ a10

theorem nospace_dot (p : List Char) (hp : ∀ c ∈ p, isSpace c = false) :
    ∀ c ∈ p, isDot c = true := by
  intro c hc
  cases hcd : isDot c with
  | true => rfl
  | false =>
    have : c = '\n' := by simpa [isDot] using hcd
    have h := hp c hc
    rw [this] at h
    exact absurd h (by decide)

/-- The last step of an `add` whose tokens are found and removed: the text left is
`add`, spaces, the description and spaces. -/
theorem add_core (body d p s : List Char) (i j : Nat)
    (hb1 : body ≠ []) (hb2 : ∀ c ∈ body, isDot c = true)
    (hb3 : ∀ c ∈ body.head?, isSpace c = false)
    (hP : firstTok projAt ("add ".data ++ body) = some p)
    (hD : firstTok dueAt ("add ".data ++ body) = some s)
    (hS : strip dueAt (strip projAt ("add ".data ++ body)) =
      "add".data ++ (List.replicate (i + 1) ' ' ++ (d ++ List.replicate j ' ')))
    (hd1 : d ≠ []) (hd2 : ∀ c ∈ d, isDot c = true)
    (hd3 : ∀ c ∈ d.head?, isSpace c = false) (hd4 : ∀ c ∈ d.getLast?, isSpace c = false)
    (hs : validDate s = true) :
    ParseLine ("add ".data ++ body) = some ⟨some (.AddCommand d p (dateOf s)), none⟩ := by
  have hM : MatchString reAddCommand ("add ".data ++ body) = true := by
    have := (add_submatch_greedy [] [' '] body [] (by simp) (by simp) (by simp; decide)
      hb1 hb2 hb3 (by simp) (by simp)).1
    simpa using this
  have hg1 : d ++ List.replicate j ' ' ≠ [] := by simp [hd1]
  have hg2 : ∀ c ∈ d ++ List.replicate j ' ', isDot c = true := by
    intro c hc
    rcases List.mem_append.mp hc with h | h
    · exact hd2 c h
    · rw [(List.mem_replicate.mp h).2]; decide
  have hg3 : ∀ c ∈ (d ++ List.replicate j ' ').head?, isSpace c = false := by
    cases d with
    | nil => exact absurd rfl hd1
    | cons a as => simpa using hd3
  have hsub := (add_submatch_greedy [] (List.replicate (i + 1) ' ')
    (d ++ List.replicate j ' ') [] (by simp) (by simp)
    (by intro c hc; rw [(List.mem_replicate.mp hc).2]; decide) hg1 hg2 hg3 (by simp)
    (by simp)).2
  simp only [List.nil_append, List.append_nil] at hsub
  have htrim : Trim (d ++ List.replicate j ' ') = d := by
    rw [trim_of_head]
    · apply rdropWhile_append_replicate _ d ' ' j (by decide)
      intro x hx
      have := hd4 x hx
      cases hxs : (x == ' ') with
      | false => rfl
      | true =>
        rw [show x = ' ' by simpa using hxs] at this
        exact absurd this (by decide)
    · intro x hx
      have := hg3 x hx
      cases hxs : (x == ' ') with
      | false => rfl
      | true =>
        rw [show x = ' ' by simpa using hxs] at this
        exact absurd this (by decide)
  have hlen : len d ≠ 0 := by rw [Ne, len_eq_zero]; exact hd1
  rw [parseLine_add_of_match _ hM, parseAdd_eq, hP, hD, hS, hsub]
  simp only [Option.some_bind, htrim, hlen, if_false, timeParse_valid s hs,
    Option.getD_some]

/-! ### Lines that do not give a `HelpCommand` -/

theorem parseAdd_not_help (line q : List Char) :
    parseAdd line ≠ some ⟨some (.HelpCommand q), none⟩ := by
  intro h
  unfold parseAdd at h
  split at h
  · simp at h
  · rw [Option.bind_eq_some] at h
    obtain ⟨ix, _, h⟩ := h
    rw [Option.bind_eq_some] at h
    obtain ⟨pn, _, h⟩ := h
    split at h
    · simp at h
    · rw [Option.bind_eq_some] at h
      obtain ⟨jx, _, h⟩ := h
      rw [Option.bind_eq_some] at h
      obtain ⟨dt, _, h⟩ := h
      rw [Option.bind_eq_some] at h
      obtain ⟨g, _, h⟩ := h
      simp only at h
      split at h <;> simp at h

theorem help_only (line q : List Char)
    (h : ParseLine line = some ⟨some (.HelpCommand q), none⟩) :
    MatchString reVersionCommand line = false ∧ MatchString reByeCommand line = false ∧
      MatchString reHelpCommand line = true := by
  cases h0 : MatchString reVersionCommand line with
  | true => rw [parseLine_version _ h0] at h; simp at h
  | false =>
    cases h1 : MatchString reByeCommand line with
    | true => rw [parseLine_bye _ h0 h1] at h; simp at h
    | false =>
      cases h2 : MatchString reHelpCommand line with
      | true => exact ⟨rfl, rfl, rfl⟩
      | false =>
        exfalso
        cases h3 : MatchString reListCommand line with
        | true => rw [parseLine_list _ h0 h1 h2 h3] at h; simp at h
        | false =>
          cases h4 : MatchString reDoneCommand line with
          | true =>
            simp only [ParseLine, h0, h1, h2, h3, h4, if_true, Bool.false_eq_true,
              if_false] at h
            rw [Option.bind_eq_some] at h
            obtain ⟨w, _, h⟩ := h
            simp at h
          | false =>
            cases h5 : MatchString reAddCommand line with
            | true =>
              rw [parseLine_add _ h0 h1 h2 h3 h4 h5] at h
              exact parseAdd_not_help line q h
            | false => rw [parseLine_unknown _ h0 h1 h2 h3 h4 h5] at h; simp at h

/-! ### `time.Parse` succeeds on the valid dates only -/

theorem timeParse_some (s : List Char) (t : Time) (h : timeParse s = some t) :
    validDate s = true ∧ t = dateOf s := by
  unfold timeParse at h
  split at h
  · rename_i y1 y2 y3 y4 s1 m1 m2 s2 d1 d2
    split at h
    · rename_i hc
      simp only [Bool.and_eq_true, beq_iff_eq] at hc
      obtain ⟨⟨⟨⟨⟨⟨⟨⟨⟨a1, a2⟩, a3⟩, a4⟩, a5⟩, a6⟩, a7⟩, a8⟩, a9⟩, a10⟩ := hc
      subst a5 a8
      have hy : (dateOf [y1, y2, y3, y4, '-', m1, m2, '-', d1, d2]).year =
          digitVal y1 * 1000 + digitVal y2 * 100 + digitVal y3 * 10 + digitVal y4 := by
        simp [dateOf, decValue, digitVal]; omega
      have hm : (dateOf [y1, y2, y3, y4, '-', m1, m2, '-', d1, d2]).month =
          digitVal m1 * 10 + digitVal m2 := by
        simp [dateOf, decValue, digitVal]
      have hd : (dateOf [y1, y2, y3, y4, '-', m1, m2, '-', d1, d2]).day =
          digitVal d1 * 10 + digitVal d2 := by
        simp [dateOf, decValue, digitVal]
      have e3 : dateOf [y1, y2, y3, y4, '-', m1, m2, '-', d1, d2] =
          ⟨digitVal y1 * 1000 + digitVal y2 * 100 + digitVal y3 * 10 + digitVal y4,
            digitVal m1 * 10 + digitVal m2, digitVal d1 * 10 + digitVal d2⟩ := by
        rw [← hy, ← hm, ← hd]
      simp only at h
      split at h
      · exact absurd h (by simp)
      · rename_i hmr
        split at h
        · exact absurd h (by simp)
        · rename_i hdr
          have ht : t = dateOf [y1, y2, y3, y4, '-', m1, m2, '-', d1, d2] := by
            rw [e3]; exact (Option.some.inj h).symm
          refine ⟨?_, ht⟩
          have hm1 : 1 ≤ digitVal m1 * 10 + digitVal m2 := by omega
          have hm2 : digitVal m1 * 10 + digitVal m2 ≤ 12 := by omega
          have hdd := daysIn_eq_monthDays (digitVal m1 * 10 + digitVal m2)
            (digitVal y1 * 1000 + digitVal y2 * 100 + digitVal y3 * 10 + digitVal y4) hm1 hm2
          have hsh : isDateShape [y1, y2, y3, y4, '-', m1, m2, '-', d1, d2] = true := by
            simp [isDateShape, a1, a2, a3, a4, a6, a7, a9, a10]
          simp only [validDate, hsh, hm, hd, hy, Bool.true_and, Bool.and_eq_true,
            decide_eq_true_eq]
          rw [← hdd]
          omega
    · exact absurd h (by simp)
  · exact absurd h (by simp)

theorem timeParse_invalid (s : List Char) (h : validDate s = false) :
    timeParse s = none := by
  cases ht : timeParse s with
  | none => rfl
  | some t =>
    rw [(timeParse_some s t ht).1] at h
    exact absurd h (by simp)

/-! ### `strconv.Atoi` accepts the decimal numerals of the range of `int` only -/

theorem digit_val (c : Char) (h : isDigit c = true) : 48 ≤ c.toNat ∧ c.toNat ≤ 57 := by
  simp only [isDigit, Bool.and_eq_true, decide_eq_true_eq] at h
  exact ⟨h.1, h.2⟩

theorem foldl_dec_lt (w : List Char) (h : ∀ c ∈ w, isDigit c = true) (n : Nat) :
    w.foldl (fun n c => n * 10 + (c.toNat - 48)) n < (n + 1) * 10 ^ w.length := by
  induction w generalizing n with
  | nil => simp
  | cons c cs ih =>
    have hc := digit_val c (h c (by simp))
    have h1 := ih (fun d hd => h d (by simp [hd])) (n * 10 + (c.toNat - 48))
    simp only [List.foldl_cons, List.length_cons]
    refine Nat.lt_of_lt_of_le h1 ?_
    rw [Nat.pow_succ, Nat.mul_comm (10 ^ cs.length) 10, ← Nat.mul_assoc]
    exact Nat.mul_le_mul_right _ (by omega)

theorem decValue_lt (w : List Char) (h : ∀ c ∈ w, isDigit c = true) :
    decValue w < 10 ^ w.length := by
  have := foldl_dec_lt w h 0
  simpa [decValue] using this

theorem atoiLoop_all (w : List Char) (k m : Int) (h : atoiLoop w k = some m) :
    ∀ c ∈ w, isDigit c = true := by
  induction w generalizing k with
  | nil => simp
  | cons c cs ih =>
    simp only [atoiLoop] at h
    split at h
    · rename_i hc
      intro d hd
      rcases List.mem_cons.mp hd with rfl | hd
      · exact hc
      · exact ih _ h d hd
    · exact absurd h (by simp)

theorem atoiLoop_some (w : List Char) (m : Int) (h : atoiLoop w 0 = some m) :
    (∀ c ∈ w, isDigit c = true) ∧ m = ((decValue w : Nat) : Int) := by
  have ha := atoiLoop_all w 0 m h
  have h2 := atoiLoop_digits w ha 0
  simp only [Nat.cast_zero] at h2
  rw [h2] at h
  exact ⟨ha, (Option.some.inj h).symm⟩

theorem parseUintLoop_none (w : List Char) (n m : Nat) (hn : n < 2 ^ 64)
    (h : parseUintLoop w n = (m, none)) :
    (∀ c ∈ w, isDigit c = true) ∧
      m = w.foldl (fun n c => n * 10 + (c.toNat - 48)) n ∧ m < 2 ^ 64 := by
  induction w generalizing n with
  | nil =>
    simp only [parseUintLoop, Prod.mk.injEq, and_true] at h
    subst h
    exact ⟨by simp, rfl, hn⟩
  | cons c cs ih =>
    simp only [parseUintLoop] at h
    split at h
    · rename_i hc
      split at h
      · exact absurd (congrArg Prod.snd h) (by simp)
      · rename_i hcut
        split at h
        · exact absurd (congrArg Prod.snd h) (by simp)
        · rename_i hov
          have hd := digit_val c hc
          have h10 : (n * 10) % 2 ^ 64 = n * 10 := Nat.mod_eq_of_lt (by omega)
          rw [h10] at hov h
          have h1 : (n * 10 + (c.toNat - 48)) % 2 ^ 64 = n * 10 + (c.toNat - 48) := by
            by_cases hlt : n * 10 + (c.toNat - 48) < 2 ^ 64
            · exact Nat.mod_eq_of_lt hlt
            · exfalso
              apply hov
              left
              omega
          rw [h1] at h
          have h2 := ih (n * 10 + (c.toNat - 48)) (by rw [← h1]; exact Nat.mod_lt _ (by decide)) h
          refine ⟨?_, h2.2⟩
          intro d hd'
          rcases List.mem_cons.mp hd' with rfl | hd'
          · exact hc
          · exact h2.1 d hd'
    · exact absurd (congrArg Prod.snd h) (by simp)

theorem all_isDigit (w : List Char) : w.all isDigit = true ↔ ∀ c ∈ w, isDigit c = true := by
  simp [List.all_eq_true]

/-- The texts without a sign at their head are the digits of a numeral. -/
theorem numeral_cons (c : Char) (cs : List Char) :
    numeral (c :: cs) =
      if c = '-' then
        (if cs ≠ [] ∧ (∀ d ∈ cs, isDigit d = true) then some (-((decValue cs : Nat) : Int))
          else none)
      else if c = '+' then
        (if cs ≠ [] ∧ (∀ d ∈ cs, isDigit d = true) then some ((decValue cs : Nat) : Int)
          else none)
      else if ∀ d ∈ c :: cs, isDigit d = true then some ((decValue (c :: cs) : Nat) : Int)
      else none := by
  simp only [numeral, beq_iff_eq, all_isDigit]

theorem len_cons (c : Char) (cs : List Char) : len (c :: cs) = c.utf8Size + len cs := by
  simp [len]

theorem parseUint_digits (w : List Char) (hne : w ≠ []) (h : ∀ c ∈ w, isDigit c = true)
    (hb : decValue w < 2 ^ 64) : ParseUint w = (decValue w, none) := by
  cases w with
  | nil => exact absurd rfl hne
  | cons c cs => exact parseUintLoop_digits (c :: cs) h 0 hb

theorem parseUint_none (w : List Char) (m : Nat) (h : ParseUint w = (m, none)) :
    w ≠ [] ∧ (∀ c ∈ w, isDigit c = true) ∧ m = decValue w := by
  cases w with
  | nil => exact absurd (congrArg Prod.snd h) (by simp [ParseUint])
  | cons c cs =>
    have h1 := parseUintLoop_none (c :: cs) 0 m (by decide) h
    exact ⟨by simp, h1.1, h1.2.1⟩

/-- A sign and a non-empty text of digits: the fast path and the slow path of
`strconv.Atoi` give the signed value when it is in the range of `int`. -/
theorem atoi_signed (c : Char) (cs : List Char) (hc : c = '-' ∨ c = '+') (hne : cs ≠ [])
    (h : ∀ d ∈ cs, isDigit d = true)
    (hb : if c = '-' then decValue cs ≤ 2 ^ 63 else decValue cs < 2 ^ 63) :
    Atoi (c :: cs) =
      (if c = '-' then -((decValue cs : Nat) : Int) else ((decValue cs : Nat) : Int), none) := by
  have hlen := len_digits cs h
  have hpos : 0 < cs.length := List.length_pos.mpr hne
  have hs : (c == '-' || c == '+') = true := by
    rcases hc with rfl | rfl <;> decide
  have hs2 : (c == '+' || c == '-') = true := by
    rcases hc with rfl | rfl <;> decide
  by_cases hfast : 0 < len (c :: cs) ∧ len (c :: cs) < 19
  · have h1 : ¬ (len cs < 1) := by omega
    have h2 := atoiLoop_digits cs h 0
    simp only [Nat.cast_zero] at h2
    simp only [Atoi, hfast, and_self, if_true, hs, h1, if_false, h2, beq_iff_eq]
    simp [decValue]
  · have hp := parseUint_digits cs hne h (by split at hb <;> omega)
    simp only [Atoi, hfast, if_false, ParseInt, hs2, if_true, hp, intSize]
    rcases hc with rfl | rfl
    · simp only [if_true] at hb
      have h3 : ¬ (decValue cs > 2 ^ (64 - 1)) := by omega
      simp [h3]
      omega
    · simp only [show ¬ ('+' = '-') by decide, if_false] at hb
      have h3 : ¬ (decValue cs ≥ 2 ^ (64 - 1)) := by omega
      simp [h3]
      omega

/-- Every decimal numeral of the range of `int` is read by `strconv.Atoi` as its
value. -/
theorem atoi_numeral (s : List Char) (v : Int) (h : numeral s = some v)
    (hlo : -(2 ^ 63 : Int) ≤ v) (hhi : v < 2 ^ 63) : Atoi s = (v, none) := by
  cases s with
  | nil => exact absurd h (by simp [numeral])
  | cons c cs =>
    rw [numeral_cons] at h
    split at h
    · rename_i hc
      split at h
      · rename_i hd
        have hv := Option.some.inj h
        have := atoi_signed c cs (Or.inl hc) hd.1 hd.2 (by rw [if_pos hc]; omega)
        rw [this, if_pos hc, hv]
      · exact absurd h (by simp)
    · rename_i hc
      split at h
      · rename_i hc2
        split at h
        · rename_i hd
          have hv := Option.some.inj h
          have := atoi_signed c cs (Or.inr hc2) hd.1 hd.2 (by rw [if_neg hc]; omega)
          rw [this, if_neg hc, hv]
        · exact absurd h (by simp)
      · split at h
        · rename_i hd
          have hv := Option.some.inj h
          rw [atoi_digits (c :: cs) (by simp) hd (by omega), hv]
        · exact absurd h (by simp)

theorem sign_or (c : Char) : (c == '-' || c == '+') = decide (c = '-' ∨ c = '+') := by
  by_cases h1 : c = '-'
  · simp [h1]
  · by_cases h2 : c = '+'
    · simp [h2]
    · simp [h1, h2]

theorem sign_or2 (c : Char) : (c == '+' || c == '-') = decide (c = '-' ∨ c = '+') := by
  rw [Bool.or_comm]; exact sign_or c

/-- What `strconv.Atoi` has read when it returns no error: the digits after the sign,
and a value in the range of `int`. -/
theorem atoi_none_key (c : Char) (cs : List Char) (v : Int) (h : Atoi (c :: cs) = (v, none)) :
    (if c = '-' ∨ c = '+' then cs else c :: cs) ≠ [] ∧
    (∀ d ∈ (if c = '-' ∨ c = '+' then cs else c :: cs), isDigit d = true) ∧
    v = (if c = '-' then -((decValue (if c = '-' ∨ c = '+' then cs else c :: cs) : Nat) : Int)
          else ((decValue (if c = '-' ∨ c = '+' then cs else c :: cs) : Nat) : Int)) ∧
    -(2 ^ 63 : Int) ≤ v ∧ v < 2 ^ 63 := by
  by_cases hfast : 0 < len (c :: cs) ∧ len (c :: cs) < 19
  · simp only [Atoi, hfast, and_self, if_true, sign_or, beq_iff_eq] at h
    have hs : (if decide (c = '-' ∨ c = '+') = true then cs else c :: cs) =
        (if c = '-' ∨ c = '+' then cs else c :: cs) := by
      by_cases hc : c = '-' ∨ c = '+' <;> simp [hc]
    rw [hs] at h
    generalize hw : (if c = '-' ∨ c = '+' then cs else c :: cs) = w at h ⊢
    split at h
    · exact absurd (congrArg Prod.snd h) (by simp)
    · rename_i hl
      cases ha : atoiLoop w 0 with
      | none => rw [ha] at h; exact absurd (congrArg Prod.snd h) (by simp)
      | some n =>
        rw [ha] at h
        obtain ⟨hd, hn⟩ := atoiLoop_some w n ha
        have hv : v = if c = '-' then -n else n := (congrArg Prod.fst h).symm
        have hne : w ≠ [] := by
          intro h0; rw [h0] at hl; exact hl (by decide)
        have hlw : len w ≤ len (c :: cs) := by
          rw [← hw, len_cons]
          split
          · omega
          · rw [len_cons]
        have hwl := len_digits w hd
        have hlt := decValue_lt w hd
        have hpow : 10 ^ w.length ≤ 10 ^ 18 :=
          Nat.pow_le_pow_right (by decide) (by omega)
        have hb : decValue w < 2 ^ 63 :=
          Nat.lt_of_lt_of_le hlt (Nat.le_trans hpow (by decide))
        refine ⟨hne, hd, ?_, ?_, ?_⟩
        · rw [hv, hn]
        · rw [hv, hn]; split <;> omega
        · rw [hv, hn]; split <;> omega
  · simp only [Atoi, hfast, if_false, ParseInt, sign_or2, beq_iff_eq, intSize] at h
    have hs : (if decide (c = '-' ∨ c = '+') = true then cs else c :: cs) =
        (if c = '-' ∨ c = '+' then cs else c :: cs) := by
      by_cases hc : c = '-' ∨ c = '+' <;> simp [hc]
    rw [hs] at h
    generalize hw : (if c = '-' ∨ c = '+' then cs else c :: cs) = w at h ⊢
    cases hpu : ParseUint w with
    | mk un e =>
      rw [hpu] at h
      cases e with
      | some er =>
        cases er with
        | ErrSyntax => exact absurd (congrArg Prod.snd h) (by simp)
        | ErrRange =>
          simp only at h
          split at h
          · exact absurd (congrArg Prod.snd h) (by simp)
          · split at h
            · exact absurd (congrArg Prod.snd h) (by simp)
            · exact absurd (congrArg Prod.snd h) (by simp)
      | none =>
        obtain ⟨hne, hd, hun⟩ := parseUint_none w un hpu
        simp only at h
        split at h
        · exact absurd (congrArg Prod.snd h) (by simp)
        · rename_i h1
          split at h
          · exact absurd (congrArg Prod.snd h) (by simp)
          · rename_i h2
            have hv := (congrArg Prod.fst h).symm
            simp only [decide_eq_true_eq] at hv h1 h2
            subst hun
            refine ⟨hne, hd, hv, ?_, ?_⟩
            · rw [hv]
              by_cases hc : c = '-'
              · simp only [hc, if_true, true_and, not_lt] at h2 ⊢
                have h3 : decValue w ≤ 2 ^ (64 - 1) := by simpa using h2
                omega
              · simp only [hc, if_false]; omega
            · rw [hv]
              by_cases hc : c = '-'
              · simp only [hc, if_true]; omega
              · have h3 : decValue w < 2 ^ (64 - 1) := by simpa [hc] using h1
                simp only [hc, if_false]; omega

/-- Whatever `strconv.Atoi` reads without an error is a decimal numeral of the range of
`int`, and the value returned is the value of the numeral. -/
theorem atoi_none (s : List Char) (v : Int) (h : Atoi s = (v, none)) :
    numeral s = some v ∧ -(2 ^ 63 : Int) ≤ v ∧ v < 2 ^ 63 := by
  cases s with
  | nil => exact absurd (congrArg Prod.snd h) (by simp [Atoi, len, ParseInt])
  | cons c cs =>
    obtain ⟨hne, hd, hv, hlo, hhi⟩ := atoi_none_key c cs v h
    refine ⟨?_, hlo, hhi⟩
    rw [numeral_cons]
    by_cases h1 : c = '-'
    · simp only [h1, true_or, if_true] at hne hd hv ⊢
      rw [if_pos ⟨hne, hd⟩, hv]
    · by_cases h2 : c = '+'
      · simp only [h2, or_true, if_true, show ¬ ('+' = '-') by decide, if_false] at hne hd hv ⊢
        rw [if_pos ⟨hne, hd⟩, hv]
      · simp only [h1, h2, or_self, if_false] at hne hd hv ⊢
        rw [if_pos hd, hv]

/-- The texts that `strconv.Atoi` refuses are the texts that are no decimal numeral and
the numerals out of the range of `int`. -/
theorem atoi_error_iff (s : List Char) :
    (Atoi s).2 ≠ none ↔
      (numeral s = none ∨ ∃ v, numeral s = some v ∧ (v < -(2 ^ 63 : Int) ∨ 2 ^ 63 ≤ v)) := by
  constructor
  · intro h
    cases hn : numeral s with
    | none => exact Or.inl rfl
    | some v =>
      refine Or.inr ⟨v, rfl, ?_⟩
      by_contra hc
      have := atoi_numeral s v hn (by omega) (by omega)
      rw [this] at h
      exact h rfl
  · intro h he
    have h1 : Atoi s = ((Atoi s).1, none) := by rw [← he]
    obtain ⟨hn, hlo, hhi⟩ := atoi_none s _ h1
    rcases h with h | ⟨v, hv, hr⟩
    · rw [hn] at h; exact absurd h (by simp)
    · rw [hn] at hv
      have := Option.some.inj hv
      omega

/-! ### The assignment `t.tasks[id].status = true` -/

theorem markDone_length (l : List Task) (k : Nat) : (markDone l k).length = l.length := by
  induction l generalizing k with
  | nil => rfl
  | cons x xs ih =>
    cases k with
    | zero => rfl
    | succ k => simp [markDone, ih]

theorem markDone_getElem? (l : List Task) (k j : Nat) :
    (markDone l k)[j]? =
      (l[j]?).map (fun x => if j = k then { x with status := true } else x) := by
  induction l generalizing k j with
  | nil => cases k <;> simp [markDone]
  | cons x xs ih =>
    cases k with
    | zero =>
      cases j with
      | zero => simp [markDone]
      | succ j => simp [markDone]
    | succ k =>
      cases j with
      | zero => simp [markDone]
      | succ j => simp [markDone, ih]

theorem markDone_idem (l : List Task) (k : Nat) :
    markDone (markDone l k) k = markDone l k := by
  induction l generalizing k with
  | nil => cases k <;> rfl
  | cons x xs ih =>
    cases k with
    | zero => rfl
    | succ k => simp [markDone, ih]

theorem markDone_done (l : List Task) (k : Nat) (x : Task) (h : l[k]? = some x)
    (hs : x.status = true) : markDone l k = l := by
  induction l generalizing k with
  | nil => cases k <;> rfl
  | cons y ys ih =>
    cases k with
    | zero =>
      simp only [List.getElem?_cons_zero, Option.some.injEq] at h
      subst h
      cases y
      simp only at hs
      simp [markDone, hs]
    | succ k =>
      simp only [List.getElem?_cons_succ] at h
      simp [markDone, ih k h]

/-! ### The three ways out of `DoneTask` -/

theorem doneTask_cases (t : TaskAgendaService) (r : DoneTaskRequest) :
    ((Atoi r.Id).2 ≠ none ∧
      DoneTask t r = (t, none, some ⟨.InvalidArgument, "invalid task id: %v"⟩)) ∨
    (∃ v : Int, Atoi r.Id = (v, none) ∧ (v < 0 ∨ v ≥ (t.tasks.length : Int)) ∧
      DoneTask t r = (t, none, some ⟨.InvalidArgument, "task id out of bounds: %d"⟩)) ∨
    (∃ i : Nat, Atoi r.Id = ((i : Int), none) ∧ i < t.tasks.length ∧
      DoneTask t r = ({ tasks := markDone t.tasks i }, some ⟨⟩, none)) := by
  cases hA : Atoi r.Id with
  | mk v e =>
    cases e with
    | some er =>
      left
      exact ⟨by simp, by simp only [DoneTask, hA]⟩
    | none =>
      right
      by_cases hb : v < 0 ∨ v ≥ (t.tasks.length : Int)
      · left
        exact ⟨v, rfl, hb, by simp only [DoneTask, hA, hb, if_true]⟩
      · right
        have h0 : 0 ≤ v := by omega
        obtain ⟨i, rfl⟩ := Int.eq_ofNat_of_zero_le h0
        refine ⟨i, rfl, by omega, ?_⟩
        simp only [DoneTask, hA, hb, if_false, Int.toNat_ofNat]

theorem doneTask_ok (t : TaskAgendaService) (r : DoneTaskRequest) (i : Nat)
    (hn : t.tasks.length < 2 ^ 63) (hi : numeral r.Id = some (i : Int))
    (hlt : i < t.tasks.length) :
    DoneTask t r = ({ tasks := markDone t.tasks i }, some ⟨⟩, none) := by
  have hA := atoi_numeral r.Id i hi (by omega) (by omega)
  have hb : ¬ ((i : Int) < 0 ∨ (i : Int) ≥ (t.tasks.length : Int)) := by omega
  simp only [DoneTask, hA, hb, if_false, Int.toNat_ofNat]

/-- The calls of `DoneTask` that fail: the id is no decimal numeral, or the number is
not a position of the list of tasks. -/
theorem doneTask_error_iff (t : TaskAgendaService) (r : DoneTaskRequest)
    (hn : t.tasks.length < 2 ^ 63) :
    (DoneTask t r).2.2 ≠ none ↔
      (numeral r.Id = none ∨
        ∃ i : Int, numeral r.Id = some i ∧ (i < 0 ∨ i ≥ (t.tasks.length : Int))) := by
  constructor
  · intro h
    cases hnum : numeral r.Id with
    | none => exact Or.inl rfl
    | some v =>
      refine Or.inr ⟨v, rfl, ?_⟩
      by_contra hc
      have h0 : 0 ≤ v := by omega
      obtain ⟨i, rfl⟩ := Int.eq_ofNat_of_zero_le h0
      rw [doneTask_ok t r i hn hnum (by omega)] at h
      exact h rfl
  · intro h
    rcases doneTask_cases t r with ⟨_, hd⟩ | ⟨v, _, _, hd⟩ | ⟨i, hA, hlt, hd⟩
    · rw [hd]; simp
    · rw [hd]; simp
    · exfalso
      obtain ⟨hnum, _, _⟩ := atoi_none r.Id i hA
      rcases h with h | ⟨v, hv, hr⟩
      · rw [hnum] at h; exact absurd h (by simp)
      · rw [hnum] at hv
        have := Option.some.inj hv
        omega

/-- A call of `DoneTask` that fails has the code `InvalidArgument`, no response, and
the state it started from. -/
theorem doneTask_error (t : TaskAgendaService) (r : DoneTaskRequest)
    (h : (DoneTask t r).2.2 ≠ none) :
    (DoneTask t r).2.2.map Status.code = some Code.InvalidArgument ∧
      (DoneTask t r).2.1 = none ∧ (DoneTask t r).1 = t := by
  rcases doneTask_cases t r with ⟨_, hd⟩ | ⟨v, _, _, hd⟩ | ⟨i, hA, hlt, hd⟩
  · rw [hd]; exact ⟨rfl, rfl, rfl⟩
  · rw [hd]; exact ⟨rfl, rfl, rfl⟩
  · rw [hd] at h; exact absurd rfl h

/-! ### Formatting a parsed date gives the text back -/

theorem ofNat_digit (c : Char) (k : Nat) (h : isDigit c = true) (hk : k = c.toNat - 48) :
    Char.ofNat (48 + k) = c := by
  have hd := digit_val c h
  have : 48 + k = c.toNat := by omega
  rw [this, Char.ofNat_toNat]

theorem format_dateOf (s : List Char) (h : isDateShape s = true) :
    Time.Format (dateOf s) = s := by
  obtain ⟨y1, y2, y3, y4, m1, m2, d1, d2, rfl, a1, a2, a3, a4, a6, a7, a9, a10⟩ :=
    dateShape_cases s h
  have b1 := digit_val y1 a1
  have b2 := digit_val y2 a2
  have b3 := digit_val y3 a3
  have b4 := digit_val y4 a4
  have b6 := digit_val m1 a6
  have b7 := digit_val m2 a7
  have b9 := digit_val d1 a9
  have b10 := digit_val d2 a10
  simp only [Time.Format, dateOf, twoDigits, decValue, List.take, List.drop, List.foldl,
    List.cons_append, List.nil_append, Nat.zero_mul, Nat.zero_add]
  rw [ofNat_digit y1 _ a1, ofNat_digit y2 _ a2, ofNat_digit y3 _ a3, ofNat_digit y4 _ a4,
    ofNat_digit m1 _ a6, ofNat_digit m2 _ a7, ofNat_digit d1 _ a9, ofNat_digit d2 _ a10]
  all_goals omega

theorem format_valid (s : List Char) (h : validDate s = true) :
    Time.Format (dateOf s) = s := by
  simp only [validDate, Bool.and_eq_true] at h
  exact format_dateOf s h.1.1.1.1

theorem listTasks_eq (t : TaskAgendaService) :
    ListTasks t = (t, some ⟨t.tasks.map fun v => ⟨v.Desc, v.Project, v.Due.Format⟩⟩, none) :=
  rfl

theorem addTask_cases (t : TaskAgendaService) (r : AddTaskRequest) :
    (validDate r.Due = false ∧
      AddTask t r = (t, none, some ⟨.InvalidArgument, "invalid due date: %v"⟩)) ∨
    (validDate r.Due = true ∧
      AddTask t r =
        ({ tasks := t.tasks ++
            [⟨r.Desc, r.Project, dateOf r.Due, (t.tasks.length : Int), false⟩] },
          some ⟨fmtInt (t.tasks.length : Int)⟩, none)) := by
  cases hv : validDate r.Due with
  | false =>
    left
    exact ⟨rfl, by simp only [AddTask, timeParse_invalid r.Due hv]⟩
  | true =>
    right
    exact ⟨rfl, by simp only [AddTask, timeParse_valid r.Due hv]⟩

/-! ### The decimal rendering of a number denotes the number -/

theorem digitChar_val (k : Nat) (h : k < 10) : (Nat.digitChar k).toNat - 48 = k := by
  interval_cases k <;> rfl

theorem decValue_snoc (l : List Char) (d : Char) :
    decValue (l ++ [d]) = decValue l * 10 + (d.toNat - 48) := by
  simp [decValue, List.foldl_append]

theorem toDigitsCore_value (fuel n : Nat) (ds : List Char) (h : n < fuel) :
    ∃ l, Nat.toDigitsCore 10 fuel n ds = l ++ ds ∧ decValue l = n := by
  induction fuel generalizing n ds with
  | zero => exact absurd h (Nat.not_lt_zero _)
  | succ fuel ih =>
    simp only [Nat.toDigitsCore]
    split
    · rename_i h0
      refine ⟨[Nat.digitChar (n % 10)], rfl, ?_⟩
      have := digitChar_val (n % 10) (Nat.mod_lt _ (by decide))
      simp only [decValue, List.foldl_cons, List.foldl_nil, Nat.zero_mul, Nat.zero_add, this]
      omega
    · rename_i h0
      obtain ⟨l, hl, hv⟩ := ih (n / 10) (Nat.digitChar (n % 10) :: ds) (by omega)
      refine ⟨l ++ [Nat.digitChar (n % 10)], ?_, ?_⟩
      · rw [hl]; simp
      · rw [decValue_snoc, hv, digitChar_val (n % 10) (Nat.mod_lt _ (by decide))]
        omega

theorem decValue_repr (n : Nat) : decValue (Nat.repr n).toList = n := by
  obtain ⟨l, hl, hv⟩ := toDigitsCore_value (n + 1) n [] (Nat.lt_succ_self n)
  have : (Nat.repr n).toList = l := by
    simp only [Nat.repr, Nat.toDigits, hl, List.append_nil]
    rfl
  rw [this, hv]

theorem fmtInt_nat (n : Nat) : fmtInt (n : Int) = (Nat.repr n).toList := by
  simp [fmtInt]

theorem fmtInt_nat_inj (m n : Nat) (h : fmtInt (m : Int) = fmtInt (n : Int)) : m = n := by
  rw [fmtInt_nat, fmtInt_nat] at h
  have := congrArg decValue h
  rwa [decValue_repr, decValue_repr] at this

/-! ### Sequences of calls -/

theorem calls_nil (t : TaskAgendaService) : calls t [] = t := rfl

theorem calls_cons (t : TaskAgendaService) (c : Call) (cs : List Call) :
    calls t (c :: cs) = calls (call t c) cs := rfl

theorem calls_append (t : TaskAgendaService) (cs ds : List Call) :
    calls t (cs ++ ds) = calls (calls t cs) ds := by
  simp [calls, List.foldl_append]

/-- The three effects that a call can have on the list of tasks: none, one task more at
the end, or the flag of one task set. -/
theorem call_cases (t : TaskAgendaService) (c : Call) :
    call t c = t ∨
    (∃ r : AddTaskRequest, c = .add r ∧ validDate r.Due = true ∧
      call t c = { tasks := t.tasks ++
        [⟨r.Desc, r.Project, dateOf r.Due, (t.tasks.length : Int), false⟩] }) ∨
    (∃ i : Nat, i < t.tasks.length ∧ call t c = { tasks := markDone t.tasks i }) := by
  cases c with
  | add r =>
    rcases addTask_cases t r with ⟨_, h⟩ | ⟨hv, h⟩
    · left; simp only [call, h]
    · right; left; exact ⟨r, rfl, hv, by simp only [call, h]⟩
  | done r =>
    rcases doneTask_cases t r with ⟨_, hd⟩ | ⟨v, _, _, hd⟩ | ⟨i, hA, hlt, hd⟩
    · left; simp only [call, hd]
    · left; simp only [call, hd]
    · right; right; exact ⟨i, hlt, by simp only [call, hd]⟩
  | list => left; rfl

theorem call_length (t : TaskAgendaService) (c : Call) :
    t.tasks.length ≤ (call t c).tasks.length := by
  rcases call_cases t c with h | ⟨r, _, _, h⟩ | ⟨i, _, h⟩
  · rw [h]
  · rw [h]; simp
  · rw [h]; simp [markDone_length]

theorem calls_length (t : TaskAgendaService) (cs : List Call) :
    t.tasks.length ≤ (calls t cs).tasks.length := by
  induction cs generalizing t with
  | nil => exact Nat.le_refl _
  | cons c cs ih => exact Nat.le_trans (call_length t c) (ih (call t c))

/-- A call keeps every stored task at its position, with its description, project, due
date and id; a flag that is set stays set. -/
theorem call_keeps (t : TaskAgendaService) (c : Call) (i : Nat) (k : Task)
    (h : t.tasks[i]? = some k) :
    ∃ k', (call t c).tasks[i]? = some k' ∧ k'.Desc = k.Desc ∧ k'.Project = k.Project ∧
      k'.Due = k.Due ∧ k'.id = k.id ∧ (k.status = true → k'.status = true) := by
  rcases call_cases t c with hc | ⟨r, _, _, hc⟩ | ⟨j, _, hc⟩
  · rw [hc]; exact ⟨k, h, rfl, rfl, rfl, rfl, id⟩
  · rw [hc]
    have hi : i < t.tasks.length := (List.getElem?_eq_some_iff.mp h).1
    refine ⟨k, ?_, rfl, rfl, rfl, rfl, id⟩
    simp only [List.getElem?_append_left hi, h]
  · rw [hc]
    simp only [markDone_getElem?, h, Option.map_some']
    by_cases hij : i = j
    · simp only [hij, if_true]
      exact ⟨_, rfl, rfl, rfl, rfl, rfl, fun _ => rfl⟩
    · simp only [hij, if_false]
      exact ⟨k, rfl, rfl, rfl, rfl, rfl, id⟩

theorem calls_keeps (t : TaskAgendaService) (cs : List Call) (i : Nat) (k : Task)
    (h : t.tasks[i]? = some k) :
    ∃ k', (calls t cs).tasks[i]? = some k' ∧ k'.Desc = k.Desc ∧ k'.Project = k.Project ∧
      k'.Due = k.Due ∧ k'.id = k.id ∧ (k.status = true → k'.status = true) := by
  induction cs generalizing t k with
  | nil => exact ⟨k, h, rfl, rfl, rfl, rfl, id⟩
  | cons c cs ih =>
    obtain ⟨k1, h1, e1, e2, e3, e4, e5⟩ := call_keeps t c i k h
    obtain ⟨k2, h2, f1, f2, f3, f4, f5⟩ := ih (call t c) k1 h1
    exact ⟨k2, h2, f1.trans e1, f2.trans e2, f3.trans e3, f4.trans e4, fun hs => f5 (e5 hs)⟩

/-- A call keeps the invariant that the task at position `i` has the id `i`. -/
theorem call_ids (t : TaskAgendaService) (c : Call)
    (h : ∀ (i : Nat) (k : Task), t.tasks[i]? = some k → k.id = (i : Int)) :
    ∀ (i : Nat) (k : Task), (call t c).tasks[i]? = some k → k.id = (i : Int) := by
  intro i k hk
  rcases call_cases t c with hc | ⟨r, _, _, hc⟩ | ⟨j, _, hc⟩
  · rw [hc] at hk; exact h i k hk
  · rw [hc] at hk
    simp only at hk
    by_cases hi : i < t.tasks.length
    · rw [List.getElem?_append_left hi] at hk
      exact h i k hk
    · have hge : t.tasks.length ≤ i := Nat.le_of_not_lt hi
      rw [List.getElem?_append_right hge] at hk
      have hlt : i - t.tasks.length < 1 := by
        have := (List.getElem?_eq_some_iff.mp hk).1
        simpa using this
      have h0 : i - t.tasks.length = 0 := by omega
      rw [h0] at hk
      simp only [List.getElem?_cons_zero, Option.some.injEq] at hk
      rw [← hk]
      simp only
      congr 1
      omega
  · rw [hc] at hk
    simp only [markDone_getElem?] at hk
    cases hg : t.tasks[i]? with
    | none => rw [hg] at hk; exact absurd hk (by simp)
    | some k0 =>
      rw [hg] at hk
      simp only [Option.map_some', Option.some.injEq] at hk
      have := h i k0 hg
      rw [← hk]
      split <;> exact this

theorem calls_ids (t : TaskAgendaService) (cs : List Call)
    (h : ∀ (i : Nat) (k : Task), t.tasks[i]? = some k → k.id = (i : Int)) :
    ∀ (i : Nat) (k : Task), (calls t cs).tasks[i]? = some k → k.id = (i : Int) := by
  induction cs generalizing t with
  | nil => exact h
  | cons c cs ih => exact ih (call t c) (call_ids t c h)

/-- The ids that the calls of a sequence return are the lengths that the list of tasks
goes through. -/
theorem addedIds_eq (t : TaskAgendaService) (cs : List Call) :
    addedIds t cs =
      (List.range' t.tasks.length ((calls t cs).tasks.length - t.tasks.length)).map
        fun i : Nat => fmtInt (i : Int) := by
  induction cs generalizing t with
  | nil => simp [addedIds, calls]
  | cons c cs ih =>
    have hlen := calls_length (call t c) cs
    cases c with
    | add r =>
      rcases addTask_cases t r with ⟨_, h⟩ | ⟨hv, h⟩
      · have hc : call t (.add r) = t := by simp only [call, h]
        simp only [addedIds, h, calls_cons, hc]
        exact ih t
      · have hc : call t (.add r) = { tasks := t.tasks ++
            [⟨r.Desc, r.Project, dateOf r.Due, (t.tasks.length : Int), false⟩] } := by
          simp only [call, h]
        rw [hc] at hlen
        simp only [List.length_append, List.length_singleton] at hlen
        simp only [addedIds, h, calls_cons, hc]
        rw [ih]
        simp only [List.length_append, List.length_singleton]
        have e : (calls { tasks := t.tasks ++
            [⟨r.Desc, r.Project, dateOf r.Due, (t.tasks.length : Int), false⟩] } cs).tasks.length
              - t.tasks.length =
            ((calls { tasks := t.tasks ++
            [⟨r.Desc, r.Project, dateOf r.Due, (t.tasks.length : Int), false⟩] } cs).tasks.length
              - (t.tasks.length + 1)) + 1 := by omega
        rw [e, List.range'_succ]
        simp
    | done r =>
      have hl : (call t (.done r)).tasks.length = t.tasks.length := by
        rcases doneTask_cases t r with ⟨_, hd⟩ | ⟨v, _, _, hd⟩ | ⟨i, hA, hlt, hd⟩
        · simp only [call, hd]
        · simp only [call, hd]
        · simp only [call, hd, markDone_length]
      simp only [addedIds, calls_cons]
      rw [ih, hl]
    | list =>
      simp only [addedIds, calls_cons]
      rw [ih]
      rfl

/-! ### The six patterns of `ParseLine` exclude one another -/

theorem version_slot (line : List Char) (h : MatchString reVersionCommand line = true) :
    slot (firstLetter line) = 0 := by
  rw [version_first line h]; rfl

theorem bye_slot (line : List Char) (h : MatchString reByeCommand line = true) :
    slot (firstLetter line) = 1 := by
  rcases bye_first line h with h1 | h1 | h1 <;> rw [h1] <;> rfl

theorem help_slot (line : List Char) (h : MatchString reHelpCommand line = true) :
    slot (firstLetter line) = 2 := by
  rw [help_first line h]; rfl

theorem list_slot (line : List Char) (h : MatchString reListCommand line = true) :
    slot (firstLetter line) = 3 := by
  rw [list_first line h]; rfl

theorem done_slot (line : List Char) (h : MatchString reDoneCommand line = true) :
    slot (firstLetter line) = 4 := by
  rw [done_first line h]; rfl

theorem add_slot (line : List Char) (h : MatchString reAddCommand line = true) :
    slot (firstLetter line) = 5 := by
  rw [add_first line h]; rfl

/-- A branch whose pattern matches the line is the branch at the slot of the line. -/
theorem branch_slot (line : List Char) (b : Regex × (List Char → Option Ret))
    (hb : b ∈ branches) (hm : MatchString b.1 line = true) :
    branches[slot (firstLetter line)]? = some b := by
  simp only [branches, List.mem_cons, List.mem_singleton, List.not_mem_nil, or_false] at hb
  rcases hb with rfl | rfl | rfl | rfl | rfl | rfl
  · rw [version_slot line hm]; rfl
  · rw [bye_slot line hm]; rfl
  · rw [help_slot line hm]; rfl
  · rw [list_slot line hm]; rfl
  · rw [done_slot line hm]; rfl
  · rw [add_slot line hm]; rfl

theorem branch_unique (line : List Char) (b b' : Regex × (List Char → Option Ret))
    (hb : b ∈ branches) (hb' : b' ∈ branches) (hm : MatchString b.1 line = true)
    (hm' : MatchString b'.1 line = true) : b = b' := by
  have h1 := branch_slot line b hb hm
  have h2 := branch_slot line b' hb' hm'
  rw [h1] at h2
  exact Option.some.inj h2

theorem parseIn_match (line : List Char) (r : Option Ret)
    (bs : List (Regex × (List Char → Option Ret)))
    (h : ∀ b ∈ bs, MatchString b.1 line = true → b.2 line = r)
    (hex : ∃ b ∈ bs, MatchString b.1 line = true) : parseIn bs line = r := by
  induction bs with
  | nil =>
    obtain ⟨b, hb, _⟩ := hex
    exact absurd hb (List.not_mem_nil _)
  | cons b bs ih =>
    simp only [parseIn]
    split
    · rename_i hm
      exact h b (List.mem_cons_self _ _) hm
    · rename_i hm
      apply ih (fun b' hb' => h b' (List.mem_cons_of_mem _ hb'))
      obtain ⟨b', hb', hm'⟩ := hex
      rcases List.mem_cons.mp hb' with rfl | hb'
      · exact absurd hm' hm
      · exact ⟨b', hb', hm'⟩

theorem parseIn_nomatch (line : List Char) (bs : List (Regex × (List Char → Option Ret)))
    (h : ∀ b ∈ bs, MatchString b.1 line = false) :
    parseIn bs line = some { cmd := none, err := some errUnknown } := by
  induction bs with
  | nil => rfl
  | cons b bs ih =>
    simp only [parseIn, h b (List.mem_cons_self _ _), Bool.false_eq_true, if_false]
    exact ih (fun b' hb' => h b' (List.mem_cons_of_mem _ hb'))

theorem parseIn_branches (line : List Char) : parseIn branches line = ParseLine line := by
  simp only [parseIn, branches, ParseLine]

/-- The chain of tests gives the same result over every list that has the six branches
as its members. -/
theorem parseIn_members (line : List Char) (bs : List (Regex × (List Char → Option Ret)))
    (h : ∀ b, b ∈ bs ↔ b ∈ branches) : parseIn bs line = parseIn branches line := by
  by_cases hex : ∃ b ∈ branches, MatchString b.1 line = true
  · obtain ⟨b, hb, hm⟩ := hex
    have h1 : parseIn branches line = b.2 line :=
      parseIn_match line _ branches
        (fun b' hb' hm' => by rw [branch_unique line b' b hb' hb hm' hm]) ⟨b, hb, hm⟩
    have h2 : parseIn bs line = b.2 line :=
      parseIn_match line _ bs
        (fun b' hb' hm' => by rw [branch_unique line b' b ((h b').mp hb') hb hm' hm])
        ⟨b, (h b).mpr hb, hm⟩
    rw [h1, h2]
  · have hno : ∀ b ∈ branches, MatchString b.1 line = false := by
      intro b hb
      cases hm : MatchString b.1 line with
      | false => rfl
      | true => exact absurd ⟨b, hb, hm⟩ hex
    rw [parseIn_nomatch line branches hno,
      parseIn_nomatch line bs (fun b hb => hno b ((h b).mp hb))]

/-! ### The command that `ParseLine` returns tells the pattern that matched -/

theorem parseAdd_cmd (line : List Char) (r : Ret) (h : parseAdd line = some r) :
    r.cmd = none ∨ ∃ a b c, r.cmd = some (.AddCommand a b c) := by
  rw [parseAdd_eq] at h
  split at h
  · rw [← Option.some.inj h]; exact Or.inl rfl
  · split at h
    · rw [← Option.some.inj h]; exact Or.inl rfl
    · rw [Option.bind_eq_some] at h
      obtain ⟨g, _, h⟩ := h
      split at h
      · rw [← Option.some.inj h]; exact Or.inl rfl
      · rw [← Option.some.inj h]; exact Or.inr ⟨_, _, _, rfl⟩

theorem parseLine_cmd (line : List Char) (r : Ret) (h : ParseLine line = some r) :
    (MatchString reVersionCommand line = true ∧ r.cmd = some (.VersionCommand 0)) ∨
    (MatchString reByeCommand line = true ∧ r.cmd = some (.ByeCommand 0)) ∨
    (∃ q, r.cmd = some (.HelpCommand q)) ∨
    (MatchString reListCommand line = true ∧ r.cmd = some (.ListCommand 0)) ∨
    (∃ i, r.cmd = some (.DoneCommand i)) ∨
    (∃ a b c, r.cmd = some (.AddCommand a b c)) ∨ r.cmd = none := by
  unfold ParseLine at h
  split at h
  · rename_i hm
    rw [← Option.some.inj h]; exact Or.inl ⟨hm, rfl⟩
  · split at h
    · rename_i hm
      rw [← Option.some.inj h]; exact Or.inr (Or.inl ⟨hm, rfl⟩)
    · split at h
      · rw [Option.bind_eq_some] at h
        obtain ⟨q, _, h⟩ := h
        rw [← Option.some.inj h]; exact Or.inr (Or.inr (Or.inl ⟨q, rfl⟩))
      · split at h
        · rename_i hm
          rw [← Option.some.inj h]; exact Or.inr (Or.inr (Or.inr (Or.inl ⟨hm, rfl⟩)))
        · split at h
          · rw [Option.bind_eq_some] at h
            obtain ⟨w, _, h⟩ := h
            rw [← Option.some.inj h]
            exact Or.inr (Or.inr (Or.inr (Or.inr (Or.inl ⟨_, rfl⟩))))
          · split at h
            · rcases parseAdd_cmd line r h with h1 | h1
              · exact Or.inr (Or.inr (Or.inr (Or.inr (Or.inr (Or.inr h1)))))
              · exact Or.inr (Or.inr (Or.inr (Or.inr (Or.inr (Or.inl h1)))))
            · rw [← Option.some.inj h]
              exact Or.inr (Or.inr (Or.inr (Or.inr (Or.inr (Or.inr rfl)))))

theorem list_only (line : List Char) (r : Ret) (n : Int) (h : ParseLine line = some r)
    (hc : r.cmd = some (.ListCommand n)) : MatchString reListCommand line = true := by
  rcases parseLine_cmd line r h with ⟨_, h1⟩ | ⟨_, h1⟩ | ⟨_, h1⟩ | ⟨hm, _⟩ | ⟨_, h1⟩ |
    ⟨_, _, _, h1⟩ | h1
  all_goals first | exact hm | (rw [hc] at h1; exact absurd h1 (by simp))

theorem version_only (line : List Char) (r : Ret) (n : Int) (h : ParseLine line = some r)
    (hc : r.cmd = some (.VersionCommand n)) : MatchString reVersionCommand line = true := by
  rcases parseLine_cmd line r h with ⟨hm, _⟩ | ⟨_, h1⟩ | ⟨_, h1⟩ | ⟨_, h1⟩ | ⟨_, h1⟩ |
    ⟨_, _, _, h1⟩ | h1
  all_goals first | exact hm | (rw [hc] at h1; exact absurd h1 (by simp))

theorem bye_only (line : List Char) (r : Ret) (n : Int) (h : ParseLine line = some r)
    (hc : r.cmd = some (.ByeCommand n)) : MatchString reByeCommand line = true := by
  rcases parseLine_cmd line r h with ⟨_, h1⟩ | ⟨hm, _⟩ | ⟨_, h1⟩ | ⟨_, h1⟩ | ⟨_, h1⟩ |
    ⟨_, _, _, h1⟩ | h1
  all_goals first | exact hm | (rw [hc] at h1; exact absurd h1 (by simp))

/-! ### A keyword written with other letter cases is no keyword -/

theorem token_unique (a b v v' : List Char) (ha : ∀ c ∈ a, isSpace c = false)
    (hb : ∀ c ∈ b, isSpace c = false) (hv : ∀ c ∈ v, isSpace c = true)
    (hv' : ∀ c ∈ v', isSpace c = true) (h : a ++ v = b ++ v') : a = b := by
  have h1 := takeWhile_append_stop (fun c => !isSpace c) a v
    (fun c hc => by simp [ha c hc])
    (fun c hc => by
      cases v with
      | nil => simp at hc
      | cons d ds =>
        simp only [List.head?_cons, Option.mem_def, Option.some.injEq] at hc
        subst hc
        simp [hv d (by simp)])
  have h2 := takeWhile_append_stop (fun c => !isSpace c) b v'
    (fun c hc => by simp [hb c hc])
    (fun c hc => by
      cases v' with
      | nil => simp at hc
      | cons d ds =>
        simp only [List.head?_cons, Option.mem_def, Option.some.injEq] at hc
        subst hc
        simp [hv' d (by simp)])
  rw [h] at h1
  exact h1.symm.trans h2

theorem toLower_space (c : Char) (h : isSpace c = true) : Char.toLower c = c := by
  rcases space_cases c h with rfl | rfl | rfl | rfl | rfl <;> decide

/-- One of the five keywords written with another mix of upper and lower case, alone
on its line, is an unknown command. -/
theorem case_variant_unknown (k k' u v : List Char)
    (hk : k ∈ ["list".data, "version".data, "bye".data, "quit".data, "exit".data])
    (hmap : k'.map Char.toLower = k) (hne : k' ≠ k) (hu : ∀ c ∈ u, isSpace c = true)
    (hv : ∀ c ∈ v, isSpace c = true) :
    ParseLine (u ++ (k' ++ v)) = some ⟨none, some errUnknown⟩ := by
  have hks : ∀ c ∈ k, isSpace c = false := by
    simp only [List.mem_cons, List.mem_singleton, List.not_mem_nil, or_false] at hk
    rcases hk with rfl | rfl | rfl | rfl | rfl <;> decide
  have hk's : ∀ c ∈ k', isSpace c = false := by
    intro c hc
    cases hs : isSpace c with
    | false => rfl
    | true =>
      have hm : Char.toLower c ∈ k := by
        rw [← hmap]; exact List.mem_map.mpr ⟨c, hc, rfl⟩
      rw [toLower_space c hs] at hm
      rw [hks c hm] at hs
      exact absurd hs (by simp)
  have hfix : ∀ kw : List Char,
      kw ∈ ["list".data, "version".data, "bye".data, "quit".data, "exit".data] →
      kw.map Char.toLower = kw ∧ ∀ c ∈ kw, isSpace c = false := by
    intro kw hkw
    simp only [List.mem_cons, List.mem_singleton, List.not_mem_nil, or_false] at hkw
    rcases hkw with rfl | rfl | rfl | rfl | rfl <;> exact ⟨by decide, by decide⟩
  cases k' with
  | nil =>
    simp only [List.map_nil] at hmap
    exact absurd hmap hne
  | cons c0 l =>
    have hc0 : isSpace c0 = false := hk's c0 (by simp)
    have hf : firstLetter (u ++ (c0 :: l ++ v)) = some c0 :=
      firstLetter_append u (l ++ v) c0 hu hc0
    have hlow : Char.toLower c0 ∈ ['l', 'v', 'b', 'q', 'e'] := by
      simp only [List.mem_cons, List.mem_singleton, List.not_mem_nil, or_false] at hk
      simp only [List.map_cons] at hmap
      rcases hk with rfl | rfl | rfl | rfl | rfl
      all_goals
        rw [(List.cons.inj hmap).1]
        decide
    have hh : c0 ≠ 'h' := by
      rintro rfl; revert hlow; decide
    have hd : c0 ≠ 'd' := by
      rintro rfl; revert hlow; decide
    have ha : c0 ≠ 'a' := by
      rintro rfl; revert hlow; decide
    have hno : ∀ (kw v' u' : List Char),
        kw ∈ ["list".data, "version".data, "bye".data, "quit".data, "exit".data] →
        (∀ c ∈ u', isSpace c = true) → (∀ c ∈ v', isSpace c = true) →
        u ++ (c0 :: l ++ v) = u' ++ (kw ++ v') → False := by
      intro kw v' u' hkw hu' hv' hl
      obtain ⟨hlow', hsp⟩ := hfix kw hkw
      cases kw with
      | nil => simp at hkw
      | cons c1 l1 =>
        have hq := lead_unique u u' (l ++ v) (l1 ++ v') c0 c1 hu hu' hc0 (hsp c1 (by simp))
          (by simpa using hl)
        have he : c0 :: l = c1 :: l1 :=
          token_unique (c0 :: l) (c1 :: l1) v v' hk's hsp hv hv' (by simpa using hq.2)
        rw [he] at hmap hne
        rw [hlow'] at hmap
        exact hne hmap
    have hv0 : MatchString reVersionCommand (u ++ (c0 :: l ++ v)) = false := by
      cases hm : MatchString reVersionCommand (u ++ (c0 :: l ++ v)) with
      | false => rfl
      | true =>
        obtain ⟨u', v', hu', hv', hl⟩ := (version_iff _).mp hm
        exact absurd (hno _ v' u' (by simp) hu' hv' hl) id
    have hl0 : MatchString reListCommand (u ++ (c0 :: l ++ v)) = false := by
      cases hm : MatchString reListCommand (u ++ (c0 :: l ++ v)) with
      | false => rfl
      | true =>
        obtain ⟨u', v', hu', hv', hl⟩ := (list_iff _).mp hm
        exact absurd (hno _ v' u' (by simp) hu' hv' hl) id
    have hb0 : MatchString reByeCommand (u ++ (c0 :: l ++ v)) = false := by
      cases hm : MatchString reByeCommand (u ++ (c0 :: l ++ v)) with
      | false => rfl
      | true =>
        obtain ⟨u', kw, v', hu', hv', hkw, hl⟩ := (bye_iff _).mp hm
        exact absurd (hno kw v' u' (by rcases hkw with rfl | rfl | rfl <;> simp) hu' hv' hl) id
    exact parseLine_unknown _ hv0 hb0 (help_false _ c0 hf hh) hl0 (done_false _ c0 hf hd)
      (add_false _ c0 hf ha)

/-! ## The claims about the parser and the agenda -/

/-- C1 (the defect): on the line `add project:home,due:2024-01-01` the text left after
the removal of the two tokens is `add ` followed by nothing, the `add` pattern does not
match it, `FindStringSubmatch` returns nil and the index `[1]` panics. -/
theorem parseLine_panics :
    MatchString reAddCommand "add project:home,due:2024-01-01".toList = true ∧
    ReplaceAllString reAddCommandDue
      (ReplaceAllString reAddCommandProject "add project:home,due:2024-01-01".toList) =
      "add ".toList ∧
    FindStringSubmatch reAddCommand "add ".toList = none ∧
    ParseLine "add project:home,due:2024-01-01".toList = none := by
  refine ⟨by decide, by decide, by decide, by decide⟩

/-- C2: for a description `d` (not empty, on one line, without `\s` at its ends, without
`project:` or `due:`), a project `p` (not empty, without `\s`, without `project:` or
`due:`) and a valid calendar date `s` in the form `YYYY-MM-DD`, `ParseLine` returns
`AddCommand{d, p, date(s)}` and a nil error for each of the six arrangements of the
three parts after the keyword. -/
theorem add_any_order (d p s : List Char)
    (hd1 : d ≠ []) (hd2 : ∀ c ∈ d, c ≠ '\n')
    (hd3 : ∀ c ∈ d.head?, isSpace c = false) (hd4 : ∀ c ∈ d.getLast?, isSpace c = false)
    (hd5 : ∀ a b, d ≠ a ++ "project:".toList ++ b)
    (hd6 : ∀ a b, d ≠ a ++ "due:".toList ++ b)
    (hp1 : p ≠ []) (hp2 : ∀ c ∈ p, isSpace c = false)
    (_hp3 : ∀ a b, p ≠ a ++ "project:".toList ++ b)
    (hp4 : ∀ a b, p ≠ a ++ "due:".toList ++ b)
    (hs : validDate s = true) :
    ParseLine ("add ".toList ++ d ++ " project:".toList ++ p ++ " due:".toList ++ s) =
      some ⟨some (.AddCommand d p (dateOf s)), none⟩ ∧
    ParseLine ("add ".toList ++ d ++ " due:".toList ++ s ++ " project:".toList ++ p) =
      some ⟨some (.AddCommand d p (dateOf s)), none⟩ ∧
    ParseLine ("add project:".toList ++ p ++ " ".toList ++ d ++ " due:".toList ++ s) =
      some ⟨some (.AddCommand d p (dateOf s)), none⟩ ∧
    ParseLine ("add due:".toList ++ s ++ " ".toList ++ d ++ " project:".toList ++ p) =
      some ⟨some (.AddCommand d p (dateOf s)), none⟩ ∧
    ParseLine ("add project:".toList ++ p ++ " due:".toList ++ s ++ " ".toList ++ d) =
      some ⟨some (.AddCommand d p (dateOf s)), none⟩ ∧
    ParseLine ("add due:".toList ++ s ++ " project:".toList ++ p ++ " ".toList ++ d) =
      some ⟨some (.AddCommand d p (dateOf s)), none⟩ := by
  have hsh : isDateShape s = true := by
    simp only [validDate, Bool.and_eq_true] at hs
    exact hs.1.1.1.1
  have hdd : ∀ c ∈ d, isDot c = true := by
    intro c hc; simpa [isDot] using hd2 c hc
  have hpd := nospace_dot p hp2
  have hsd := dateShape_dot s hsh
  have hkp : ∀ c ∈ "project:".data, isDot c = true := by decide
  have hkd : ∀ c ∈ "due:".data, isDot c = true := by decide
  have hsp : isDot ' ' = true := by decide
  have hdh : ∀ y : List Char, ∀ c ∈ (d ++ y).head?, isSpace c = false := by
    intro y
    cases d with
    | nil => exact absurd rfl hd1
    | cons a as => simpa using hd3
  have hph : ∀ y : List Char, ∀ c ∈ ("project:".data ++ y).head?, isSpace c = false := by
    intro y c hc
    have : c = 'p' := by simpa using hc.symm
    rw [this]; decide
  have hsh2 : ∀ y : List Char, ∀ c ∈ ("due:".data ++ y).head?, isSpace c = false := by
    intro y c hc
    have : c = 'd' := by simpa using hc.symm
    rw [this]; decide
  have e1 : "add ".toList ++ d ++ " project:".toList ++ p ++ " due:".toList ++ s =
      "add ".data ++ (d ++ ' ' :: ("project:".data ++ (p ++ ' ' :: ("due:".data ++
        (s ++ []))))) := by simp
  have e2 : "add ".toList ++ d ++ " due:".toList ++ s ++ " project:".toList ++ p =
      "add ".data ++ (d ++ ' ' :: ("due:".data ++ (s ++ ' ' :: ("project:".data ++
        (p ++ []))))) := by simp
  have e3 : "add project:".toList ++ p ++ " ".toList ++ d ++ " due:".toList ++ s =
      "add ".data ++ ("project:".data ++ (p ++ ' ' :: (d ++ ' ' :: ("due:".data ++
        (s ++ []))))) := by simp
  have e4 : "add due:".toList ++ s ++ " ".toList ++ d ++ " project:".toList ++ p =
      "add ".data ++ ("due:".data ++ (s ++ ' ' :: (d ++ ' ' :: ("project:".data ++
        (p ++ []))))) := by simp
  have e5 : "add project:".toList ++ p ++ " due:".toList ++ s ++ " ".toList ++ d =
      "add ".data ++ ("project:".data ++ (p ++ ' ' :: ("due:".data ++ (s ++ ' ' ::
        (d ++ []))))) := by simp
  have e6 : "add due:".toList ++ s ++ " project:".toList ++ p ++ " ".toList ++ d =
      "add ".data ++ ("due:".data ++ (s ++ ' ' :: ("project:".data ++ (p ++ ' ' ::
        (d ++ []))))) := by simp
  have hy0 : ∀ c ∈ ([] : List Char).head?, c = ' ' := by simp
  have hy1 : ∀ y : List Char, ∀ c ∈ (' ' :: y).head?, c = ' ' := by
    intro y c hc; simpa using hc.symm
  refine ⟨?_, ?_, ?_, ?_, ?_, ?_⟩
  · rw [e1]
    refine add_core _ d p s 0 2 (by simp [hd1]) ?_ (hdh _) ?_ ?_ ?_ hd1 hdd hd3 hd4 hs
    · simp only [List.forall_mem_append, List.forall_mem_cons]
      refine ⟨hdd, hsp, ?_, hpd, hsp, ?_, hsd, by simp⟩ <;> decide
    · rw [pf_add, pf_d d hd5, pf_sp, pf_P p hp1 hp2 _ (hy1 _)]
    · rw [df_add, df_d d hd6, df_sp, df_P p hp4, df_sp, df_S s hsh]
    · rw [ps_add, ps_d d hd5 _ (hy1 _), ps_sp, ps_P p hp1 hp2 _ (hy1 _), ps_sp,
        ps_S s hsh, strip_nil, ds_add, ds_d d hd6 _ (hy1 _), ds_sp, ds_sp, ds_S s hsh,
        strip_nil]
      rfl
  · rw [e2]
    refine add_core _ d p s 0 2 (by simp [hd1]) ?_ (hdh _) ?_ ?_ ?_ hd1 hdd hd3 hd4 hs
    · simp only [List.forall_mem_append, List.forall_mem_cons]
      refine ⟨hdd, hsp, ?_, hsd, hsp, ?_, hpd, by simp⟩ <;> decide
    · rw [pf_add, pf_d d hd5, pf_sp, pf_S s hsh, pf_sp, pf_P p hp1 hp2 _ hy0]
    · rw [df_add, df_d d hd6, df_sp, df_S s hsh]
    · rw [ps_add, ps_d d hd5 _ (hy1 _), ps_sp, ps_S s hsh, ps_sp, ps_P p hp1 hp2 _ hy0,
        strip_nil, ds_add, ds_d d hd6 _ (hy1 _), ds_sp, ds_S s hsh, ds_sp, strip_nil]
      rfl
  · rw [e3]
    refine add_core _ d p s 1 1 (by simp) ?_ (hph _) ?_ ?_ ?_ hd1 hdd hd3 hd4 hs
    · simp only [List.forall_mem_append, List.forall_mem_cons]
      refine ⟨?_, hpd, hsp, hdd, hsp, ?_, hsd, by simp⟩ <;> decide
    · rw [pf_add, pf_P p hp1 hp2 _ (hy1 _)]
    · rw [df_add, df_P p hp4, df_sp, df_d d hd6, df_sp, df_S s hsh]
    · rw [ps_add, ps_P p hp1 hp2 _ (hy1 _), ps_sp, ps_d d hd5 _ (hy1 _), ps_sp,
        ps_S s hsh, strip_nil, ds_add, ds_sp, ds_d d hd6 _ (hy1 _), ds_sp, ds_S s hsh,
        strip_nil]
      rfl
  · rw [e4]
    refine add_core _ d p s 1 1 (by simp) ?_ (hsh2 _) ?_ ?_ ?_ hd1 hdd hd3 hd4 hs
    · simp only [List.forall_mem_append, List.forall_mem_cons]
      refine ⟨?_, hsd, hsp, hdd, hsp, ?_, hpd, by simp⟩ <;> decide
    · rw [pf_add, pf_S s hsh, pf_sp, pf_d d hd5, pf_sp, pf_P p hp1 hp2 _ hy0]
    · rw [df_add, df_S s hsh]
    · rw [ps_add, ps_S s hsh, ps_sp, ps_d d hd5 _ (hy1 _), ps_sp, ps_P p hp1 hp2 _ hy0,
        strip_nil, ds_add, ds_S s hsh, ds_sp, ds_d d hd6 _ (hy1 _), ds_sp, strip_nil]
      rfl
  · rw [e5]
    refine add_core _ d p s 2 0 (by simp) ?_ (hph _) ?_ ?_ ?_ hd1 hdd hd3 hd4 hs
    · simp only [List.forall_mem_append, List.forall_mem_cons]
      refine ⟨?_, hpd, hsp, ?_, hsd, hsp, hdd, by simp⟩ <;> decide
    · rw [pf_add, pf_P p hp1 hp2 _ (hy1 _)]
    · rw [df_add, df_P p hp4, df_sp, df_S s hsh]
    · rw [ps_add, ps_P p hp1 hp2 _ (hy1 _), ps_sp, ps_S s hsh, ps_sp, ps_d d hd5 _ hy0,
        strip_nil, ds_add, ds_sp, ds_S s hsh, ds_sp, ds_d d hd6 _ hy0, strip_nil]
      simp [List.replicate]
  · rw [e6]
    refine add_core _ d p s 2 0 (by simp) ?_ (hsh2 _) ?_ ?_ ?_ hd1 hdd hd3 hd4 hs
    · simp only [List.forall_mem_append, List.forall_mem_cons]
      refine ⟨?_, hsd, hsp, ?_, hpd, hsp, hdd, by simp⟩ <;> decide
    · rw [pf_add, pf_S s hsh, pf_sp, pf_P p hp1 hp2 _ (hy1 _)]
    · rw [df_add, df_S s hsh]
    · rw [ps_add, ps_S s hsh, ps_sp, ps_P p hp1 hp2 _ (hy1 _), ps_sp, ps_d d hd5 _ hy0,
        strip_nil, ds_add, ds_S s hsh, ds_sp, ds_sp, ds_d d hd6 _ hy0, strip_nil]
      simp [List.replicate]

/-- Witness of C2: the description `buy milk`, the project `home` and the date
`2024-01-01`, with the date before the project. -/
theorem add_any_order_witness :
    ParseLine ("add ".toList ++ "buy milk".toList ++ " due:".toList ++
        "2024-01-01".toList ++ " project:".toList ++ "home".toList) =
      some ⟨some (.AddCommand "buy milk".toList "home".toList
        (dateOf "2024-01-01".toList)), none⟩ :=
  (add_any_order "buy milk".toList "home".toList "2024-01-01".toList (by decide)
    (by decide) (by decide) (by decide)
    (noOcc_of_occurs _ _ (by decide)) (noOcc_of_occurs _ _ (by decide))
    (by decide) (by decide)
    (noOcc_of_occurs _ _ (by decide)) (noOcc_of_occurs _ _ (by decide))
    (by decide)).2.1

/-- C3 (the defect): on the line `add pay rent project:home due:2024-02-30`, whose due
token is not a calendar date, `ParseLine` returns an `AddCommand` and a nil error; its
`Due` is the zero value of `time.Time`, 1 January of year 1. -/
theorem invalid_due_accepted :
    validDate "2024-02-30".toList = false ∧
    timeParse "2024-02-30".toList = none ∧
    ParseLine "add pay rent project:home due:2024-02-30".toList =
      some ⟨some (.AddCommand "pay rent".toList "home".toList ⟨1, 1, 1⟩), none⟩ := by
  refine ⟨by decide, by decide, by decide⟩

/-- C4 (the defect): a tab at the end of the description is kept (the text left on
`add call mum<TAB> project:home due:2024-01-01` is ` call mum<TAB>  ` and the
description returned is `call mum<TAB>`, which ends with a whitespace character), and a
text left made of a space and a tab gives the description `<TAB>`, not the error
"Error: missing description": `strings.Trim` is called with the cutset `" "`, so only
U+0020 is trimmed, while the pattern has removed every leading `\s` character. -/
theorem description_keeps_tab :
    ReplaceAllString reAddCommandDue (ReplaceAllString reAddCommandProject
      "add call mum\t project:home due:2024-01-01".toList) = "add call mum\t  ".toList ∧
    ParseLine "add call mum\t project:home due:2024-01-01".toList =
      some ⟨some (.AddCommand "call mum\t".toList "home".toList ⟨2024, 1, 1⟩), none⟩ ∧
    isSpace '\t' = true ∧
    ReplaceAllString reAddCommandDue (ReplaceAllString reAddCommandProject
      "add project:home due:2024-01-01\t".toList) = "add  \t".toList ∧
    ParseLine "add project:home due:2024-01-01\t".toList =
      some ⟨some (.AddCommand "\t".toList "home".toList ⟨2024, 1, 1⟩), none⟩ ∧
    (∀ pn dt, ParseLine "add call mum\t project:home due:2024-01-01".toList ≠
      some ⟨some (.AddCommand "call mum".toList pn dt), none⟩) ∧
    ParseLine "add project:home due:2024-01-01\t".toList ≠
      some ⟨none, some errMissingDesc⟩ := by
  have h1 : ParseLine "add call mum\t project:home due:2024-01-01".toList =
      some ⟨some (.AddCommand "call mum\t".toList "home".toList ⟨2024, 1, 1⟩), none⟩ := by
    decide
  refine ⟨by decide, h1, by decide, by decide, by decide, ?_, by decide⟩
  intro pn dt h
  rw [h1] at h
  simp only [Option.some.injEq, Ret.mk.injEq, Command.AddCommand.injEq, and_true] at h
  exact absurd h.1 (by decide)

/-- What the `add` branch computes as the description: on a line that matches the
`add` pattern and has a project token and a due token, let `r` be the text after the
keyword `add` once the tokens are removed, and let `r` have no line feed.  If `r` has a
character that is not a space of the class `\s`, `ParseLine` returns an `AddCommand`
whose `Desc` is `r` without its leading `\s` characters and without its trailing U+0020
characters; this `Desc` is not empty, does not start with a `\s` character and does not
end with U+0020.  If `r` is made of two or more `\s` characters and ends with U+0020,
`ParseLine` fails with "Error: missing description". -/
theorem add_description (line u r : List Char)
    (hm : MatchString reAddCommand line = true)
    (hp : ∃ a c b, line = a ++ "project:".toList ++ c :: b ∧ isSpace c = false)
    (hd : ∃ a D b, line = a ++ "due:".toList ++ D ++ b ∧ isDateShape D = true)
    (hu : ∀ c ∈ u, isSpace c = true)
    (hr : ReplaceAllString reAddCommandDue (ReplaceAllString reAddCommandProject line) =
      u ++ "add".toList ++ r)
    (hlf : ∀ c ∈ r, c ≠ '\n') :
    ((∃ c ∈ r, isSpace c = false) →
      ∃ pn dt, ParseLine line = some ⟨some (.AddCommand
          ((r.dropWhile isSpace).rdropWhile fun c => c == ' ') pn dt), none⟩ ∧
        ((r.dropWhile isSpace).rdropWhile fun c => c == ' ') ≠ [] ∧
        (∀ c ∈ ((r.dropWhile isSpace).rdropWhile fun c => c == ' ').head?,
          isSpace c = false) ∧
        (∀ c ∈ ((r.dropWhile isSpace).rdropWhile fun c => c == ' ').getLast?, c ≠ ' ')) ∧
    ((∀ c ∈ r, isSpace c = true) → 2 ≤ r.length → r.getLast? = some ' ' →
      ParseLine line = some ⟨none, some errMissingDesc⟩) := by
  obtain ⟨pn, hpn⟩ := firstTok_proj_some line hp
  obtain ⟨dt, hdt⟩ := firstTok_due_some line hd
  obtain ⟨u0, w0, rest0, hu0, hw0, hl0⟩ := add_shape line hm
  rw [replaceAll_tok _ _ _ tokSpec_project, replaceAll_tok _ _ _ tokSpec_due] at hr
  have hr2 := hr
  rw [hl0, strip_proj_add u0 rest0 w0 hu0 hw0, strip_due_add u0 _ w0 hu0 hw0,
    List.append_assoc] at hr2
  have hq := lead_unique u0 u ("dd".data ++ w0 :: strip dueAt (strip projAt rest0))
    ("dd".data ++ r) 'a' 'a' hu0 hu (by decide) (by decide) hr2
  have hrw : r = w0 :: strip dueAt (strip projAt rest0) := by
    have := hq.2
    simp only [List.cons.injEq, true_and] at this
    exact (List.append_cancel_left this).symm
  have hpl : ParseLine line =
      ((FindStringSubmatch reAddCommand (u ++ ("add".data ++ r))).bind
        fun sub => sub.get? 1).bind fun g =>
      if len (Trim g) = 0 then some ⟨none, some errMissingDesc⟩
      else some ⟨some (.AddCommand (Trim g) pn ((timeParse dt).getD Time.zero)), none⟩ := by
    rw [parseLine_add_of_match line hm, parseAdd_eq, hpn, hdt, hr, List.append_assoc]
    rfl
  constructor
  · rintro ⟨c, hc, hcs⟩
    have hsplit := List.takeWhile_append_dropWhile isSpace r
    have hw1 : r.takeWhile isSpace ≠ [] := by
      rw [hrw]; simp [List.takeWhile_cons, hw0]
    have hR : r.dropWhile isSpace ≠ [] := by
      intro hnil
      rw [List.dropWhile_eq_nil_iff] at hnil
      have := hnil c hc
      rw [hcs] at this
      exact absurd this (by simp)
    have hdot : ∀ x ∈ r.dropWhile isSpace, isDot x = true := by
      intro x hx
      have hxr : x ∈ r := by
        have h0 : x ∈ r.takeWhile isSpace ++ r.dropWhile isSpace :=
          List.mem_append.mpr (Or.inr hx)
        rwa [hsplit] at h0
      simpa [isDot] using hlf x hxr
    have hhead := dropWhile_head isSpace r
    have hsub := (add_submatch_greedy u (r.takeWhile isSpace) (r.dropWhile isSpace) []
      hu hw1 (takeWhile_all isSpace r) hR hdot hhead (by simp) (by simp)).2
    rw [List.append_nil, hsplit] at hsub
    have htrim : Trim (r.dropWhile isSpace) =
        (r.dropWhile isSpace).rdropWhile fun c => c == ' ' := by
      apply trim_of_head
      intro x hx
      have := hhead x hx
      cases hxs : (x == ' ') with
      | false => rfl
      | true =>
        rw [show x = ' ' by simpa using hxs] at this
        exact absurd this (by decide)
    cases hRc : r.dropWhile isSpace with
    | nil => exact absurd hRc hR
    | cons a as =>
      have ha : isSpace a = false := hhead a (by rw [hRc]; simp)
      have hasp : (a == ' ') = false := by
        cases hxs : (a == ' ') with
        | false => rfl
        | true =>
          rw [show a = ' ' by simpa using hxs] at ha
          exact absurd ha (by decide)
      have hkeep := rdropWhile_cons_keep (fun c => c == ' ') a as hasp
      rw [hRc] at hsub htrim
      have hne : len ((a :: as).rdropWhile fun c => c == ' ') ≠ 0 := by
        rw [Ne, len_eq_zero, hkeep]; simp
      refine ⟨pn, (timeParse dt).getD Time.zero, ?_, ?_, ?_, ?_⟩
      · rw [hpl, hsub]
        simp only [Option.some_bind, htrim, hne, if_false]
      · rw [hkeep]; simp
      · rw [hkeep]; intro x hx; simp at hx; rw [← hx]; exact ha
      · intro x hx
        have := rdropWhile_getLast (fun c => c == ' ') (a :: as) x hx
        simpa using this
  · intro hall hlen hlast
    obtain ⟨w1, hw1⟩ : ∃ w1, r = w1 ++ [' '] := by
      have hne : r ≠ [] := by intro h; rw [h] at hlen; simp at hlen
      refine ⟨r.dropLast, ?_⟩
      have h1 := List.dropLast_append_getLast hne
      rw [List.getLast?_eq_getLast _ hne] at hlast
      rw [Option.some.injEq] at hlast
      rw [hlast] at h1
      exact h1.symm
    have hw1ne : w1 ≠ [] := by
      intro h; rw [hw1, h] at hlen; simp at hlen
    have hw1s : ∀ d ∈ w1, isSpace d = true := by
      intro d hd; apply hall; rw [hw1]; simp [hd]
    have hsub := add_submatch_back u w1 ' ' hu hw1ne hw1s (by decide) (by decide)
    rw [← hw1] at hsub
    rw [hpl, hsub]
    rfl

/-- An instance of the computation of the description: on
`add  call mum<TAB>  project:home due:2024-01-01` the description is `call mum<TAB>`; on
`add project:home due:2024-01-01` the text left is two spaces and the description is
missing. -/
theorem add_description_witness :
    (∃ pn dt, ParseLine "add  call mum\t  project:home due:2024-01-01".toList =
      some ⟨some (.AddCommand
        (("  call mum\t   ".toList.dropWhile isSpace).rdropWhile fun c => c == ' ')
        pn dt), none⟩) ∧
    (("  call mum\t   ".toList.dropWhile isSpace).rdropWhile fun c => c == ' ') =
      "call mum\t".toList ∧
    ParseLine "add project:home due:2024-01-01".toList =
      some ⟨none, some errMissingDesc⟩ :=
  let h := (add_description "add  call mum\t  project:home due:2024-01-01".toList []
    "  call mum\t   ".toList (by decide)
    ⟨"add  call mum\t  ".toList, 'h', "ome due:2024-01-01".toList, by decide, by decide⟩
    ⟨"add  call mum\t  project:home ".toList, "2024-01-01".toList, [], by decide,
      by decide⟩
    (by simp) (by decide) (by decide)).1 ⟨'c', by decide, by decide⟩
  ⟨⟨h.choose, h.choose_spec.choose, h.choose_spec.choose_spec.1⟩, by decide,
    (add_description "add project:home due:2024-01-01".toList [] "  ".toList (by decide)
      ⟨"add ".toList, 'h', "ome due:2024-01-01".toList, by decide, by decide⟩
      ⟨"add project:home ".toList, "2024-01-01".toList, [], by decide, by decide⟩
      (by simp) (by decide) (by decide)).2 (by decide) (by decide) (by decide)⟩

/-- C5: on a line that matches the `add` pattern, the project is checked first: without
an occurrence of `project:` followed by a character that is not a space the error is
"Error: missing project", whatever the due tokens of the line; with a project token and
without an occurrence of `due:DDDD-DD-DD` the error is "Error: missing due date". -/
theorem add_checks_in_order :
    (∀ line : List Char, MatchString reAddCommand line = true →
      (¬ ∃ a c b, line = a ++ "project:".toList ++ c :: b ∧ isSpace c = false) →
      ParseLine line = some ⟨none, some errMissingProject⟩) ∧
    (∀ line : List Char, MatchString reAddCommand line = true →
      (∃ a c b, line = a ++ "project:".toList ++ c :: b ∧ isSpace c = false) →
      (¬ ∃ a D b, line = a ++ "due:".toList ++ D ++ b ∧ isDateShape D = true) →
      ParseLine line = some ⟨none, some errMissingDue⟩) := by
  constructor
  · intro line hm hp
    rw [parseLine_add_of_match line hm, parseAdd_eq, firstTok_proj_none line hp]
  · intro line hm hp hd
    obtain ⟨pn, hpn⟩ := firstTok_proj_some line hp
    rw [parseLine_add_of_match line hm, parseAdd_eq, hpn, firstTok_due_none line hd]

/-- Witness of C5: an `add` without project and with a due date, and an `add` with a
project and without due date. -/
theorem add_checks_in_order_witness :
    ParseLine "add buy milk due:2024-01-01".toList = some ⟨none, some errMissingProject⟩ ∧
    ParseLine "add buy milk project:home".toList = some ⟨none, some errMissingDue⟩ :=
  ⟨add_checks_in_order.1 "add buy milk due:2024-01-01".toList (by decide)
      (fun h => by
        obtain ⟨pn, hpn⟩ := firstTok_proj_some _ h
        have hn : firstTok projAt "add buy milk due:2024-01-01".toList = none := by decide
        rw [hn] at hpn
        exact absurd hpn (by simp)),
    add_checks_in_order.2 "add buy milk project:home".toList (by decide)
      ⟨"add buy milk ".toList, 'h', "ome".toList, by decide, by decide⟩
      (fun h => by
        obtain ⟨dt, hdt⟩ := firstTok_due_some _ h
        have hn : firstTok dueAt "add buy milk project:home".toList = none := by decide
        rw [hn] at hdt
        exact absurd hdt (by simp))⟩

/-- C6 (as amended): for every non-empty text `w` of ASCII digits (any length,
leading zeros allowed) whose value is below `2^63`, `ParseLine("done " ++ w)` returns
`DoneCommand` with `Id` equal to that value and a nil error. -/
theorem done_id_value (w : List Char) (hne : w ≠ []) (hd : ∀ c ∈ w, isDigit c = true)
    (hn : decValue w < 2 ^ 63) :
    ParseLine ("done ".toList ++ w) =
      some ⟨some (.DoneCommand ((decValue w : Nat) : Int)), none⟩ := by
  have h := parse_done [] [' '] w [] (by simp) (by simp) (by simp; decide) hne hd (by simp)
  rw [atoi_digits w hne hd hn] at h
  simpa using h

/-- Witness of C6 (as amended): a numeral of twenty digits with leading zeros. -/
theorem done_id_value_witness :
    ParseLine ("done ".toList ++ "00000000000000000042".toList) =
      some ⟨some (.DoneCommand ((decValue "00000000000000000042".toList : Nat) : Int)),
        none⟩ :=
  done_id_value "00000000000000000042".toList (by decide) (by decide) (by decide)

/-- Counterexample to C6 as stated: the numeral `9223372036854775808` (19 digits,
the number `2^63`) is parsed to the `Id` `9223372036854775807`, not to the number
typed. -/
theorem done_id_saturates :
    (∀ c ∈ "9223372036854775808".toList, isDigit c = true) ∧
    decValue "9223372036854775808".toList = 2 ^ 63 ∧
    ParseLine ("done ".toList ++ "9223372036854775808".toList) =
      some ⟨some (.DoneCommand (2 ^ 63 - 1)), none⟩ ∧
    ParseLine ("done ".toList ++ "9223372036854775808".toList) ≠
      some ⟨some (.DoneCommand ((decValue "9223372036854775808".toList : Nat) : Int)),
        none⟩ := by
  refine ⟨by decide, by decide, by decide, by decide⟩

/-- C7: a line made of optional spaces, `done` and a remainder that is not (spaces,
one non-empty run of ASCII digits, optional spaces) yields no command and the
generic unknown-command error. -/
theorem malformed_done_unknown (u rem : List Char) (hu : ∀ c ∈ u, isSpace c = true)
    (hrem : ¬ ∃ a b c : List Char, rem = a ++ b ++ c ∧ a ≠ [] ∧
      (∀ x ∈ a, isSpace x = true) ∧ b ≠ [] ∧ (∀ x ∈ b, isDigit x = true) ∧
      (∀ x ∈ c, isSpace x = true)) :
    ParseLine (u ++ "done".toList ++ rem) = some ⟨none, some errUnknown⟩ := by
  have hf : firstLetter (u ++ "done".toList ++ rem) = some 'd' := by
    rw [List.append_assoc]
    exact firstLetter_append u ("one".data ++ rem) 'd' hu (by decide)
  have h4 : MatchString reDoneCommand (u ++ "done".toList ++ rem) = false := by
    cases hm : MatchString reDoneCommand (u ++ "done".toList ++ rem) with
    | false => rfl
    | true =>
      exfalso
      obtain ⟨u', w1, w, v, hu', h1, hw1, h2, hw, hv, hl⟩ := done_shape _ hm
      rw [List.append_assoc] at hl
      have hq := lead_unique u u' ("one".data ++ rem) ("one".data ++ (w1 ++ (w ++ v)))
        'd' 'd' hu hu' (by decide) (by decide) hl
      have hr : rem = w1 ++ (w ++ v) := by
        have := hq.2
        simp only [List.cons.injEq, true_and] at this
        exact List.append_cancel_left this
      exact hrem ⟨w1, w, v, by rw [hr, List.append_assoc], h1, hw1, h2, hw, hv⟩
  exact parseLine_unknown _ (version_false _ 'd' hf (by decide))
    (bye_false _ 'd' hf (by decide) (by decide) (by decide))
    (help_false _ 'd' hf (by decide)) (list_false _ 'd' hf (by decide)) h4
    (add_false _ 'd' hf (by decide))

/-- Witness of C7: the line `done x`. -/
theorem malformed_done_unknown_witness :
    ParseLine ([] ++ "done".toList ++ " x".toList) = some ⟨none, some errUnknown⟩ :=
  malformed_done_unknown [] " x".toList (by simp) (by
    rintro ⟨a, b, c, h, ha, hsa, hb, hdb, hsc⟩
    have hlen : (a ++ b ++ c).length = 2 := by rw [← h]; rfl
    cases a with
    | nil => exact ha rfl
    | cons a0 a1 =>
      cases b with
      | nil => exact hb rfl
      | cons b0 b1 =>
        cases a1 with
        | cons a2 a3 => simp at hlen
        | nil =>
          have hx : 'x' = b0 := by
            have := congrArg (fun l => l.get? 1) h
            simpa using this
          have := hdb b0 (by simp)
          rw [← hx] at this
          exact absurd this (by decide))

/-- C8: `ParseLine` returns `HelpCommand` with query `q` exactly on the lines made of
optional spaces, `help`, optionally spaces and one of the six command names `q`, and
optional spaces (`q` is empty exactly when no name is given); `help` followed by a
token that is not one of the six names gives the generic unknown-command error. -/
theorem help_characterisation :
    (∀ line q : List Char, ParseLine line = some ⟨some (.HelpCommand q), none⟩ ↔
      ∃ u v : List Char, (∀ c ∈ u, isSpace c = true) ∧ (∀ c ∈ v, isSpace c = true) ∧
        ((q = [] ∧ line = u ++ "help".toList ++ v) ∨
          (q ∈ ["add".toList, "bye".toList, "done".toList, "help".toList, "list".toList,
              "version".toList] ∧
            ∃ w : List Char, w ≠ [] ∧ (∀ c ∈ w, isSpace c = true) ∧
              line = u ++ "help".toList ++ w ++ q ++ v))) ∧
    (∀ t : List Char, t ≠ [] → (∀ c ∈ t, isSpace c = false) →
      t ∉ ["add".toList, "bye".toList, "done".toList, "help".toList, "list".toList,
        "version".toList] →
      ParseLine ("help ".toList ++ t) = some ⟨none, some errUnknown⟩) := by
  constructor
  · intro line q
    constructor
    · intro h
      obtain ⟨_, _, h2⟩ := help_only line q h
      obtain ⟨u, v, hu, hv, hl | ⟨w, q', hwne, hw, hq', hl⟩⟩ := help_shape line h2
      · refine ⟨u, v, hu, hv, Or.inl ⟨?_, by rw [hl, List.append_assoc]; rfl⟩⟩
        rw [hl, parse_help_plain u v hu hv] at h
        simpa using h.symm
      · refine ⟨u, v, hu, hv, Or.inr ?_⟩
        rw [hl, parse_help_query u w q' v hu hwne hw hq' hv] at h
        have hqq : q' = q := by simpa using h
        subst hqq
        exact ⟨hq', w, hwne, hw, by rw [hl]; simp only [List.append_assoc]; rfl⟩
    · rintro ⟨u, v, hu, hv, ⟨rfl, rfl⟩ | ⟨hq, w, hwne, hw, rfl⟩⟩
      · rw [List.append_assoc]
        exact parse_help_plain u v hu hv
      · simp only [List.append_assoc]
        exact parse_help_query u w q v hu hwne hw hq hv
  · intro t hne ht hnot
    have hf : firstLetter ("help ".toList ++ t) = some 'h' :=
      firstLetter_append [] _ 'h' (by simp) (by decide)
    have h2 : MatchString reHelpCommand ("help ".toList ++ t) = false := by
      cases hm : MatchString reHelpCommand ("help ".toList ++ t) with
      | false => rfl
      | true =>
        exfalso
        obtain ⟨u, v, hu, hv, hl | ⟨w, q, hwne, hw, hq, hl⟩⟩ := help_shape _ hm
        · have hq := lead_unique [] u ("elp ".data ++ t) ("elp".data ++ v) 'h' 'h'
            (by simp) hu (by decide) (by decide) hl
          have h3 : ' ' :: t = v := by simpa using hq.2
          subst h3
          exact hne (eq_nil_of_all_of_none isSpace t (fun c hc => hv c (by simp [hc])) ht)
        · have hq1 := lead_unique [] u ("elp ".data ++ t) ("elp".data ++ (w ++ (q ++ v)))
            'h' 'h' (by simp) hu (by decide) (by decide) hl
          have h3 : ' ' :: t = w ++ (q ++ v) := by simpa using hq1.2
          cases w with
          | nil => exact hwne rfl
          | cons w0 ws =>
            simp only [List.cons_append, List.cons.injEq] at h3
            obtain ⟨_, h3⟩ := h3
            have hws : ws = [] := eq_nil_of_all_of_none isSpace ws
              (fun c hc => hw c (by simp [hc])) (fun c hc => ht c (by rw [h3]; simp [hc]))
            have hvn : v = [] := eq_nil_of_all_of_none isSpace v hv
              (fun c hc => ht c (by rw [h3]; simp [hc]))
            subst hws hvn
            simp only [List.nil_append, List.append_nil] at h3
            subst h3
            exact hnot hq
    exact parseLine_unknown _ (version_false _ 'h' hf (by decide))
      (bye_false _ 'h' hf (by decide) (by decide) (by decide)) h2
      (list_false _ 'h' hf (by decide)) (done_false _ 'h' hf (by decide))
      (add_false _ 'h' hf (by decide))

/-- Witness of C8: `help quit` is an unknown command. -/
theorem help_characterisation_witness :
    ParseLine ("help ".toList ++ "quit".toList) = some ⟨none, some errUnknown⟩ :=
  help_characterisation.2 "quit".toList (by decide) (by decide) (by decide)

/-- C9: `list`, `version`, `bye`, `quit` and `exit` surrounded by any spaces give their
command; the same keywords followed by a space and one more token give no command and
the generic unknown-command error; the match is case-sensitive: `List` is an unknown
command, and so is, between any spaces, every text that is one of the five keywords up
to the case of its letters and is not the keyword itself; and the match is exact: the
lines on which `ParseLine` returns a `ListCommand`, a `VersionCommand` or a `ByeCommand`
are the lines made of spaces, the keyword in lower case and spaces, and no other. -/
theorem payload_free_exact_token :
    (∀ u v : List Char, (∀ c ∈ u, isSpace c = true) → (∀ c ∈ v, isSpace c = true) →
      ParseLine (u ++ "list".toList ++ v) = some ⟨some (.ListCommand 0), none⟩ ∧
      ParseLine (u ++ "version".toList ++ v) = some ⟨some (.VersionCommand 0), none⟩ ∧
      ParseLine (u ++ "bye".toList ++ v) = some ⟨some (.ByeCommand 0), none⟩ ∧
      ParseLine (u ++ "quit".toList ++ v) = some ⟨some (.ByeCommand 0), none⟩ ∧
      ParseLine (u ++ "exit".toList ++ v) = some ⟨some (.ByeCommand 0), none⟩) ∧
    (∀ k t : List Char,
      k ∈ ["list".toList, "version".toList, "bye".toList, "quit".toList, "exit".toList] →
      t ≠ [] → (∀ c ∈ t, isSpace c = false) →
      ParseLine (k ++ " ".toList ++ t) = some ⟨none, some errUnknown⟩) ∧
    ParseLine "List".toList = some ⟨none, some errUnknown⟩ ∧
    (∀ k k' u v : List Char,
      k ∈ ["list".toList, "version".toList, "bye".toList, "quit".toList, "exit".toList] →
      k'.map Char.toLower = k → k' ≠ k →
      (∀ c ∈ u, isSpace c = true) → (∀ c ∈ v, isSpace c = true) →
      ParseLine (u ++ k' ++ v) = some ⟨none, some errUnknown⟩) ∧
    (∀ line : List Char,
      ((∃ r n, ParseLine line = some r ∧ r.cmd = some (.ListCommand n)) ↔
        ∃ u v : List Char, (∀ c ∈ u, isSpace c = true) ∧ (∀ c ∈ v, isSpace c = true) ∧
          line = u ++ "list".toList ++ v) ∧
      ((∃ r n, ParseLine line = some r ∧ r.cmd = some (.VersionCommand n)) ↔
        ∃ u v : List Char, (∀ c ∈ u, isSpace c = true) ∧ (∀ c ∈ v, isSpace c = true) ∧
          line = u ++ "version".toList ++ v) ∧
      ((∃ r n, ParseLine line = some r ∧ r.cmd = some (.ByeCommand n)) ↔
        ∃ k u v : List Char, k ∈ ["bye".toList, "quit".toList, "exit".toList] ∧
          (∀ c ∈ u, isSpace c = true) ∧ (∀ c ∈ v, isSpace c = true) ∧
          line = u ++ k ++ v)) := by
  refine ⟨?_, ?_, by decide, ?_, ?_⟩
  rotate_left 2
  · intro k k' u v hk hmap hne hu hv
    rw [List.append_assoc]
    exact case_variant_unknown k k' u v hk hmap hne hu hv
  · intro line
    refine ⟨⟨?_, ?_⟩, ⟨?_, ?_⟩, ⟨?_, ?_⟩⟩
    · rintro ⟨r, n, h, hc⟩
      obtain ⟨u, v, hu, hv, hl⟩ := (list_iff line).mp (list_only line r n h hc)
      exact ⟨u, v, hu, hv, by rw [List.append_assoc]; exact hl⟩
    · rintro ⟨u, v, hu, hv, hl⟩
      rw [List.append_assoc] at hl
      rw [hl]
      exact ⟨_, 0, parse_list u v hu hv, rfl⟩
    · rintro ⟨r, n, h, hc⟩
      obtain ⟨u, v, hu, hv, hl⟩ := (version_iff line).mp (version_only line r n h hc)
      exact ⟨u, v, hu, hv, by rw [List.append_assoc]; exact hl⟩
    · rintro ⟨u, v, hu, hv, hl⟩
      rw [List.append_assoc] at hl
      rw [hl]
      exact ⟨_, 0, parse_version u v hu hv, rfl⟩
    · rintro ⟨r, n, h, hc⟩
      obtain ⟨u, kw, v, hu, hv, hkw, hl⟩ := (bye_iff line).mp (bye_only line r n h hc)
      refine ⟨kw, u, v, ?_, hu, hv, by rw [List.append_assoc]; exact hl⟩
      rcases hkw with rfl | rfl | rfl
      · exact List.mem_cons_self _ _
      · exact List.mem_cons_of_mem _ (List.mem_cons_self _ _)
      · exact List.mem_cons_of_mem _ (List.mem_cons_of_mem _ (List.mem_cons_self _ _))
    · rintro ⟨k, u, v, hk, hu, hv, hl⟩
      rw [List.append_assoc] at hl
      rw [hl]
      refine ⟨_, 0, parse_bye u k v hu hv ?_, rfl⟩
      simp only [List.mem_cons, List.mem_singleton, List.not_mem_nil, or_false] at hk
      exact hk
  · intro u v hu hv
    simp only [List.append_assoc]
    exact ⟨parse_list u v hu hv, parse_version u v hu hv,
      parse_bye u _ v hu hv (Or.inl rfl), parse_bye u _ v hu hv (Or.inr (Or.inl rfl)),
      parse_bye u _ v hu hv (Or.inr (Or.inr rfl))⟩
  · intro k t hk hne ht
    have hnot : ∀ v : List Char, (∀ c ∈ v, isSpace c = true) → v ≠ ' ' :: t := by
      intro v hv hvt
      subst hvt
      exact hne (eq_nil_of_all_of_none isSpace t (fun c hc => hv c (by simp [hc])) ht)
    have hkw : ∀ (kw : List Char) (c0 : Char) (l : List Char), kw = c0 :: l →
        isSpace c0 = false → ∀ u v kw' : List Char, (∀ c ∈ u, isSpace c = true) →
        (∀ c ∈ v, isSpace c = true) → (∃ c1 l1, kw' = c1 :: l1 ∧ isSpace c1 = false) →
        kw ++ " ".toList ++ t = u ++ (kw' ++ v) → kw ++ ' ' :: t = kw' ++ v := by
      intro kw c0 l hkw hc0 u v kw' hu _ hkw' hl
      obtain ⟨c1, l1, hkw1, hc1⟩ := hkw'
      subst hkw hkw1
      have hq := lead_unique [] u (l ++ ' ' :: t) (l1 ++ v) c0 c1 (by simp) hu hc0 hc1
        (by simpa using hl)
      simpa using hq.2
    simp only [List.mem_cons, List.mem_singleton, List.not_mem_nil, or_false] at hk
    have hv0 : MatchString reVersionCommand (k ++ " ".toList ++ t) = false := by
      cases hm : MatchString reVersionCommand (k ++ " ".toList ++ t) with
      | false => rfl
      | true =>
        exfalso
        obtain ⟨u, v, hu, hv, hl⟩ := (version_iff _).mp hm
        rcases hk with rfl | rfl | rfl | rfl | rfl
        all_goals
          have := hkw _ _ _ rfl (by decide) u v _ hu hv ⟨_, _, rfl, by decide⟩ hl
          simp at this
        exact hnot v hv this.symm
    have hb0 : MatchString reByeCommand (k ++ " ".toList ++ t) = false := by
      cases hm : MatchString reByeCommand (k ++ " ".toList ++ t) with
      | false => rfl
      | true =>
        exfalso
        obtain ⟨u, kw, v, hu, hv, hkw', hl⟩ := (bye_iff _).mp hm
        rcases hk with rfl | rfl | rfl | rfl | rfl <;> rcases hkw' with rfl | rfl | rfl
        all_goals
          have := hkw _ _ _ rfl (by decide) u v _ hu hv ⟨_, _, rfl, by decide⟩ hl
          simp at this
        all_goals exact hnot v hv this.symm
    have hl0 : MatchString reListCommand (k ++ " ".toList ++ t) = false := by
      cases hm : MatchString reListCommand (k ++ " ".toList ++ t) with
      | false => rfl
      | true =>
        exfalso
        obtain ⟨u, v, hu, hv, hl⟩ := (list_iff _).mp hm
        rcases hk with rfl | rfl | rfl | rfl | rfl
        all_goals
          have := hkw _ _ _ rfl (by decide) u v _ hu hv ⟨_, _, rfl, by decide⟩ hl
          simp at this
        exact hnot v hv this.symm
    have hfirst : ∃ c, firstLetter (k ++ " ".toList ++ t) = some c ∧ c ≠ 'h' ∧ c ≠ 'd' ∧
        c ≠ 'a' := by
      rcases hk with rfl | rfl | rfl | rfl | rfl
      · exact ⟨'l', firstLetter_append [] _ 'l' (by simp) (by decide), by decide, by decide,
          by decide⟩
      · exact ⟨'v', firstLetter_append [] _ 'v' (by simp) (by decide), by decide, by decide,
          by decide⟩
      · exact ⟨'b', firstLetter_append [] _ 'b' (by simp) (by decide), by decide, by decide,
          by decide⟩
      · exact ⟨'q', firstLetter_append [] _ 'q' (by simp) (by decide), by decide, by decide,
          by decide⟩
      · exact ⟨'e', firstLetter_append [] _ 'e' (by simp) (by decide), by decide, by decide,
          by decide⟩
    obtain ⟨c, hc, hch, hcd, hca⟩ := hfirst
    exact parseLine_unknown _ hv0 hb0 (help_false _ c hc hch) hl0 (done_false _ c hc hcd)
      (add_false _ c hc hca)

/-- Witness of C9: `list` between spaces, `quit` followed by a token, and `VERSION`
and `Exit` between spaces. -/
theorem payload_free_exact_token_witness :
    ParseLine ("  ".toList ++ "list".toList ++ " \t".toList) =
      some ⟨some (.ListCommand 0), none⟩ ∧
    ParseLine ("quit".toList ++ " ".toList ++ "now".toList) =
      some ⟨none, some errUnknown⟩ ∧
    ParseLine (" ".toList ++ "VERSION".toList ++ "\t".toList) =
      some ⟨none, some errUnknown⟩ ∧
    ParseLine ("".toList ++ "Exit".toList ++ " ".toList) =
      some ⟨none, some errUnknown⟩ :=
  ⟨(payload_free_exact_token.1 "  ".toList " \t".toList (by decide) (by decide)).1,
    payload_free_exact_token.2.1 "quit".toList "now".toList (by decide) (by decide)
      (by decide),
    payload_free_exact_token.2.2.2.1 "version".toList "VERSION".toList " ".toList
      "\t".toList (by decide) (by decide) (by decide) (by decide) (by decide),
    payload_free_exact_token.2.2.2.1 "exit".toList "Exit".toList "".toList
      " ".toList (by decide) (by decide) (by decide) (by decide) (by decide)⟩

/-- C10: on a ledger of `n` tasks and a request whose due text is a valid calendar date
in the form `YYYY-MM-DD`, `AddTask` returns no error and the id `n` in decimal, and the
new list of tasks is the old list followed by one task with the description and the
project of the request as given, the parsed date, the id `n` and the status `false`. -/
theorem addTask_effect (t : TaskAgendaService) (r : AddTaskRequest)
    (h : validDate r.Due = true) :
    AddTask t r =
      ({ tasks := t.tasks ++
          [⟨r.Desc, r.Project, dateOf r.Due, (t.tasks.length : Int), false⟩] },
        some ⟨(Nat.repr t.tasks.length).toList⟩, none) := by
  simp [AddTask, timeParse_valid r.Due h, fmtInt]

/-- Witness of C10: the first task of an empty ledger, with an empty project. -/
theorem addTask_effect_witness :
    AddTask ⟨[]⟩ ⟨"buy milk".toList, [], "2024-02-29".toList⟩ =
      (⟨[⟨"buy milk".toList, [], ⟨2024, 2, 29⟩, 0, false⟩]⟩, some ⟨"0".toList⟩, none) :=
  addTask_effect ⟨[]⟩ ⟨"buy milk".toList, [], "2024-02-29".toList⟩ (by decide)

/-- C11: on a request whose due text is not a valid calendar date in the form
`YYYY-MM-DD`, `AddTask` returns the error `InvalidArgument` and no response, and the
state of the service is the state before the call, whatever that state is; and `AddTask`
returns an error on such requests only. -/
theorem addTask_rejects_invalid (t : TaskAgendaService) (r : AddTaskRequest) :
    (validDate r.Due = false →
      AddTask t r = (t, none, some ⟨.InvalidArgument, "invalid due date: %v"⟩)) ∧
    ((AddTask t r).2.2 ≠ none → validDate r.Due = false) := by
  rcases addTask_cases t r with ⟨hv, h⟩ | ⟨hv, h⟩
  · exact ⟨fun _ => h, fun _ => hv⟩
  · refine ⟨fun hf => ?_, fun he => ?_⟩
    · rw [hv] at hf; exact absurd hf (by simp)
    · rw [h] at he; exact absurd rfl he

/-- Witness of C11: the 30th of February, a month 13, a text of another shape and the
empty text are refused on a ledger that holds one task, which stays as it was. -/
theorem addTask_rejects_invalid_witness :
    (AddTask ⟨[⟨"buy milk".toList, [], ⟨2024, 2, 29⟩, 0, false⟩]⟩
        ⟨"pay rent".toList, "home".toList, "2024-02-30".toList⟩ =
      (⟨[⟨"buy milk".toList, [], ⟨2024, 2, 29⟩, 0, false⟩]⟩, none,
        some ⟨.InvalidArgument, "invalid due date: %v"⟩)) ∧
    (AddTask ⟨[⟨"buy milk".toList, [], ⟨2024, 2, 29⟩, 0, false⟩]⟩
        ⟨"pay rent".toList, "home".toList, "2024-13-01".toList⟩ =
      (⟨[⟨"buy milk".toList, [], ⟨2024, 2, 29⟩, 0, false⟩]⟩, none,
        some ⟨.InvalidArgument, "invalid due date: %v"⟩)) ∧
    (AddTask ⟨[⟨"buy milk".toList, [], ⟨2024, 2, 29⟩, 0, false⟩]⟩
        ⟨"pay rent".toList, "home".toList, "1/2/2024".toList⟩ =
      (⟨[⟨"buy milk".toList, [], ⟨2024, 2, 29⟩, 0, false⟩]⟩, none,
        some ⟨.InvalidArgument, "invalid due date: %v"⟩)) ∧
    (AddTask ⟨[⟨"buy milk".toList, [], ⟨2024, 2, 29⟩, 0, false⟩]⟩
        ⟨"pay rent".toList, "home".toList, []⟩ =
      (⟨[⟨"buy milk".toList, [], ⟨2024, 2, 29⟩, 0, false⟩]⟩, none,
        some ⟨.InvalidArgument, "invalid due date: %v"⟩)) :=
  ⟨(addTask_rejects_invalid _ _).1 (by decide), (addTask_rejects_invalid _ _).1 (by decide),
    (addTask_rejects_invalid _ _).1 (by decide), (addTask_rejects_invalid _ _).1 (by decide)⟩

/-- C12: on a ledger of `n` tasks (`n` is the length of a slice, hence below `2^63`) and
an id text that is a decimal numeral of a number `i` with `0 ≤ i < n`, `DoneTask`
returns its response and no error; afterwards the list of tasks has the same length, and
at every position `j` it holds the task that was there, with the same description,
project, due date and id, the status being `true` at position `i` and unchanged at the
other positions. -/
theorem doneTask_effect (t : TaskAgendaService) (r : DoneTaskRequest) (i : Nat)
    (hn : t.tasks.length < 2 ^ 63) (hi : numeral r.Id = some (i : Int))
    (hlt : i < t.tasks.length) :
    (DoneTask t r).2 = (some ⟨⟩, none) ∧
    (DoneTask t r).1.tasks.length = t.tasks.length ∧
    ∀ j : Nat, (DoneTask t r).1.tasks[j]? =
      (t.tasks[j]?).map fun k => if j = i then { k with status := true } else k := by
  rw [doneTask_ok t r i hn hi hlt]
  exact ⟨rfl, markDone_length _ _, fun j => markDone_getElem? _ _ j⟩

/-- Witness of C12: the id `+1` on a ledger of two tasks. -/
theorem doneTask_effect_witness :
    (DoneTask ⟨[⟨"a".toList, [], ⟨2024, 1, 1⟩, 0, false⟩,
        ⟨"b".toList, [], ⟨2024, 1, 2⟩, 1, false⟩]⟩ ⟨"+1".toList⟩).2 = (some ⟨⟩, none) ∧
    (DoneTask ⟨[⟨"a".toList, [], ⟨2024, 1, 1⟩, 0, false⟩,
        ⟨"b".toList, [], ⟨2024, 1, 2⟩, 1, false⟩]⟩ ⟨"+1".toList⟩).1.tasks.length = 2 ∧
    ∀ j : Nat, (DoneTask ⟨[⟨"a".toList, [], ⟨2024, 1, 1⟩, 0, false⟩,
        ⟨"b".toList, [], ⟨2024, 1, 2⟩, 1, false⟩]⟩ ⟨"+1".toList⟩).1.tasks[j]? =
      ([⟨"a".toList, [], ⟨2024, 1, 1⟩, 0, false⟩,
        (⟨"b".toList, [], ⟨2024, 1, 2⟩, 1, false⟩ : Task)][j]?).map
        fun k => if j = 1 then { k with status := true } else k :=
  doneTask_effect ⟨[⟨"a".toList, [], ⟨2024, 1, 1⟩, 0, false⟩,
    ⟨"b".toList, [], ⟨2024, 1, 2⟩, 1, false⟩]⟩ ⟨"+1".toList⟩ 1 (by decide) (by decide)
    (by decide)

/-- C13: on a ledger of `n` tasks (`n` below `2^63`), `DoneTask` returns an error exactly
when the id text is no decimal numeral, or is the numeral of a number `i` with `i < 0`
or `i ≥ n`; an error has the code `InvalidArgument` and comes with no response and with
the state of before the call; on the empty ledger every call returns an error. -/
theorem doneTask_fails_iff (t : TaskAgendaService) (r : DoneTaskRequest)
    (hn : t.tasks.length < 2 ^ 63) :
    ((DoneTask t r).2.2 ≠ none ↔
      (numeral r.Id = none ∨
        ∃ i : Int, numeral r.Id = some i ∧ (i < 0 ∨ i ≥ (t.tasks.length : Int)))) ∧
    ((DoneTask t r).2.2 ≠ none →
      (DoneTask t r).2.2.map Status.code = some Code.InvalidArgument ∧
        (DoneTask t r).2.1 = none ∧ (DoneTask t r).1 = t) ∧
    (t.tasks = [] → (DoneTask t r).2.2 ≠ none) := by
  refine ⟨doneTask_error_iff t r hn, doneTask_error t r, fun he => ?_⟩
  rw [doneTask_error_iff t r hn]
  cases hnum : numeral r.Id with
  | none => exact Or.inl rfl
  | some v =>
    refine Or.inr ⟨v, rfl, ?_⟩
    rw [he]
    simp only [List.length_nil, Nat.cast_zero]
    omega

/-- Witness of C13: the id `2` on a ledger of two tasks is refused and the two tasks
stay as they were. -/
theorem doneTask_fails_iff_witness :
    (DoneTask ⟨[⟨"a".toList, [], ⟨2024, 1, 1⟩, 0, false⟩,
        ⟨"b".toList, [], ⟨2024, 1, 2⟩, 1, false⟩]⟩ ⟨"2".toList⟩).2.2.map Status.code =
      some Code.InvalidArgument ∧
    (DoneTask ⟨[⟨"a".toList, [], ⟨2024, 1, 1⟩, 0, false⟩,
        ⟨"b".toList, [], ⟨2024, 1, 2⟩, 1, false⟩]⟩ ⟨"2".toList⟩).2.1 = none ∧
    (DoneTask ⟨[⟨"a".toList, [], ⟨2024, 1, 1⟩, 0, false⟩,
        ⟨"b".toList, [], ⟨2024, 1, 2⟩, 1, false⟩]⟩ ⟨"2".toList⟩).1 =
      ⟨[⟨"a".toList, [], ⟨2024, 1, 1⟩, 0, false⟩,
        ⟨"b".toList, [], ⟨2024, 1, 2⟩, 1, false⟩]⟩ :=
  (doneTask_fails_iff ⟨[⟨"a".toList, [], ⟨2024, 1, 1⟩, 0, false⟩,
    ⟨"b".toList, [], ⟨2024, 1, 2⟩, 1, false⟩]⟩ ⟨"2".toList⟩ (by decide)).2.1
    (((doneTask_fails_iff ⟨[⟨"a".toList, [], ⟨2024, 1, 1⟩, 0, false⟩,
      ⟨"b".toList, [], ⟨2024, 1, 2⟩, 1, false⟩]⟩ ⟨"2".toList⟩ (by decide)).1).mpr
      (Or.inr ⟨2, by decide, Or.inr (by decide)⟩))

/-- C14: on a ledger of `n` tasks (`n` below `2^63`) and an id text that is a decimal
numeral of a number `i` with `0 ≤ i < n`, `DoneTask` succeeds, a second `DoneTask` with
the same id on the state that the first one leaves succeeds too and leaves that state
as it is; and when task `i` is completed already, `DoneTask` succeeds and leaves the
state as it is. -/
theorem doneTask_idempotent (t : TaskAgendaService) (r : DoneTaskRequest) (i : Nat)
    (hn : t.tasks.length < 2 ^ 63) (hi : numeral r.Id = some (i : Int))
    (hlt : i < t.tasks.length) :
    (DoneTask t r).2 = (some ⟨⟩, none) ∧
    DoneTask (DoneTask t r).1 r = ((DoneTask t r).1, some ⟨⟩, none) ∧
    (∀ k : Task, t.tasks[i]? = some k → k.status = true →
      DoneTask t r = (t, some ⟨⟩, none)) := by
  have h1 := doneTask_ok t r i hn hi hlt
  refine ⟨by rw [h1], ?_, ?_⟩
  · rw [h1]
    have h2 := doneTask_ok { tasks := markDone t.tasks i } r i
      (by simp only [markDone_length]; exact hn) hi
      (by simp only [markDone_length]; exact hlt)
    rw [h2]
    simp only [markDone_idem]
  · intro k hk hs
    rw [h1, markDone_done t.tasks i k hk hs]

/-- Witness of C14: the id `0` on a ledger of one task that is completed already. -/
theorem doneTask_idempotent_witness :
    (DoneTask ⟨[⟨"a".toList, [], ⟨2024, 1, 1⟩, 0, true⟩]⟩ ⟨"0".toList⟩).2 =
      (some ⟨⟩, none) ∧
    DoneTask (DoneTask ⟨[⟨"a".toList, [], ⟨2024, 1, 1⟩, 0, true⟩]⟩ ⟨"0".toList⟩).1
        ⟨"0".toList⟩ =
      ((DoneTask ⟨[⟨"a".toList, [], ⟨2024, 1, 1⟩, 0, true⟩]⟩ ⟨"0".toList⟩).1,
        some ⟨⟩, none) ∧
    (∀ k : Task, [(⟨"a".toList, [], ⟨2024, 1, 1⟩, 0, true⟩ : Task)][0]? = some k →
      k.status = true →
      DoneTask ⟨[⟨"a".toList, [], ⟨2024, 1, 1⟩, 0, true⟩]⟩ ⟨"0".toList⟩ =
        (⟨[⟨"a".toList, [], ⟨2024, 1, 1⟩, 0, true⟩]⟩, some ⟨⟩, none)) :=
  doneTask_idempotent ⟨[⟨"a".toList, [], ⟨2024, 1, 1⟩, 0, true⟩]⟩ ⟨"0".toList⟩ 0
    (by decide) (by decide) (by decide)

/-- C15: for a request whose due text `s` is a valid calendar date, formatting the date
that is parsed from `s` gives `s` back; the listing after `AddTask` is the listing of
before followed by the one entry of the request, with the due text as it was sent; on
the empty ledger that listing is this one entry; a listing has one entry for each
stored task, in the order of the tasks; and `ListTasks` returns no error and leaves the
state as it is. -/
theorem list_after_add (t : TaskAgendaService) (r : AddTaskRequest)
    (h : validDate r.Due = true) :
    Time.Format (dateOf r.Due) = r.Due ∧
    (ListTasks (AddTask t r).1).2.1 =
      (ListTasks t).2.1.map (fun l => ⟨l.Tasks ++ [⟨r.Desc, r.Project, r.Due⟩]⟩) ∧
    (ListTasks (AddTask ⟨[]⟩ r).1).2.1 = some ⟨[⟨r.Desc, r.Project, r.Due⟩]⟩ ∧
    (ListTasks t).2.1 =
      some ⟨t.tasks.map fun v => ⟨v.Desc, v.Project, Time.Format v.Due⟩⟩ ∧
    (ListTasks t).1 = t ∧ (ListTasks t).2.2 = none := by
  have hf := format_valid r.Due h
  refine ⟨hf, ?_, ?_, rfl, rfl, rfl⟩
  · simp only [AddTask, timeParse_valid r.Due h, listTasks_eq, Option.map_some',
      List.map_append, List.map_cons, List.map_nil, hf]
  · simp only [AddTask, timeParse_valid r.Due h, listTasks_eq, List.nil_append,
      List.map_cons, List.map_nil, hf]

/-- Witness of C15: `buy milk`, `home`, `2024-01-01` on the empty ledger. -/
theorem list_after_add_witness :
    (ListTasks (AddTask ⟨[]⟩ ⟨"buy milk".toList, "home".toList, "2024-01-01".toList⟩).1).2.1 =
      some ⟨[⟨"buy milk".toList, "home".toList, "2024-01-01".toList⟩]⟩ :=
  (list_after_add ⟨[]⟩ ⟨"buy milk".toList, "home".toList, "2024-01-01".toList⟩
    (by decide)).2.2.1

/-- C16: in the state that any sequence of `AddTask`, `DoneTask` and `ListTasks` calls
leaves when it starts on the empty ledger, the task at position `i` has the id `i`: the
ids of the stored tasks are `0, 1, ..., n-1` in this order, without a duplicate; a task
that is stored keeps its position and its id through every later call; and the ids
that the successful `AddTask` calls return are the decimal numerals of `0, 1, ..., n-1`
in the order of the calls, without a duplicate. -/
theorem id_invariant (cs : List Call) :
    (∀ (i : Nat) (k : Task), (calls ⟨[]⟩ cs).tasks[i]? = some k → k.id = (i : Int)) ∧
    (calls ⟨[]⟩ cs).tasks.map Task.id =
      (List.range (calls ⟨[]⟩ cs).tasks.length).map Int.ofNat ∧
    ((calls ⟨[]⟩ cs).tasks.map Task.id).Nodup ∧
    (∀ (ds : List Call) (i : Nat) (k : Task), (calls ⟨[]⟩ cs).tasks[i]? = some k →
      ∃ k', (calls ⟨[]⟩ (cs ++ ds)).tasks[i]? = some k' ∧ k'.id = k.id) ∧
    addedIds ⟨[]⟩ cs =
      (List.range (calls ⟨[]⟩ cs).tasks.length).map (fun i : Nat => fmtInt (i : Int)) ∧
    (addedIds ⟨[]⟩ cs).Nodup := by
  have hinv : ∀ (i : Nat) (k : Task), (calls ⟨[]⟩ cs).tasks[i]? = some k → k.id = (i : Int) :=
    calls_ids ⟨[]⟩ cs (fun i k hk => absurd hk (by simp))
  have hmap : (calls ⟨[]⟩ cs).tasks.map Task.id =
      (List.range (calls ⟨[]⟩ cs).tasks.length).map Int.ofNat := by
    apply List.ext_getElem?
    intro i
    simp only [List.getElem?_map]
    by_cases hi : i < (calls ⟨[]⟩ cs).tasks.length
    · rw [List.getElem?_eq_getElem hi, List.getElem?_range hi]
      simp only [Option.map_some', Option.some.injEq]
      exact hinv i _ (List.getElem?_eq_getElem hi)
    · rw [List.getElem?_eq_none (Nat.le_of_not_lt hi),
        List.getElem?_eq_none (by simpa using Nat.le_of_not_lt hi)]
      rfl
  have hadd : addedIds ⟨[]⟩ cs =
      (List.range (calls ⟨[]⟩ cs).tasks.length).map (fun i : Nat => fmtInt (i : Int)) := by
    rw [addedIds_eq]
    simp only [List.length_nil, Nat.sub_zero, List.range_eq_range']
  refine ⟨hinv, hmap, ?_, ?_, hadd, ?_⟩
  · rw [hmap]
    exact List.Nodup.map (fun a b hab => Int.ofNat.inj hab) (List.nodup_range _)
  · intro ds i k hk
    rw [calls_append]
    obtain ⟨k', h1, _, _, _, h2, _⟩ := calls_keeps (calls ⟨[]⟩ cs) ds i k hk
    exact ⟨k', h1, h2⟩
  · rw [hadd]
    exact List.Nodup.map (fun a b hab => fmtInt_nat_inj a b hab) (List.nodup_range _)

/-- Witness of C16: an `AddTask` that fails, two that succeed, a `DoneTask` and a
`ListTasks` return the ids `0` and `1`. -/
theorem id_invariant_witness :
    addedIds ⟨[]⟩ [.add ⟨"a".toList, [], "2024-02-30".toList⟩,
        .add ⟨"b".toList, [], "2024-02-28".toList⟩, .done ⟨"0".toList⟩, .list,
        .add ⟨"c".toList, [], "2024-03-01".toList⟩] =
      (List.range (calls ⟨[]⟩ [.add ⟨"a".toList, [], "2024-02-30".toList⟩,
        .add ⟨"b".toList, [], "2024-02-28".toList⟩, .done ⟨"0".toList⟩, .list,
        .add ⟨"c".toList, [], "2024-03-01".toList⟩]).tasks.length).map
        (fun i : Nat => fmtInt (i : Int)) :=
  (id_invariant [.add ⟨"a".toList, [], "2024-02-30".toList⟩,
    .add ⟨"b".toList, [], "2024-02-28".toList⟩, .done ⟨"0".toList⟩, .list,
    .add ⟨"c".toList, [], "2024-03-01".toList⟩]).2.2.2.2.1

/-- C17: a task that a call stores at a position that was free before the call has the
status `false`; and through any sequence of `AddTask`, `DoneTask` and `ListTasks` calls
a stored task stays at its position, and a status that is `true` stays `true`. -/
theorem completion_one_way (t : TaskAgendaService) (cs : List Call) :
    (∀ (c : Call) (i : Nat) (k : Task), t.tasks[i]? = none →
      (call t c).tasks[i]? = some k → k.status = false) ∧
    (∀ (i : Nat) (k : Task), t.tasks[i]? = some k →
      ∃ k', (calls t cs).tasks[i]? = some k' ∧ (k.status = true → k'.status = true)) ∧
    t.tasks.length ≤ (calls t cs).tasks.length := by
  refine ⟨?_, ?_, calls_length t cs⟩
  · intro c i k hnone hk
    have hge : t.tasks.length ≤ i := List.getElem?_eq_none_iff.mp hnone
    rcases call_cases t c with hc | ⟨r, _, _, hc⟩ | ⟨j, _, hc⟩
    · rw [hc, hnone] at hk; exact absurd hk (by simp)
    · rw [hc] at hk
      simp only at hk
      rw [List.getElem?_append_right hge] at hk
      have hlt : i - t.tasks.length < 1 := by
        have := (List.getElem?_eq_some_iff.mp hk).1
        simpa using this
      have h0 : i - t.tasks.length = 0 := by omega
      rw [h0] at hk
      simp only [List.getElem?_cons_zero, Option.some.injEq] at hk
      rw [← hk]
    · rw [hc] at hk
      simp only [markDone_getElem?, hnone, Option.map_none'] at hk
      exact absurd hk (by simp)
  · intro i k hk
    obtain ⟨k', h1, _, _, _, _, h2⟩ := calls_keeps t cs i k hk
    exact ⟨k', h1, h2⟩

/-- Witness of C17: a completed task stays completed through an `AddTask`, a
`DoneTask` of another task and a `ListTasks`. -/
theorem completion_one_way_witness :
    ∃ k', (calls ⟨[⟨"a".toList, [], ⟨2024, 1, 1⟩, 0, true⟩,
        ⟨"b".toList, [], ⟨2024, 1, 2⟩, 1, false⟩]⟩
        [.add ⟨"c".toList, [], "2024-03-01".toList⟩, .done ⟨"1".toList⟩, .list]).tasks[0]? =
          some k' ∧
      ((⟨"a".toList, [], ⟨2024, 1, 1⟩, 0, true⟩ : Task).status = true → k'.status = true) :=
  (completion_one_way ⟨[⟨"a".toList, [], ⟨2024, 1, 1⟩, 0, true⟩,
    ⟨"b".toList, [], ⟨2024, 1, 2⟩, 1, false⟩]⟩
    [.add ⟨"c".toList, [], "2024-03-01".toList⟩, .done ⟨"1".toList⟩, .list]).2.1 0
    ⟨"a".toList, [], ⟨2024, 1, 1⟩, 0, true⟩ rfl

/-- C18 (the defect): after `AddTask` of `buy milk` on the empty ledger and a successful
`DoneTask` of the id `0`, the only task is completed and `ListTasks` still returns its
entry: the listing holds the tasks that are not pending too. -/
theorem completed_task_listed :
    (DoneTask (AddTask ⟨[]⟩ ⟨"buy milk".toList, "home".toList, "2024-01-01".toList⟩).1
        ⟨"0".toList⟩).2 = (some ⟨⟩, none) ∧
    (DoneTask (AddTask ⟨[]⟩ ⟨"buy milk".toList, "home".toList, "2024-01-01".toList⟩).1
        ⟨"0".toList⟩).1.tasks.map Task.status = [true] ∧
    (ListTasks (DoneTask
        (AddTask ⟨[]⟩ ⟨"buy milk".toList, "home".toList, "2024-01-01".toList⟩).1
        ⟨"0".toList⟩).1).2.1 =
      some ⟨[⟨"buy milk".toList, "home".toList, "2024-01-01".toList⟩]⟩ := by
  decide

/-- C20: on every line, no two of the six patterns of `ParseLine` match; the chain of
tests over the six branches in the order of the source is `ParseLine`, and over the six
branches in any other order it gives the same result. -/
theorem patterns_disjoint (line : List Char) :
    [reVersionCommand, reByeCommand, reHelpCommand, reListCommand, reDoneCommand,
      reAddCommand].Pairwise
      (fun p q => ¬ (MatchString p line = true ∧ MatchString q line = true)) ∧
    branches.map Prod.fst = [reVersionCommand, reByeCommand, reHelpCommand, reListCommand,
      reDoneCommand, reAddCommand] ∧
    parseIn branches line = ParseLine line ∧
    ∀ bs : List (Regex × (List Char → Option Ret)), bs.Perm branches →
      parseIn bs line = ParseLine line := by
  refine ⟨?_, rfl, parseIn_branches line, fun bs hp => ?_⟩
  · have hv := version_slot line
    have hb := bye_slot line
    have hh := help_slot line
    have hl := list_slot line
    have hd := done_slot line
    have ha := add_slot line
    simp only [List.pairwise_cons, List.mem_cons, List.mem_singleton, List.not_mem_nil,
      or_false, forall_eq_or_imp, forall_eq, List.Pairwise.nil, and_true, IsEmpty.forall_iff,
      implies_true]
    refine ⟨⟨?_, ?_, ?_, ?_, ?_⟩, ⟨?_, ?_, ?_, ?_⟩, ⟨?_, ?_, ?_⟩, ⟨?_, ?_⟩, ?_⟩ <;>
      (rintro ⟨h1, h2⟩
       first
       | (have e1 := hv h1; first
           | (have e2 := hb h2; omega) | (have e2 := hh h2; omega) | (have e2 := hl h2; omega)
           | (have e2 := hd h2; omega) | (have e2 := ha h2; omega))
       | (have e1 := hb h1; first
           | (have e2 := hh h2; omega) | (have e2 := hl h2; omega)
           | (have e2 := hd h2; omega) | (have e2 := ha h2; omega))
       | (have e1 := hh h1; first
           | (have e2 := hl h2; omega) | (have e2 := hd h2; omega) | (have e2 := ha h2; omega))
       | (have e1 := hl h1; first
           | (have e2 := hd h2; omega) | (have e2 := ha h2; omega))
       | (have e1 := hd h1; have e2 := ha h2; omega))
  · rw [← parseIn_branches line]
    exact parseIn_members line bs (fun b => hp.mem_iff)

/-- Witness of C20: on `done 3` the six branches in the opposite order give what
`ParseLine` gives. -/
theorem patterns_disjoint_witness :
    parseIn branches.reverse "done 3".toList = ParseLine "done 3".toList :=
  (patterns_disjoint "done 3".toList).2.2.2 branches.reverse (List.reverse_perm _)

end Todo
